import Mathlib

/-!
# ZPL image module (`zpl_image.h`): embedding and verified properties

The pixel-math layer of `zpl_image.h` is embedded here as executable Lean
definitions, one per C function, keeping the C names.

Modelling conventions.

* `u8` fields are natural numbers; every store into a `u8` reduces modulo 256.
* `i32` values are integers.  Signed index arithmetic is taken without
  overflow (overflow is undefined in C); conversions from floating point to
  an integer type are checked and raise `Fault.undefined` outside the range
  of the target type, as does an integer division by zero.
* `f32` and `f64` values are the rational numbers they denote.  Every
  arithmetic operation is the exact rational operation followed by IEEE-754
  rounding to nearest, ties to even (`fp_round`), with 24 resp. 53 significant
  bits and gradual underflow; each operation is evaluated in the format of its
  C type (`FLT_EVAL_METHOD = 0`) and rounded on its own (no fused
  multiply-add).  Infinities and NaN are not values of the model: the exponent
  range is unbounded above, and the only consumers of such results are integer
  conversions, which are undefined there anyway.
* Memory is a total map from cell addresses to pixels; one cell is one
  four-byte `zplRgbColour`.  A pointer is the address of a cell; the null
  pointer is address `0`.
* `zpl_image_rgb_resize` takes the addresses of its parameters `source` and
  `dest`, so these two pointer variables live in memory: each is eight bytes,
  that is two cells, holding the byte address `4 * p` of the cell `p` it
  points to, low word first.  An access through a pointer to such a variable
  that leaves the object (`object_cells` cells from its first cell, two under
  the rules of C) raises `Fault.undefined`, and so does the use of a pointer
  value read back from the variable that is not inside one of the caller's
  two image buffers.
-/

/-- Ways in which an execution of the C code stops without a result. -/
inductive Fault where
  | assertion
  | undefined
deriving DecidableEq

/-! ## Floating point -/

/-- Binary digits of `n`, computed with explicit fuel. -/
def bit_length_fuel : Nat → Nat → Nat
  | 0, _ => 0
  | fuel + 1, n => if n = 0 then 0 else bit_length_fuel fuel (n / 2) + 1

/-- Number of binary digits of `n` (`0` for `0`). -/
def bit_length (n : Nat) : Nat := bit_length_fuel n n

/-- The integer nearest to `n / d`, ties going to the even integer. -/
def round_half_even (n : Int) (d : Nat) : Int :=
  let q := n / (d : Int)
  let r := n % (d : Int)
  if 2 * r < d then q
  else if (d : Int) < 2 * r then q + 1
  else if q % 2 = 0 then q else q + 1

/-- IEEE-754 rounding of the fraction `N / D` to a binary format with `prec`
significant bits whose smallest positive value is `2 ^ (-emin)`. -/
def fp_round_frac (prec emin : Nat) (N : Int) (D : Nat) : ℚ :=
  let n : Int := N * 2 ^ emin
  let k : Nat := bit_length (n.natAbs / D) - prec
  ((round_half_even n (D * 2 ^ k) * 2 ^ k : Int) : ℚ) / 2 ^ emin

/-- IEEE-754 rounding (nearest, ties to even) of a rational number. -/
def fp_round (prec emin : Nat) (x : ℚ) : ℚ := fp_round_frac prec emin x.num x.den

/-- Rounding to `f64` (binary64). -/
def f64_round (x : ℚ) : ℚ := fp_round 53 1074 x

/-- Rounding to `f32` (binary32). -/
def f32_round (x : ℚ) : ℚ := fp_round 24 149 x

/-- The C operator `+` on `f64`. -/
def f64_add (x y : ℚ) : ℚ := f64_round (x + y)

/-- The C operator `-` on `f64`. -/
def f64_sub (x y : ℚ) : ℚ := f64_round (x - y)

/-- The C operator `*` on `f64`. -/
def f64_mul (x y : ℚ) : ℚ := f64_round (x * y)

/-- The C operator `/` on `f64`, for a non-zero divisor. -/
def f64_div (x y : ℚ) : ℚ := f64_round (x / y)

/-- The C operator `/` on `f32`, for a non-zero divisor. -/
def f32_div (x y : ℚ) : ℚ := f32_round (x / y)

/-- Conversion `i32 → f32`. -/
def i32_to_f32 (n : Int) : ℚ := f32_round n

/-- Conversion `i32 → f64` (always exact). -/
def i32_to_f64 (n : Int) : ℚ := f64_round n

/-- Truncation of a rational number toward zero. -/
def trunc_to_zero (x : ℚ) : Int := Int.tdiv x.num x.den

/-- Conversion of a floating-point value to `i32`: truncation toward zero,
undefined when the truncated value is not an `i32`. -/
def f_to_i32 (x : ℚ) : Except Fault Int :=
  let t := trunc_to_zero x
  if -2147483648 ≤ t ∧ t ≤ 2147483647 then .ok t else .error .undefined

/-- Conversion of a floating-point value to `u8`: truncation toward zero,
undefined when the truncated value is not a `u8`. -/
def f_to_u8 (x : ℚ) : Except Fault Nat :=
  let t := trunc_to_zero x
  if 0 ≤ t ∧ t ≤ 255 then .ok t.toNat else .error .undefined

/-- A store of an integer into a `u8`. -/
def to_u8 (x : Int) : Nat := (x % 256).toNat

deriving instance DecidableEq for Except

/-! ## Colours -/

/-- The C union `zplRgbColour`: the channels `r`, `g`, `b` and the fourth byte
of the 32-bit word, which is reachable only through the member `colour`. -/
structure zplRgbColour where
  r : Nat
  g : Nat
  b : Nat
  pad : Nat
deriving DecidableEq

/-- The C struct `zplHsvColour`: the word `colour` followed by `h`, `s`, `v`. -/
structure zplHsvColour where
  colour : Nat
  h : Nat
  s : Nat
  v : Nat
deriving DecidableEq

/-- Every channel of an RGB colour is a `u8`. -/
@[reducible] def zplRgbColour.is_u8 (c : zplRgbColour) : Prop := c.r < 256 ∧ c.g < 256 ∧ c.b < 256

/-- Every field of an HSV colour is a `u8`. -/
@[reducible] def zplHsvColour.is_u8 (c : zplHsvColour) : Prop := c.h < 256 ∧ c.s < 256 ∧ c.v < 256

/-- The macro `LERP(c1, c2, c3)`, which expands to `c1*(1.0-c3) + c2*c3` with
`c1`, `c2` of type `u8` and `c3` of type `f32`.  By the usual arithmetic
conversions `1.0-c3` and its product with `c1` are `f64` operations, `c2*c3`
is an `f32` multiplication, and the sum is an `f64` addition. -/
def LERP (c1 c2 : Nat) (c3 : ℚ) : ℚ :=
  f64_add (f64_mul (i32_to_f64 c1) (f64_sub 1 c3)) (f32_round ((i32_to_f32 c2) * c3))

/-- `zpl_image_rgb_lerp`: each channel is `LERP` of the two inputs, converted
to `u8` by the assignment. -/
def zpl_image_rgb_lerp (a b : zplRgbColour) (t : ℚ) : Except Fault zplRgbColour := do
  let r ← f_to_u8 (LERP a.r b.r t)
  let g ← f_to_u8 (LERP a.g b.g t)
  let b ← f_to_u8 (LERP a.b b.b t)
  pure ⟨r, g, b, 0⟩

/-- `zpl_image_rgb_to_hsv`. -/
def zpl_image_rgb_to_hsv (colour : zplRgbColour) : zplHsvColour :=
  let rgb_min : Nat :=
    if colour.r < colour.g then (if colour.r < colour.b then colour.r else colour.b)
    else (if colour.g < colour.b then colour.g else colour.b)
  let rgb_max : Nat :=
    if colour.r > colour.g then (if colour.r > colour.b then colour.r else colour.b)
    else (if colour.g > colour.b then colour.g else colour.b)
  let v := rgb_max
  if v = 0 then ⟨0, 0, 0, v⟩
  else
    let s := to_u8 (Int.tdiv (255 * ((rgb_max : Int) - (rgb_min : Int))) (v : Int))
    if s = 0 then ⟨0, 0, s, v⟩
    else if rgb_max = colour.r then
      ⟨0, to_u8 (0 + Int.tdiv (43 * ((colour.g : Int) - (colour.b : Int)))
                    ((rgb_max : Int) - (rgb_min : Int))), s, v⟩
    else if rgb_max = colour.g then
      ⟨0, to_u8 (85 + Int.tdiv (43 * ((colour.b : Int) - (colour.r : Int)))
                    ((rgb_max : Int) - (rgb_min : Int))), s, v⟩
    else
      ⟨0, to_u8 (171 + Int.tdiv (43 * ((colour.r : Int) - (colour.g : Int)))
                    ((rgb_max : Int) - (rgb_min : Int))), s, v⟩

/-- `zpl_image_hsv_to_rgb`. -/
def zpl_image_hsv_to_rgb (colour : zplHsvColour) : zplRgbColour :=
  if colour.s = 0 then ⟨colour.v, colour.v, colour.v, 0⟩
  else
    let region : Nat := to_u8 (Int.tdiv (colour.h : Int) 43)
    let rem : Nat := to_u8 (((colour.h : Int) - ((region : Int) * 43)) * 6)
    let p : Nat := to_u8 (((colour.v : Int) * (255 - (colour.s : Int))) >>> (8 : Nat))
    let q : Nat :=
      to_u8 (((colour.v : Int) * (255 - (((colour.s : Int) * (rem : Int)) >>> (8 : Nat))))
        >>> (8 : Nat))
    let t : Nat :=
      to_u8 (((colour.v : Int) * (255 - (((colour.s : Int) * (255 - (rem : Int))) >>> (8 : Nat))))
        >>> (8 : Nat))
    match region with
    | 0 => ⟨colour.v, t, p, 0⟩
    | 1 => ⟨q, colour.v, p, 0⟩
    | 2 => ⟨p, colour.v, t, 0⟩
    | 3 => ⟨p, q, colour.v, 0⟩
    | 4 => ⟨t, p, colour.v, 0⟩
    | _ => ⟨colour.v, p, q, 0⟩

/-! ## Memory -/

/-- Memory: a total map from cell addresses to pixels. -/
def Mem : Type := Int → zplRgbColour

/-- A store of a whole pixel at address `a`. -/
def Mem.write (m : Mem) (a : Int) (c : zplRgbColour) : Mem :=
  fun i => if i = a then c else m i

/-- Modelled from the spec: the macro `ZPL_ASSERT_NOT_NULL` is defined in
`zpl.h`, which is not among the sources; it is the precondition check that
fails when its argument is the null pointer. -/
def ZPL_ASSERT_NOT_NULL (ptr : Int) : Except Fault Unit :=
  if ptr = 0 then .error .assertion else .ok ()

/-- Modelled from the spec: `zpl_memcopy` is defined in `zpl.h`, which is not
among the sources; it copies `n` bytes, that is `n / 4` cells, from `source`
to `dest`. -/
def zpl_memcopy (mem : Mem) (dest source : Int) (n : Int) : Mem :=
  fun a => if dest ≤ a ∧ a < dest + Int.tdiv n 4 then mem (source + (a - dest)) else mem a

/-- Modelled from the spec: the macro `zpl_min` of `zpl.h` (the upper half of
the clamp). -/
def zpl_min (a b : Int) : Int := if a < b then a else b

/-- Modelled from the spec: the macro `zpl_max` of `zpl.h` (the lower half of
the clamp). -/
def zpl_max (a b : Int) : Int := if a > b then a else b

/-- Division of `i32` values: truncating, undefined for a zero divisor. -/
def i32_div (a b : Int) : Except Fault Int :=
  if b = 0 then .error .undefined else .ok (Int.tdiv a b)

/-! ## Convolution filter -/

/-- One statement `acc += channel * weight` of the filter: `acc` is an `i32`,
`channel` a `u8`, `weight` an `f64`; the sum is formed in `f64` and converted
back to `i32`. -/
def filter_accumulate (acc : Int) (channel : Nat) (weight : ℚ) : Except Fault Int :=
  f_to_i32 (f64_add (i32_to_f64 acc) (f64_mul (i32_to_f64 channel) weight))

/-- The column `img_x` (or row `img_y`) sampled for kernel offset `fx` at
destination coordinate `x`: `(x - filter_w / 2 + fx + source_w) % source_w`
with the truncating C operators. -/
def filter_wrap (x filter_w fx source_w : Int) : Int :=
  Int.tmod (x - Int.tdiv filter_w 2 + fx + source_w) source_w

/-- The body of the two inner loops of `zpl_image_rgb_filter`, for kernel
cell `(fx, fy)` at destination pixel `(x, y)`. -/
def filter_cell (mem : Mem) (src : Int) (source_w source_h : Int)
    (filter : Int → ℚ) (filter_w filter_h : Int) (x y : Int)
    (acc : Int × Int × Int) (fx fy : Int) : Except Fault (Int × Int × Int) := do
  let img_x := filter_wrap x filter_w fx source_w
  let img_y := filter_wrap y filter_h fy source_h
  let r ← filter_accumulate acc.1 (mem (src + (img_y * source_w + img_x))).r
            (filter (fy * filter_w + fx))
  let g ← filter_accumulate acc.2.1 (mem (src + (img_y * source_w + img_x))).g
            (filter (fy * filter_w + fx))
  let b ← filter_accumulate acc.2.2 (mem (src + (img_y * source_w + img_x))).b
            (filter (fy * filter_w + fx))
  pure (r, g, b)

/-- The two inner loops of `zpl_image_rgb_filter`: the values of the
accumulators `r`, `g`, `b` for destination pixel `(x, y)`. -/
def filter_sums (mem : Mem) (src : Int) (source_w source_h : Int)
    (filter : Int → ℚ) (filter_w filter_h : Int) (x y : Int) :
    Except Fault (Int × Int × Int) :=
  (List.range filter_h.toNat).foldlM
    (fun acc (fy : Nat) => (List.range filter_w.toNat).foldlM
      (fun acc (fx : Nat) => filter_cell mem src source_w source_h filter filter_w filter_h x y
        acc (fx : Int) (fy : Int)) acc)
    (0, 0, 0)

/-- The value stored into one channel of the destination:
`zpl_min(zpl_max(cast(i32)(factor * acc + bias), 0), 255)`. -/
def filter_store (factor bias : ℚ) (acc : Int) : Except Fault Nat := do
  let v ← f_to_i32 (f64_add (f64_mul factor (i32_to_f64 acc)) bias)
  pure (to_u8 (zpl_min (zpl_max v 0) 255))

/-- The body of the two outer loops of `zpl_image_rgb_filter` for destination
pixel `(x, y)`: the three channels of `dst[y * source_w + x]` are overwritten,
its fourth byte is kept. -/
def filter_pixel (mem : Mem) (src : Int) (source_w source_h : Int) (dst : Int)
    (filter : Int → ℚ) (filter_w filter_h : Int) (factor bias : ℚ) (x y : Int) :
    Except Fault Mem := do
  let acc ← filter_sums mem src source_w source_h filter filter_w filter_h x y
  let r ← filter_store factor bias acc.1
  let g ← filter_store factor bias acc.2.1
  let b ← filter_store factor bias acc.2.2
  pure (mem.write (dst + (y * source_w + x))
    ⟨r, g, b, (mem (dst + (y * source_w + x))).pad⟩)

/-- `zpl_image_rgb_filter`. -/
def zpl_image_rgb_filter (mem : Mem) (source : Int) (source_w source_h : Int) (dest : Int)
    (filter : Int → ℚ) (filter_w filter_h : Int) (factor bias : ℚ) : Except Fault Mem :=
  let src := source
  let dst := dest
  (List.range source_h.toNat).foldlM
    (fun m (y : Nat) => (List.range source_w.toNat).foldlM
      (fun m (x : Nat) => filter_pixel m src source_w source_h dst filter filter_w filter_h
        factor bias (x : Int) (y : Int)) m)
    mem

/-! ## Resize -/

/-- The expression `cast(i32)(a / cast(f32)b)` that computes a step: `a` is
converted to `f32` for the division, and the quotient is truncated. -/
def resize_step (a b : Int) : Except Fault Int :=
  if i32_to_f32 b = 0 then .error .undefined
  else f_to_i32 (f32_div (i32_to_f32 a) (i32_to_f32 b))

/-- The source coordinate of one axis: `o = x / step; if (down) o = x * step`. -/
def resize_coord (down : Bool) (step x : Int) : Except Fault Int := do
  let o ← i32_div x step
  pure (if down then x * step else o)

/-- The 32-bit word held by a cell, in little-endian byte order: `r` is
byte 0, `g` byte 1, `b` byte 2 and the fourth byte of the union byte 3. -/
def cell_word (c : zplRgbColour) : Int :=
  (c.r : Int) + 256 * (c.g : Int) + 65536 * (c.b : Int) + 16777216 * (c.pad : Int)

/-- The cell whose four bytes are the 32-bit word `w`. -/
def word_cell (w : Int) : zplRgbColour :=
  ⟨(w % 256).toNat, (w / 256 % 256).toNat, (w / 65536 % 256).toNat,
    (w / 16777216 % 256).toNat⟩

/-- The store of a pointer into a pointer variable.  A pointer variable is
eight bytes, that is the two cells `a` and `a + 1`; the pointer to cell `p`
is the byte address `4 * p`, stored low word first. -/
def store_ptr (mem : Mem) (a p : Int) : Mem :=
  (mem.write a (word_cell (4 * p % 4294967296))).write (a + 1)
    (word_cell (4 * p / 4294967296))

/-- The load of a pointer from the pointer variable at cells `a` and `a + 1`:
the cell its eight bytes address.  Bytes that are not the address of a cell
(not a multiple of four) are no pointer to a pixel. -/
def load_ptr (mem : Mem) (a : Int) : Except Fault Int :=
  let v := cell_word (mem a) + 4294967296 * cell_word (mem (a + 1))
  if v % 4 = 0 then .ok (v / 4) else .error .undefined

/-- An access `src[i]` or `dst[i]` through a pointer to a parameter variable:
it is defined only when index `i` lies inside the `object_cells` cells of the
object the pointer points to. -/
def object_access (object_cells i : Int) : Except Fault Unit :=
  if 0 ≤ i ∧ i < object_cells then .ok () else .error .undefined

/-- An access to `n` cells through the pointer `p` that the blur pass reads
back from the variable `dest`: it is defined only when these cells lie inside
a buffer the caller has passed, the source buffer of `source_cells` cells or
the destination buffer of `dest_cells` cells. -/
def buffer_access (p n : Int) (source source_cells dest dest_cells : Int) : Except Fault Unit :=
  if (source ≤ p ∧ p + n ≤ source + source_cells) ∨ (dest ≤ p ∧ p + n ≤ dest + dest_cells)
  then .ok () else .error .undefined

/-- The body of the copy loop of `zpl_image_rgb_resize` for destination
coordinate `(x, y)`: the read `src[o_y * source_w + o_x]` and the write
`dst[y * dest_w + x]`, both through pointers to parameter variables. -/
def resize_pixel (mem : Mem) (src : Int) (source_w : Int) (dst : Int) (dest_w : Int)
    (object_cells : Int) (x_down y_down : Bool) (step_x step_y : Int) (x y : Int) :
    Except Fault Mem := do
  let o_x ← resize_coord x_down step_x x
  let o_y ← resize_coord y_down step_y y
  object_access object_cells (o_y * source_w + o_x)
  let colour := mem (src + (o_y * source_w + o_x))
  object_access object_cells (y * dest_w + x)
  pure (mem.write (dst + (y * dest_w + x)) colour)

/-- The static table `filter[5][5]` of `zpl_image_rgb_resize`. -/
def blur_filter (i : Int) : ℚ :=
  ([0, 0, 1, 0, 0,
    0, 1, 1, 1, 0,
    1, 1, 1, 1, 1,
    0, 1, 1, 1, 0,
    0, 0, 1, 0, 0] : List ℚ).getD i.toNat 0

/-- `zpl_image_rgb_resize`.  The function sets `src = &(source)` and
`dst = &(dest)`, so its loop reads and writes the parameter variables
themselves.  Besides the arguments of the C function the model therefore
takes

* `addr_source` and `addr_dest`, the cells at which the parameter variables
  `source` and `dest` are stored; on entry they hold the two arguments;
* `object_cells`, the number of cells, counted from the first cell of either
  variable, that an access through `src` or `dst` may touch.  Under the rules
  of C this is `2`, the size of the variable (an 8-byte pointer); a larger
  value describes a run in which that many cells of the stack behind each
  variable can be read and overwritten without effect on the call itself.
  An access outside has no defined behaviour.

The blur pass uses the variable `dest` after the loop has written to it: the
pointer is read back from its two cells. -/
def zpl_image_rgb_resize (mem : Mem) (addr_source addr_dest object_cells : Int)
    (source : Int) (source_w source_h : Int) (dest : Int) (dest_w dest_h : Int)
    (blur_iter : Int) (blur_mem : Int) : Except Fault Mem := do
  let mem0 := store_ptr (store_ptr mem addr_source source) addr_dest dest
  let src := addr_source
  let dst := addr_dest
  let x_down := decide (dest_w < source_w)
  let y_down := decide (dest_h < source_h)
  let step_x ← (if x_down then resize_step source_w dest_w else resize_step dest_w source_w)
  let step_y ← (if y_down then resize_step source_h dest_h else resize_step dest_h source_h)
  let mem1 ← (List.range dest_h.toNat).foldlM
    (fun m (y : Nat) => (List.range dest_w.toNat).foldlM
      (fun m (x : Nat) => resize_pixel m src source_w dst dest_w object_cells x_down y_down
        step_x step_y (x : Int) (y : Int)) m)
    mem0
  if blur_iter > 0 then
    ZPL_ASSERT_NOT_NULL blur_mem
    let factor := f64_div 1 13
    let bias := 0
    let dest_now ← load_ptr mem1 addr_dest
    buffer_access dest_now (dest_w * dest_h) source (source_w * source_h) dest (dest_w * dest_h)
    let mem2 := zpl_memcopy mem1 blur_mem dest_now (dest_w * dest_h * 4)
    zpl_image_rgb_filter mem2 blur_mem dest_w dest_h dest_now blur_filter 5 5 factor bias
  else
    pure mem1

/-! ## Reference definitions taken from the specification -/

/-- The output rule of the filter in the words of the specification:
`clamp(round(factor * accumulated + bias), 0, 255)`, where `round` is
rounding to the nearest integer. -/
def spec_filter_output (factor bias : ℚ) (acc : Int) : Int :=
  max 0 (min 255 (round (factor * (acc : ℚ) + bias)))

/-- The boundary rule of the specification, `wrap(v, extent) = ((v + extent)
mod extent)` with the mathematical remainder: the residue of `v` in
`[0, extent)`, the coordinate on the torus. -/
def spec_wrap (v extent : Int) : Int := (v + extent) % extent

/-- The accumulated value of the filter in the words of the specification:
the exact weighted sum, over all `fx` in `[0, filter_w)` and `fy` in
`[0, filter_h)`, of `filter[fy * filter_w + fx]` times the channel `sel` of the
source pixel in row `wrap(y - filter_h/2 + fy, source_h)` and column
`wrap(x - filter_w/2 + fx, source_w)`. -/
def spec_filter_sum (sel : zplRgbColour → Nat) (mem : Mem) (src : Int)
    (source_w source_h : Int) (filter : Int → ℚ) (filter_w filter_h : Int) (x y : Int) : ℚ :=
  ((List.range filter_h.toNat).map fun (fy : Nat) =>
    ((List.range filter_w.toNat).map fun (fx : Nat) =>
      filter ((fy : Int) * filter_w + (fx : Int)) *
        (sel (mem (src + (spec_wrap (y - filter_h / 2 + (fy : Int)) source_h * source_w
          + spec_wrap (x - filter_w / 2 + (fx : Int)) source_w))) : ℚ)).sum).sum

/-- The source coordinate of one axis in the words of the specification:
`x * floor(sourceExtent / destExtent)` when downsampling, and
`x / floor(destExtent / sourceExtent)` (integer division) otherwise. -/
def spec_resize_coord (source_extent dest_extent x : Int) : Int :=
  if dest_extent < source_extent then x * (source_extent / dest_extent)
  else x / (dest_extent / source_extent)

/-! ## Auxiliary definitions

The sums the code accumulates, written over the integers, the memories
between the steps of the loops, and the memories of the examples. -/

/-- One term of the weighted sum for a kernel of integer weights `k`: the
weight of kernel cell `(fx, fy)` times channel `sel` of the pixel it samples. -/
def int_filter_term (sel : zplRgbColour → Nat) (mem : Mem) (src : Int)
    (source_w source_h : Int) (k : Int → Int) (filter_w filter_h : Int) (x y : Int)
    (fy fx : Nat) : Int :=
  k ((fy : Int) * filter_w + (fx : Int)) *
    (sel (mem (src + (filter_wrap y filter_h (fy : Int) source_h * source_w
      + filter_wrap x filter_w (fx : Int) source_w))) : Int)

/-- The sum of the first `j` terms of kernel row `fy`. -/
def int_filter_row (sel : zplRgbColour → Nat) (mem : Mem) (src : Int)
    (source_w source_h : Int) (k : Int → Int) (filter_w filter_h : Int) (x y : Int)
    (fy j : Nat) : Int :=
  ((List.range j).map
    (int_filter_term sel mem src source_w source_h k filter_w filter_h x y fy)).sum

/-- The sum of the first `i` kernel rows. -/
def int_filter_rows (sel : zplRgbColour → Nat) (mem : Mem) (src : Int)
    (source_w source_h : Int) (k : Int → Int) (filter_w filter_h : Int) (x y : Int)
    (i : Nat) : Int :=
  ((List.range i).map fun fy =>
    int_filter_row sel mem src source_w source_h k filter_w filter_h x y fy filter_w.toNat).sum

/-- The weighted sum of one channel for a kernel of integer weights `k`. -/
def int_filter_sum (sel : zplRgbColour → Nat) (mem : Mem) (src : Int)
    (source_w source_h : Int) (k : Int → Int) (filter_w filter_h : Int) (x y : Int) : Int :=
  int_filter_rows sel mem src source_w source_h k filter_w filter_h x y filter_h.toNat

/-- The memory after the filter has stored the first `n` pixels of the
destination: cell `dst + i` holds `val i` for `0 ≤ i < n`, every other cell is
as in `mem`. -/
def filter_progress (mem : Mem) (dst : Int) (val : Int → zplRgbColour) (n : Int) : Mem :=
  fun a => if dst ≤ a ∧ a < dst + n then val (a - dst) else mem a

/-- The weights of `blur_filter` as integers. -/
def blur_weights (i : Int) : Int :=
  ([0, 0, 1, 0, 0,
    0, 1, 1, 1, 0,
    1, 1, 1, 1, 1,
    0, 1, 1, 1, 0,
    0, 0, 1, 0, 0] : List Int).getD i.toNat 0

/-- The pixel the filter with the cross kernel, `factor = 1` and `bias = 0`
stores at index `n` of the destination of a `W × H` image. -/
def cross_value (mem : Mem) (source W H dest : Int) (n : Int) : zplRgbColour :=
  ⟨(max 0 (min 255 (int_filter_sum (fun c => c.r) mem source W H blur_weights 5 5
      (n % W) (n / W)))).toNat,
   (max 0 (min 255 (int_filter_sum (fun c => c.g) mem source W H blur_weights 5 5
      (n % W) (n / W)))).toNat,
   (max 0 (min 255 (int_filter_sum (fun c => c.b) mem source W H blur_weights 5 5
      (n % W) (n / W)))).toNat,
   (mem (dest + n)).pad⟩

/-- A memory for the examples: the cell at address `a` holds channels derived
from `a`. -/
def example_mem : Mem :=
  fun a => ⟨(a % 256).toNat, (a % 7).toNat, (a % 5).toNat, 0⟩

/-- A memory for the examples: a `5 × 5` image at address `100` that is zero
except for its last pixel `(4, 4)`. -/
def corner_mem : Mem :=
  fun a => if a = 124 then ⟨200, 100, 50, 0⟩ else ⟨0, 0, 0, 0⟩

/-- The memory after the copies of the loop of `zpl_image_rgb_resize`, taken
with the coordinates `spec_resize_coord`: in row-major order, cell
`y * dest_w + x` of the array at `dst` receives cell `o_y * source_w + o_x` of
the array at `src`. -/
def spec_resize_copy (mem : Mem) (src : Int) (source_w source_h : Int) (dst : Int)
    (dest_w dest_h : Int) : Mem :=
  (List.range dest_h.toNat).foldl
    (fun m (y : Nat) => (List.range dest_w.toNat).foldl
      (fun m (x : Nat) => m.write (dst + ((y : Int) * dest_w + (x : Int)))
        (m (src + (spec_resize_coord source_h dest_h (y : Int) * source_w
          + spec_resize_coord source_w dest_w (x : Int))))) m)
    mem

/-- The memory of the failing input of the resize: the caller's source pixel
at cell `1000`, the caller's destination pixel at cell `2000`, and the
parameter variables `source` (cells `10`, `11`) and `dest` (cells `12`, `13`)
holding the byte addresses `4000` and `8000` in little-endian order. -/
def resize_bug_mem : Mem :=
  fun a =>
    if a = 1000 then ⟨10, 20, 30, 0⟩
    else if a = 10 then ⟨160, 15, 0, 0⟩
    else if a = 12 then ⟨64, 31, 0, 0⟩
    else ⟨0, 0, 0, 0⟩

/-- A memory for the blur example: a `2 × 1` source buffer at cells `1000`,
`1001` with the pixels `(0, 0, 0)` and `(130, 130, 130)`, a `2 × 1` destination
buffer at cells `2000`, `2001` whose pixels both are `(7, 8, 9)`, and a scratch
buffer at cells `3000`, `3001`. -/
def blur_bug_mem : Mem :=
  fun a =>
    if a = 1001 then ⟨130, 130, 130, 0⟩
    else if a = 2000 ∨ a = 2001 then ⟨7, 8, 9, 0⟩
    else ⟨0, 0, 0, 0⟩

/-- A memory for the wide-kernel example: a `2 × 1` image at cells `500`,
`501` with channel values `1` and `2`; every other cell holds `100`. -/
def edge_mem : Mem :=
  fun a =>
    if a = 500 then ⟨1, 1, 1, 0⟩
    else if a = 501 then ⟨2, 2, 2, 0⟩
    else ⟨100, 100, 100, 0⟩

/-! ## Checker for the RGB → HSV → RGB round trip

The definitions of this section are written with the primitive operations
on natural numbers, so that the kernel evaluates them directly. -/

/-- The interpolated channel `(v * (255 - ((s * w) >> 8))) >> 8` of
`zpl_image_hsv_to_rgb`, over the natural numbers: `w = rem` gives `q`,
`w = 255 - rem` gives `t` and `w = 256` gives `p`. -/
def hsv_mix (v s w : Nat) : Nat :=
  Nat.div (Nat.mul v (Nat.sub 255 (Nat.div (Nat.mul s w) 256))) 256

/-- The value of an output channel from its code: code `1000` is the channel
that receives `v`, a code `w ≤ 256` the channel that receives `hsv_mix v s w`. -/
def chan_eval (v s code : Nat) : Nat :=
  cond (Nat.beq code 1000) v (hsv_mix v s code)

/-- The remainder `rem` of hue `h`. -/
def hue_rem (h : Nat) : Nat := Nat.mul (Nat.sub h (Nat.mul (Nat.div h 43) 43)) 6

/-- The code of the channel `r` for hue `h`, by the sector `h / 43`. -/
def hue_code_r (h : Nat) : Nat :=
  cond (Nat.beq (Nat.div h 43) 0) 1000
    (cond (Nat.beq (Nat.div h 43) 1) (hue_rem h)
      (cond (Nat.beq (Nat.div h 43) 2) 256
        (cond (Nat.beq (Nat.div h 43) 3) 256
          (cond (Nat.beq (Nat.div h 43) 4) (Nat.sub 255 (hue_rem h)) 1000))))

/-- The code of the channel `g` for hue `h`. -/
def hue_code_g (h : Nat) : Nat :=
  cond (Nat.beq (Nat.div h 43) 0) (Nat.sub 255 (hue_rem h))
    (cond (Nat.beq (Nat.div h 43) 1) 1000
      (cond (Nat.beq (Nat.div h 43) 2) 1000
        (cond (Nat.beq (Nat.div h 43) 3) (hue_rem h)
          (cond (Nat.beq (Nat.div h 43) 4) 256 256))))

/-- The code of the channel `b` for hue `h`. -/
def hue_code_b (h : Nat) : Nat :=
  cond (Nat.beq (Nat.div h 43) 0) 256
    (cond (Nat.beq (Nat.div h 43) 1) 256
      (cond (Nat.beq (Nat.div h 43) 2) (Nat.sub 255 (hue_rem h))
        (cond (Nat.beq (Nat.div h 43) 3) 1000
          (cond (Nat.beq (Nat.div h 43) 4) 1000 (hue_rem h)))))

/-- Window test for one channel: the input channel is `M - oi` and the output
channel has the given code; `D = max - min`. -/
def chan_window (D oi code : Nat) : Bool :=
  cond (Nat.beq code 1000) (Nat.ble oi 11)
    (and (Nat.ble oi (Nat.add (Nat.div (Nat.mul (Nat.mul 255 D) code) 65536) 11))
         (Nat.ble (Nat.add (Nat.div (Nat.mul (Nat.mul 255 D) code) 65536) 2) (Nat.add oi 11)))

/-- Direct test for one channel at a given maximum `M`. -/
def chan_direct (M D oi code : Nat) : Bool :=
  and (Nat.ble (chan_eval M (Nat.div (Nat.mul 255 D) M) code) (Nat.add (Nat.sub M oi) 11))
      (Nat.ble (Nat.sub M oi) (Nat.add (chan_eval M (Nat.div (Nat.mul 255 D) M) code) 11))

/-- `f i` holds for every `i < n`. -/
def all_below (n : Nat) (f : Nat → Bool) : Bool :=
  Nat.rec true (fun i ih => and (f i) ih) n

/-- The value `f n`, computed after `n` has been evaluated. -/
def eval_at (n : Nat) (f : Nat → Bool) : Bool :=
  Nat.rec (f 0) (fun i _ => f (Nat.succ i)) n

/-- Test of one case: hue `h`, difference `D`, and input channels `M - o_r`,
`M - o_g`, `M - o_b`: either the three window tests succeed, or the direct
test succeeds for every `M` with `D ≤ M < 256`. -/
def case_ok (D h o_r o_g o_b : Nat) : Bool :=
  eval_at (hue_code_r h) fun cr => eval_at (hue_code_g h) fun cg => eval_at (hue_code_b h) fun cb =>
  or (and (chan_window D o_r cr)
        (and (chan_window D o_g cg) (chan_window D o_b cb)))
     (all_below 256 fun M => or (Nat.blt M D)
        (and (chan_direct M D o_r cr)
          (and (chan_direct M D o_g cg) (chan_direct M D o_b cb))))

/-- The hue stored for `base + 43 * δ / D` with `δ = e` (`neg = false`) or
`δ = -e` (`neg = true`), reduced modulo 256. -/
def case_hue (base : Nat) (neg : Bool) (D e : Nat) : Nat :=
  cond neg (Nat.mod (Nat.sub (Nat.add 256 base) (Nat.div (Nat.mul 43 e) D)) 256)
    (Nat.add base (Nat.div (Nat.mul 43 e) D))

/-- All cases in which red is maximal. -/
def check_red : Bool :=
  all_below 256 fun D => all_below (Nat.add D 1) fun e =>
    and (eval_at (case_hue 0 false D e) fun h => case_ok D h 0 (Nat.sub D e) D)
        (eval_at (case_hue 0 true D e) fun h => case_ok D h 0 D (Nat.sub D e))

/-- All cases in which green is maximal. -/
def check_green : Bool :=
  all_below 256 fun D => all_below (Nat.add D 1) fun e =>
    and (eval_at (case_hue 85 false D e) fun h => case_ok D h D 0 (Nat.sub D e))
        (eval_at (case_hue 85 true D e) fun h => case_ok D h (Nat.sub D e) 0 D)

/-- All cases in which blue is maximal. -/
def check_blue : Bool :=
  all_below 256 fun D => all_below (Nat.add D 1) fun e =>
    and (eval_at (case_hue 171 false D e) fun h => case_ok D h (Nat.sub D e) D 0)
        (eval_at (case_hue 171 true D e) fun h => case_ok D h D (Nat.sub D e) 0)

/-! ## Further definitions for the colour conversions -/

/-- `zpl_image_rgb_to_hsv` with its two divisions checked: the same statements
as `zpl_image_rgb_to_hsv`, but a division whose divisor is zero raises
`Fault.undefined`. -/
def zpl_image_rgb_to_hsv_checked (colour : zplRgbColour) : Except Fault zplHsvColour := do
  let rgb_min : Nat :=
    if colour.r < colour.g then (if colour.r < colour.b then colour.r else colour.b)
    else (if colour.g < colour.b then colour.g else colour.b)
  let rgb_max : Nat :=
    if colour.r > colour.g then (if colour.r > colour.b then colour.r else colour.b)
    else (if colour.g > colour.b then colour.g else colour.b)
  let v := rgb_max
  if v = 0 then pure ⟨0, 0, 0, v⟩
  else
    let s0 ← i32_div (255 * ((rgb_max : Int) - (rgb_min : Int))) (v : Int)
    let s := to_u8 s0
    if s = 0 then pure ⟨0, 0, s, v⟩
    else if rgb_max = colour.r then
      let d ← i32_div (43 * ((colour.g : Int) - (colour.b : Int))) ((rgb_max : Int) - (rgb_min : Int))
      pure ⟨0, to_u8 (0 + d), s, v⟩
    else if rgb_max = colour.g then
      let d ← i32_div (43 * ((colour.b : Int) - (colour.r : Int))) ((rgb_max : Int) - (rgb_min : Int))
      pure ⟨0, to_u8 (85 + d), s, v⟩
    else
      let d ← i32_div (43 * ((colour.r : Int) - (colour.g : Int))) ((rgb_max : Int) - (rgb_min : Int))
      pure ⟨0, to_u8 (171 + d), s, v⟩

/-- The hue formula in the words of the specification, over the integers:
`base + 43 * delta / (max - min)` with truncating division, where
`(base, delta)` is `(0, g - b)` if `r` is maximal, else `(85, b - r)` if `g` is
maximal, else `(171, r - g)`. -/
def spec_hue (c : zplRgbColour) : Int :=
  let mx : Int := ((max c.r (max c.g c.b) : Nat) : Int)
  let mn : Int := ((min c.r (min c.g c.b) : Nat) : Int)
  if (c.r : Int) = mx then 0 + Int.tdiv (43 * ((c.g : Int) - (c.b : Int))) (mx - mn)
  else if (c.g : Int) = mx then 85 + Int.tdiv (43 * ((c.b : Int) - (c.r : Int))) (mx - mn)
  else 171 + Int.tdiv (43 * ((c.r : Int) - (c.g : Int))) (mx - mn)

/-- The sector `region = h / 43` of the specification, over the integers. -/
def spec_hsv_region (h : Int) : Int := h / 43

/-- The remainder `rem = (h - region * 43) * 6` of the specification, over
the integers. -/
def spec_hsv_rem (h : Int) : Int := (h - spec_hsv_region h * 43) * 6

/-- The value `p = (v * (255 - s)) >> 8`, over the integers. -/
def spec_hsv_p (s v : Int) : Int := (v * (255 - s)) / 256

/-- The value `q = (v * (255 - ((s * rem) >> 8))) >> 8`, over the integers. -/
def spec_hsv_q (h s v : Int) : Int := (v * (255 - (s * spec_hsv_rem h) / 256)) / 256

/-- The value `t = (v * (255 - ((s * (255 - rem)) >> 8))) >> 8`, over the
integers. -/
def spec_hsv_t (h s v : Int) : Int := (v * (255 - (s * (255 - spec_hsv_rem h)) / 256)) / 256

/-- The six-sector assignment of `(v, p, q, t)` of the specification,
evaluated over the unbounded integers: the channels `(r, g, b)` for hue `h`,
saturation `s` and value `v`; sector `5` shares the default branch. -/
def spec_hsv_sectors (h s v : Int) : Int × Int × Int :=
  if spec_hsv_region h = 0 then (v, spec_hsv_t h s v, spec_hsv_p s v)
  else if spec_hsv_region h = 1 then (spec_hsv_q h s v, v, spec_hsv_p s v)
  else if spec_hsv_region h = 2 then (spec_hsv_p s v, v, spec_hsv_t h s v)
  else if spec_hsv_region h = 3 then (spec_hsv_p s v, spec_hsv_q h s v, v)
  else if spec_hsv_region h = 4 then (spec_hsv_t h s v, spec_hsv_p s v, v)
  else (v, spec_hsv_p s v, spec_hsv_q h s v)

/-! ## Further definitions for the resize -/

/-- The source coordinate of one axis as `zpl_image_rgb_resize` computes it
for destination coordinate `x`: the direction `x_down = dest_w < source_w`,
the step of that direction, and then `o_x = x / step_x`, replaced by
`x * step_x` when `x_down`.  The same statements compute `o_y` from the
heights. -/
def resize_source_coord (source_w dest_w x : Int) : Except Fault Int := do
  let x_down := decide (dest_w < source_w)
  let step_x ← (if x_down then resize_step source_w dest_w else resize_step dest_w source_w)
  resize_coord x_down step_x x

/-- A memory for the solid-colour example: a `4 × 4` source buffer at cells
`1000 .. 1015` whose pixels all are `k`, a `2 × 2` destination buffer at cells
`2000 .. 2003` whose pixels all are `d`, and the parameter variables `source`
(cells `10`, `11`) and `dest` (cells `12`, `13`) holding the byte addresses
`4000` and `8000` in little-endian order. -/
def solid_mem (k d : zplRgbColour) : Mem :=
  fun a =>
    if 1000 ≤ a ∧ a < 1016 then k
    else if 2000 ≤ a ∧ a < 2004 then d
    else if a = 10 then ⟨160, 15, 0, 0⟩
    else if a = 12 then ⟨64, 31, 0, 0⟩
    else ⟨0, 0, 0, 0⟩

/-! ## Lemmas on rounding -/

theorem bit_length_fuel_lt (fuel : Nat) : ∀ n, n ≤ fuel → n < 2 ^ bit_length_fuel fuel n := by
  induction fuel with
  | zero => intro n h; simp [bit_length_fuel]; omega
  | succ f ih =>
    intro n h
    unfold bit_length_fuel
    by_cases hn : n = 0
    · simp [hn]
    · simp only [hn, if_false]
      have h2 : n / 2 ≤ f := by omega
      have := ih (n / 2) h2
      rw [pow_succ]
      omega

theorem bit_length_fuel_le (fuel : Nat) :
    ∀ n k, n ≤ fuel → n < 2 ^ k → bit_length_fuel fuel n ≤ k := by
  induction fuel with
  | zero => intro n k _ _; simp [bit_length_fuel]
  | succ f ih =>
    intro n k h hk
    unfold bit_length_fuel
    by_cases hn : n = 0
    · simp [hn]
    · simp only [hn, if_false]
      cases k with
      | zero => simp at hk; omega
      | succ k =>
        have h2 : n / 2 ≤ f := by omega
        have h3 : n / 2 < 2 ^ k := by rw [pow_succ] at hk; omega
        have := ih (n / 2) k h2 h3
        omega

theorem bit_length_lt (n : Nat) : n < 2 ^ bit_length n :=
  bit_length_fuel_lt n n le_rfl

theorem bit_length_le {n k : Nat} (h : n < 2 ^ k) : bit_length n ≤ k :=
  bit_length_fuel_le n n k le_rfl h

theorem lt_bit_length {n k : Nat} (h : 2 ^ k ≤ n) : k < bit_length n := by
  have h1 := bit_length_lt n
  exact (Nat.pow_lt_pow_iff_right (by norm_num : 1 < 2)).1 (lt_of_le_of_lt h h1)

theorem round_half_even_exact (n : Int) (d : Nat) (hd : 0 < d) (h : n % (d : Int) = 0) :
    round_half_even n d = n / (d : Int) := by
  have : (2 : Int) * 0 < (d : Int) := by simpa using hd
  unfold round_half_even
  dsimp only
  rw [h, if_pos this]

theorem round_half_even_scale (c : Nat) (hc : 0 < c) (n : Int) (d : Nat) :
    round_half_even ((c : Int) * n) (c * d) = round_half_even n d := by
  unfold round_half_even
  have hc' : (0 : Int) < (c : Int) := by exact_mod_cast hc
  have e1 : ((c : Int) * n) / ((c * d : Nat) : Int) = n / (d : Int) := by
    push_cast
    exact Int.mul_ediv_mul_of_pos _ _ hc'
  have e2 : ((c : Int) * n) % ((c * d : Nat) : Int) = (c : Int) * (n % (d : Int)) := by
    push_cast
    exact Int.mul_emod_mul_of_pos _ _ hc'
  simp only [e1, e2]
  have a1 : (2 * ((c : Int) * (n % (d : Int))) < ((c * d : Nat) : Int)) ↔ (2 * (n % (d : Int)) < (d : Int)) := by
    push_cast
    constructor
    · intro h; by_contra hcon; push_neg at hcon
      have := mul_le_mul_of_nonneg_left hcon hc'.le
      nlinarith
    · intro h; nlinarith
  have a2 : (((c * d : Nat) : Int) < 2 * ((c : Int) * (n % (d : Int)))) ↔ ((d : Int) < 2 * (n % (d : Int))) := by
    push_cast
    constructor
    · intro h; by_contra hcon; push_neg at hcon
      have := mul_le_mul_of_nonneg_left hcon hc'.le
      nlinarith
    · intro h; nlinarith
  simp only [a1, a2]

theorem fp_round_frac_scale (prec emin : Nat) (c : Nat) (hc : 0 < c) (N : Int) (D : Nat) :
    fp_round_frac prec emin ((c : Int) * N) (c * D) = fp_round_frac prec emin N D := by
  unfold fp_round_frac
  have e1 : ((c : Int) * N * 2 ^ emin).natAbs / (c * D) = (N * 2 ^ emin).natAbs / D := by
    rw [mul_assoc, Int.natAbs_mul, Int.natAbs_ofNat]
    exact Nat.mul_div_mul_left _ _ hc
  simp only [e1]
  rw [mul_assoc (c : Int), mul_assoc c, round_half_even_scale c hc]

theorem fp_round_div (prec emin : Nat) (N : Int) (D : Nat) (hD : 0 < D) :
    fp_round prec emin ((N : ℚ) / (D : ℚ)) = fp_round_frac prec emin N D := by
  have hD' : (D : Int) ≠ 0 := by exact_mod_cast hD.ne'
  obtain ⟨c, h1, h2⟩ := Rat.exists_eq_mul_div_num_and_eq_mul_div_den N hD'
  have hq : ((N : ℚ) / (D : ℚ)) = ((N : ℚ) / ((D : Int) : ℚ)) := by norm_cast
  rw [hq]
  set q : ℚ := (N : ℚ) / ((D : Int) : ℚ) with hqdef
  have hcpos : 0 < c := by
    have hden : (0 : Int) < (q.den : Int) := by exact_mod_cast q.den_pos
    have : (0 : Int) < c * (q.den : Int) := by rw [← h2]; exact_mod_cast hD
    by_contra hcon; push_neg at hcon
    nlinarith
  obtain ⟨c', rfl⟩ : ∃ c' : Nat, c = (c' : Int) := ⟨c.toNat, (Int.toNat_of_nonneg hcpos.le).symm⟩
  have hc' : 0 < c' := by exact_mod_cast hcpos
  have h2' : D = c' * q.den := by exact_mod_cast h2
  unfold fp_round
  conv_rhs => rw [h1, h2']
  rw [fp_round_frac_scale prec emin c' hc']

theorem fp_round_frac_exact (prec emin j : Nat) (m : Int) (hj : j ≤ emin)
    (hm : m.natAbs < 2 ^ prec) :
    fp_round_frac prec emin m (2 ^ j) = (m : ℚ) / 2 ^ j := by
  unfold fp_round_frac
  dsimp only
  set k := bit_length ((m * 2 ^ emin).natAbs / 2 ^ j) - prec with hk
  have habs : (m * 2 ^ emin).natAbs = m.natAbs * 2 ^ emin := by
    rw [Int.natAbs_mul, Int.natAbs_pow]; rfl
  have hdiv : (m * 2 ^ emin).natAbs / 2 ^ j = m.natAbs * 2 ^ (emin - j) := by
    rw [habs]
    have : (2:Nat) ^ emin = 2 ^ (emin - j) * 2 ^ j := by rw [← pow_add]; congr 1; omega
    rw [this, ← mul_assoc, Nat.mul_div_cancel _ (by positivity)]
  have hkle : k ≤ emin - j := by
    have : m.natAbs * 2 ^ (emin - j) < 2 ^ (prec + (emin - j)) := by
      rw [pow_add]; exact Nat.mul_lt_mul_of_pos_right hm (by positivity)
    have := bit_length_le this
    rw [hk, hdiv]; omega
  have hpow : (2:Int) ^ emin = 2 ^ (emin - j - k) * ((2 ^ j * 2 ^ k : Nat) : Int) := by
    push_cast; rw [← pow_add, ← pow_add]; congr 1; omega
  have hmod : (m * 2 ^ emin) % ((2 ^ j * 2 ^ k : Nat) : Int) = 0 := by
    rw [hpow, ← mul_assoc]; exact Int.mul_emod_left _ _
  rw [round_half_even_exact _ _ (by positivity) hmod]
  have hquot : (m * 2 ^ emin) / ((2 ^ j * 2 ^ k : Nat) : Int) = m * 2 ^ (emin - j - k) := by
    rw [hpow, ← mul_assoc]
    exact Int.mul_ediv_cancel _ (by positivity)
  rw [hquot]
  have hemin : (2:ℚ) ^ emin = 2 ^ (emin - j - k) * 2 ^ k * 2 ^ j := by
    rw [← pow_add, ← pow_add]; congr 1; omega
  push_cast
  rw [hemin]
  field_simp
  ring

theorem fp_round_dyadic (prec emin j : Nat) (m : Int) (hj : j ≤ emin)
    (hm : m.natAbs < 2 ^ prec) :
    fp_round prec emin ((m : ℚ) / 2 ^ j) = (m : ℚ) / 2 ^ j := by
  have := fp_round_div prec emin m (2 ^ j) (by positivity)
  push_cast at this
  rw [this, fp_round_frac_exact prec emin j m hj hm]

theorem fp_round_int (prec emin : Nat) (m : Int) (hm : m.natAbs < 2 ^ prec) :
    fp_round prec emin (m : ℚ) = (m : ℚ) := by
  have := fp_round_dyadic prec emin 0 m (Nat.zero_le _) hm
  simpa using this

/-! ## Exact cases of the floating-point operations -/

theorem f64_round_int (m : Int) (hm : m.natAbs < 2 ^ 53) : f64_round (m : ℚ) = (m : ℚ) :=
  fp_round_int 53 1074 m hm

theorem f32_round_int (m : Int) (hm : m.natAbs < 2 ^ 24) : f32_round (m : ℚ) = (m : ℚ) :=
  fp_round_int 24 149 m hm

theorem f64_round_nat (n : Nat) (hn : n < 2 ^ 53) : f64_round (n : ℚ) = (n : ℚ) := by
  have := f64_round_int (n : Int) (by simpa using hn)
  simpa using this

theorem f32_round_nat (n : Nat) (hn : n < 2 ^ 24) : f32_round (n : ℚ) = (n : ℚ) := by
  have := f32_round_int (n : Int) (by simpa using hn)
  simpa using this

theorem f64_round_of_eq (x : ℚ) (m : Int) (j : Nat) (hx : x = (m : ℚ) / 2 ^ j)
    (hj : j ≤ 1074) (hm : m.natAbs < 2 ^ 53) : f64_round x = x := by
  rw [hx]; exact fp_round_dyadic 53 1074 j m hj hm

theorem f32_round_of_eq (x : ℚ) (m : Int) (j : Nat) (hx : x = (m : ℚ) / 2 ^ j)
    (hj : j ≤ 149) (hm : m.natAbs < 2 ^ 24) : f32_round x = x := by
  rw [hx]; exact fp_round_dyadic 24 149 j m hj hm

theorem trunc_to_zero_int (m : Int) : trunc_to_zero (m : ℚ) = m := by
  simp [trunc_to_zero]

theorem trunc_to_zero_nat (n : Nat) : trunc_to_zero (n : ℚ) = (n : Int) := by
  simp [trunc_to_zero]

theorem f_to_u8_nat (n : Nat) (hn : n < 256) : f_to_u8 (n : ℚ) = .ok n := by
  unfold f_to_u8
  rw [trunc_to_zero_nat]
  have : (0 : Int) ≤ (n : Int) ∧ (n : Int) ≤ 255 := by omega
  simp [this]

theorem f_to_i32_int (m : Int) (h1 : -2147483648 ≤ m) (h2 : m ≤ 2147483647) :
    f_to_i32 (m : ℚ) = .ok m := by
  unfold f_to_i32
  rw [trunc_to_zero_int]
  simp [h1, h2]

theorem trunc_to_zero_eq (x : ℚ) : trunc_to_zero x = if 0 ≤ x then ⌊x⌋ else ⌈x⌉ := by
  unfold trunc_to_zero
  have hden : (0 : Int) < (x.den : Int) := by exact_mod_cast x.den_pos
  by_cases hx : 0 ≤ x
  · rw [if_pos hx, Rat.floor_def]
    have hnum : 0 ≤ x.num := Rat.num_nonneg.2 hx
    exact Int.tdiv_eq_ediv hnum hden.le
  · rw [if_neg hx]
    push_neg at hx
    have hnum : x.num < 0 := Rat.num_neg.2 hx
    have h1 : ⌈x⌉ = -⌊-x⌋ := by rw [Int.floor_neg, neg_neg]
    rw [h1, Rat.floor_def, Rat.neg_num, Rat.neg_den]
    have h2 : Int.tdiv x.num (x.den : Int) = -Int.tdiv (-x.num) (x.den : Int) := by
      rw [Int.neg_tdiv, neg_neg]
    rw [h2, Int.tdiv_eq_ediv (by omega) hden.le]

/-! ## `zpl_image_rgb_lerp` -/

theorem i32_to_f64_nat (n : Nat) (hn : n < 2 ^ 53) : i32_to_f64 (n : Int) = (n : ℚ) := by
  unfold i32_to_f64
  exact_mod_cast f64_round_nat n hn

theorem i32_to_f32_nat (n : Nat) (hn : n < 2 ^ 24) : i32_to_f32 (n : Int) = (n : ℚ) := by
  unfold i32_to_f32
  exact_mod_cast f32_round_nat n hn

theorem LERP_zero (c1 c2 : Nat) (h1 : c1 < 256) : LERP c1 c2 0 = (c1 : ℚ) := by
  unfold LERP f64_add f64_mul f64_sub
  rw [i32_to_f64_nat c1 (by omega)]
  have e1 : f64_round ((1 : ℚ) - 0) = 1 := by
    have := f64_round_nat 1 (by norm_num); simpa using this
  have e2 : f32_round (i32_to_f32 (c2 : Int) * 0) = 0 := by
    have := f32_round_nat 0 (by norm_num); simpa using this
  rw [e1, e2, mul_one, f64_round_nat c1 (by omega), add_zero, f64_round_nat c1 (by omega)]

theorem LERP_one (c1 c2 : Nat) (h1 : c1 < 256) (h2 : c2 < 256) : LERP c1 c2 1 = (c2 : ℚ) := by
  unfold LERP f64_add f64_mul f64_sub
  rw [i32_to_f64_nat c1 (by omega), i32_to_f32_nat c2 (by omega)]
  have e1 : f64_round ((1 : ℚ) - 1) = 0 := by
    have := f64_round_nat 0 (by norm_num); simpa using this
  have e0 : f64_round (0 : ℚ) = 0 := by
    have := f64_round_nat 0 (by norm_num); simpa using this
  rw [e1, mul_zero, e0, mul_one, f32_round_nat c2 (by omega), zero_add,
    f64_round_nat c2 (by omega)]

theorem LERP_self_dyadic (c j : Nat) (hc : c < 256) (hj : j ≤ 65536) :
    LERP c c ((j : ℚ) / 65536) = (c : ℚ) := by
  unfold LERP f64_add f64_mul f64_sub
  rw [i32_to_f64_nat c (by omega), i32_to_f32_nat c (by omega)]
  have hcj : c * j < 2 ^ 24 := by
    have : c * j ≤ 255 * 65536 := Nat.mul_le_mul (by omega) hj
    norm_num; omega
  have hck : c * (65536 - j) < 2 ^ 24 := by
    have : c * (65536 - j) ≤ 255 * 65536 := Nat.mul_le_mul (by omega) (by omega)
    norm_num; omega
  have e1 : f64_round ((1 : ℚ) - (j : ℚ) / 65536) = (1 : ℚ) - (j : ℚ) / 65536 := by
    apply f64_round_of_eq _ ((65536 - j : Nat) : Int) 16 _ (by norm_num)
    · simp only [Int.natAbs_ofNat]; norm_num; omega
    · rw [Int.cast_natCast, Nat.cast_sub hj]; norm_num; ring
  have e2 : f64_round ((c : ℚ) * ((1 : ℚ) - (j : ℚ) / 65536))
      = (c : ℚ) * ((1 : ℚ) - (j : ℚ) / 65536) := by
    apply f64_round_of_eq _ ((c * (65536 - j) : Nat) : Int) 16 _ (by norm_num)
    · simp only [Int.natAbs_ofNat]
      exact lt_trans hck (by norm_num)
    · rw [Int.cast_natCast, Nat.cast_mul, Nat.cast_sub hj]; norm_num; ring
  have e3 : f32_round ((c : ℚ) * ((j : ℚ) / 65536)) = (c : ℚ) * ((j : ℚ) / 65536) := by
    apply f32_round_of_eq _ ((c * j : Nat) : Int) 16 _ (by norm_num)
    · simp only [Int.natAbs_ofNat]; exact hcj
    · rw [Int.cast_natCast, Nat.cast_mul]; norm_num; ring
  rw [e1, e2, e3]
  have e4 : (c : ℚ) * ((1 : ℚ) - (j : ℚ) / 65536) + (c : ℚ) * ((j : ℚ) / 65536) = (c : ℚ) := by
    ring
  rw [e4, f64_round_nat c (by omega)]

/-- C9: for all RGB colours `a` and `b`, `zpl_image_rgb_lerp(a, b, 0)` has the
r, g, b channels of `a` and `zpl_image_rgb_lerp(a, b, 1)` has the r, g, b
channels of `b`. -/
theorem zpl_image_rgb_lerp_endpoints (a b : zplRgbColour) (ha : a.is_u8) (hb : b.is_u8) :
    zpl_image_rgb_lerp a b 0 = .ok ⟨a.r, a.g, a.b, 0⟩ ∧
    zpl_image_rgb_lerp a b 1 = .ok ⟨b.r, b.g, b.b, 0⟩ := by
  obtain ⟨har, hag, hab⟩ := ha
  obtain ⟨hbr, hbg, hbb⟩ := hb
  constructor
  · unfold zpl_image_rgb_lerp
    rw [LERP_zero _ _ har, LERP_zero _ _ hag, LERP_zero _ _ hab,
      f_to_u8_nat _ har, f_to_u8_nat _ hag, f_to_u8_nat _ hab]
    rfl
  · unfold zpl_image_rgb_lerp
    rw [LERP_one _ _ har hbr, LERP_one _ _ hag hbg, LERP_one _ _ hab hbb,
      f_to_u8_nat _ hbr, f_to_u8_nat _ hbg, f_to_u8_nat _ hbb]
    rfl

theorem zpl_image_rgb_lerp_endpoints_witness :
    zpl_image_rgb_lerp ⟨10, 20, 30, 0⟩ ⟨200, 100, 0, 0⟩ 0 = .ok ⟨10, 20, 30, 0⟩ ∧
    zpl_image_rgb_lerp ⟨10, 20, 30, 0⟩ ⟨200, 100, 0, 0⟩ 1 = .ok ⟨200, 100, 0, 0⟩ :=
  zpl_image_rgb_lerp_endpoints ⟨10, 20, 30, 0⟩ ⟨200, 100, 0, 0⟩
    ⟨by decide, by decide, by decide⟩ ⟨by decide, by decide, by decide⟩

/-- C10, as stated, fails: with `t` the single-precision number nearest to
`0.1`, interpolating the colour `(5, 5, 5)` with itself gives `(4, 4, 4)`,
and with `t = 2 ^ 100` it gives `(0, 0, 0)`. -/
theorem zpl_image_rgb_lerp_self_counterexample :
    f32_round (13421773 / 134217728) = 13421773 / 134217728 ∧
    zpl_image_rgb_lerp ⟨5, 5, 5, 0⟩ ⟨5, 5, 5, 0⟩ (13421773 / 134217728) = .ok ⟨4, 4, 4, 0⟩ ∧
    f32_round (2 ^ 100) = 2 ^ 100 ∧
    zpl_image_rgb_lerp ⟨5, 5, 5, 0⟩ ⟨5, 5, 5, 0⟩ (2 ^ 100) = .ok ⟨0, 0, 0, 0⟩ := by
  decide!

/-- C10, amended: for every RGB colour `a` and every `t = j / 65536` with
`0 ≤ j ≤ 65536` (so that `t` lies in `[0, 1]` and every intermediate product
is exact), `zpl_image_rgb_lerp(a, a, t)` has exactly the r, g, b channels of
`a`. -/
theorem zpl_image_rgb_lerp_self (a : zplRgbColour) (j : Nat) (ha : a.is_u8) (hj : j ≤ 65536) :
    zpl_image_rgb_lerp a a ((j : ℚ) / 65536) = .ok ⟨a.r, a.g, a.b, 0⟩ := by
  obtain ⟨har, hag, hab⟩ := ha
  unfold zpl_image_rgb_lerp
  rw [LERP_self_dyadic _ _ har hj, LERP_self_dyadic _ _ hag hj, LERP_self_dyadic _ _ hab hj,
    f_to_u8_nat _ har, f_to_u8_nat _ hag, f_to_u8_nat _ hab]
  rfl

theorem zpl_image_rgb_lerp_self_witness :
    zpl_image_rgb_lerp ⟨5, 200, 255, 0⟩ ⟨5, 200, 255, 0⟩ (((21845 : Nat) : ℚ) / 65536)
      = .ok ⟨5, 200, 255, 0⟩ :=
  zpl_image_rgb_lerp_self ⟨5, 200, 255, 0⟩ 21845 ⟨by decide, by decide, by decide⟩ (by decide)

/-! ## The output rule of the filter -/

theorem to_u8_clamp (v : Int) :
    to_u8 (zpl_min (zpl_max v 0) 255) = (max 0 (min 255 v)).toNat := by
  unfold to_u8 zpl_min zpl_max
  by_cases h1 : v > 0
  · by_cases h2 : v < 255
    · simp only [h1, h2, if_true]
      rw [Int.emod_eq_of_lt (by omega) (by omega)]
      congr 1; omega
    · simp only [h1, h2, if_true, if_false]
      have : max 0 (min 255 v) = 255 := by omega
      rw [this]; rfl
  · have h3 : (0 : Int) < 255 := by norm_num
    simp only [h1, if_false, h3, if_true]
    have : max 0 (min 255 v) = 0 := by omega
    rw [this]; rfl

/-- C6, as stated, fails: with `factor = 3/4`, `bias = 0` and the accumulated
sum `1` the code stores `0`, whereas rounding `0.75` to the nearest integer
and clamping gives `1`. -/
theorem filter_store_round_counterexample :
    filter_store (3 / 4) 0 1 = .ok 0 ∧ spec_filter_output (3 / 4) 0 1 = 1 := by
  decide!

/-- C6, amended: the channel value `zpl_image_rgb_filter` stores for the
accumulated sum `A` is `clamp(trunc(factor * A + bias), 0, 255)`, where the
product and the sum are `f64` operations and `trunc` is truncation toward
zero (floor for a non-negative value, ceiling for a negative one), whenever
the truncated value is an `i32`. -/
theorem filter_store_truncates (factor bias : ℚ) (acc : Int)
    (h : -2147483648 ≤
          (if 0 ≤ f64_add (f64_mul factor (i32_to_f64 acc)) bias
            then ⌊f64_add (f64_mul factor (i32_to_f64 acc)) bias⌋
            else ⌈f64_add (f64_mul factor (i32_to_f64 acc)) bias⌉) ∧
         (if 0 ≤ f64_add (f64_mul factor (i32_to_f64 acc)) bias
            then ⌊f64_add (f64_mul factor (i32_to_f64 acc)) bias⌋
            else ⌈f64_add (f64_mul factor (i32_to_f64 acc)) bias⌉) ≤ 2147483647) :
    filter_store factor bias acc =
      .ok (max 0 (min 255
        (if 0 ≤ f64_add (f64_mul factor (i32_to_f64 acc)) bias
          then ⌊f64_add (f64_mul factor (i32_to_f64 acc)) bias⌋
          else ⌈f64_add (f64_mul factor (i32_to_f64 acc)) bias⌉))).toNat := by
  unfold filter_store f_to_i32
  rw [trunc_to_zero_eq]
  dsimp only
  rw [if_pos h, ← to_u8_clamp]
  rfl

theorem filter_store_truncates_witness :
    filter_store (1 / 2) (-3) 9 = .ok (max 0 (min 255
        (if 0 ≤ f64_add (f64_mul (1 / 2) (i32_to_f64 9)) (-3)
          then ⌊f64_add (f64_mul (1 / 2) (i32_to_f64 9)) (-3)⌋
          else ⌈f64_add (f64_mul (1 / 2) (i32_to_f64 9)) (-3)⌉))).toNat ∧
    filter_store (1 / 2) (-3) 9 = .ok 1 :=
  ⟨filter_store_truncates (1 / 2) (-3) 9 (by decide!), by decide!⟩

/-! ## The accumulation loops of the filter -/

theorem foldlM_range_ok {β : Type} (f : β → Nat → Except Fault β) (g : Nat → β) (n : Nat)
    (hstep : ∀ j, j < n → f (g j) j = .ok (g (j + 1))) :
    (List.range n).foldlM f (g 0) = .ok (g n) := by
  induction n with
  | zero => rfl
  | succ n ih =>
    rw [List.range_succ, List.foldlM_append, ih (fun j hj => hstep j (Nat.lt_succ_of_lt hj))]
    show (List.foldlM f (g n) [n]) = _
    rw [List.foldlM_cons, hstep n (Nat.lt_succ_self n)]
    rfl

theorem abs_range_sum_le (f : Nat → Int) (C : Int) (n : Nat)
    (h : ∀ i, i < n → |f i| ≤ C) : |((List.range n).map f).sum| ≤ n * C := by
  induction n with
  | zero => simp
  | succ n ih =>
    rw [List.range_succ, List.map_append, List.sum_append]
    have h1 := ih (fun i hi => h i (Nat.lt_succ_of_lt hi))
    have h2 := h n (Nat.lt_succ_self n)
    simp only [List.map_cons, List.map_nil, List.sum_cons, List.sum_nil, add_zero]
    have := abs_add (((List.range n).map f).sum) (f n)
    push_cast
    linarith

theorem range_sum_succ {α : Type} [AddCommMonoid α] (f : Nat → α) (n : Nat) :
    ((List.range (n + 1)).map f).sum = ((List.range n).map f).sum + f n := by
  rw [List.range_succ, List.map_append, List.sum_append]
  simp

theorem filter_accumulate_int (acc : Int) (ch : Nat) (k : Int) (w : ℚ) (N B : Int)
    (hw : w = (k : ℚ)) (hacc : |acc| ≤ N) (hk : |k| ≤ B) (hch : ch < 256)
    (hN : N + B * 255 ≤ 2147483647) :
    filter_accumulate acc ch w = .ok (acc + k * (ch : Int)) := by
  have hB0 : 0 ≤ B := le_trans (abs_nonneg k) hk
  have hN0 : 0 ≤ N := le_trans (abs_nonneg acc) hacc
  have hterm : |k * (ch : Int)| ≤ B * 255 := by
    rw [abs_mul]
    have hc : |(ch : Int)| ≤ 255 := by rw [abs_of_nonneg (by positivity)]; omega
    exact mul_le_mul hk hc (abs_nonneg _) hB0
  have hsum : |acc + k * (ch : Int)| ≤ N + B * 255 :=
    le_trans (abs_add _ _) (add_le_add hacc hterm)
  unfold filter_accumulate f64_add f64_mul i32_to_f64
  have e1 : f64_round ((acc : Int) : ℚ) = (acc : ℚ) := by
    apply f64_round_int
    have : ((acc.natAbs : Nat) : Int) = |acc| := Int.natCast_natAbs acc
    have h2 : ((acc.natAbs : Nat) : Int) < 2 ^ 53 := by rw [this]; norm_num; linarith
    exact_mod_cast h2
  have e2 : f64_round (((ch : Nat) : Int) : ℚ) = ((ch : Int) : ℚ) := by
    apply f64_round_int
    simp only [Int.natAbs_ofNat]; norm_num; omega
  have e3 : f64_round (((ch : Int) : ℚ) * w) = ((k * (ch : Int) : Int) : ℚ) := by
    have : ((ch : Int) : ℚ) * w = ((k * (ch : Int) : Int) : ℚ) := by rw [hw]; push_cast; ring
    rw [this]
    apply f64_round_int
    have h1 : (((k * (ch : Int)).natAbs : Nat) : Int) = |k * (ch : Int)| := Int.natCast_natAbs _
    have h2 : (((k * (ch : Int)).natAbs : Nat) : Int) < 2 ^ 53 := by rw [h1]; norm_num; linarith
    exact_mod_cast h2
  have e4 : f64_round ((acc : ℚ) + ((k * (ch : Int) : Int) : ℚ))
      = ((acc + k * (ch : Int) : Int) : ℚ) := by
    have : (acc : ℚ) + ((k * (ch : Int) : Int) : ℚ) = ((acc + k * (ch : Int) : Int) : ℚ) := by
      push_cast; ring
    rw [this]
    apply f64_round_int
    have h1 : (((acc + k * (ch : Int)).natAbs : Nat) : Int) = |acc + k * (ch : Int)| :=
      Int.natCast_natAbs _
    have h2 : (((acc + k * (ch : Int)).natAbs : Nat) : Int) < 2 ^ 53 := by
      rw [h1]; norm_num; linarith
    exact_mod_cast h2
  rw [e1, e2, e3, e4]
  have := abs_le.1 hsum
  exact f_to_i32_int _ (by linarith [this.1]) (by linarith [this.2])

theorem int_filter_term_bound (sel : zplRgbColour → Nat) (mem : Mem) (src W H : Int)
    (k : Int → Int) (filter : Int → ℚ) (fw fh x y : Int) (B : Int)
    (hk : ∀ fx fy : Nat, fx < fw.toNat → fy < fh.toNat →
      filter ((fy : Int) * fw + (fx : Int)) = ((k ((fy : Int) * fw + (fx : Int)) : Int) : ℚ) ∧
      |k ((fy : Int) * fw + (fx : Int))| ≤ B)
    (hsel : ∀ a, sel (mem a) < 256) (fy fx : Nat) (hfy : fy < fh.toNat) (hfx : fx < fw.toNat) :
    |int_filter_term sel mem src W H k fw fh x y fy fx| ≤ B * 255 := by
  unfold int_filter_term
  have h1 := (hk fx fy hfx hfy).2
  have hB0 : 0 ≤ B := le_trans (abs_nonneg _) h1
  rw [abs_mul]
  have hc : |((sel (mem (src + (filter_wrap y fh (fy : Int) H * W
      + filter_wrap x fw (fx : Int) W))) : Nat) : Int)| ≤ 255 := by
    rw [abs_of_nonneg (by positivity)]
    have := hsel (src + (filter_wrap y fh (fy : Int) H * W + filter_wrap x fw (fx : Int) W))
    omega
  exact mul_le_mul h1 hc (abs_nonneg _) hB0

theorem int_filter_row_bound (sel : zplRgbColour → Nat) (mem : Mem) (src W H : Int)
    (k : Int → Int) (filter : Int → ℚ) (fw fh x y : Int) (B : Int)
    (hk : ∀ fx fy : Nat, fx < fw.toNat → fy < fh.toNat →
      filter ((fy : Int) * fw + (fx : Int)) = ((k ((fy : Int) * fw + (fx : Int)) : Int) : ℚ) ∧
      |k ((fy : Int) * fw + (fx : Int))| ≤ B)
    (hsel : ∀ a, sel (mem a) < 256) (fy j : Nat) (hfy : fy < fh.toNat) (hj : j ≤ fw.toNat) :
    |int_filter_row sel mem src W H k fw fh x y fy j| ≤ (j : Int) * (B * 255) := by
  unfold int_filter_row
  apply abs_range_sum_le
  intro i hi
  exact int_filter_term_bound sel mem src W H k filter fw fh x y B hk hsel fy i hfy
    (lt_of_lt_of_le hi hj)

theorem int_filter_rows_bound (sel : zplRgbColour → Nat) (mem : Mem) (src W H : Int)
    (k : Int → Int) (filter : Int → ℚ) (fw fh x y : Int) (B : Int)
    (hk : ∀ fx fy : Nat, fx < fw.toNat → fy < fh.toNat →
      filter ((fy : Int) * fw + (fx : Int)) = ((k ((fy : Int) * fw + (fx : Int)) : Int) : ℚ) ∧
      |k ((fy : Int) * fw + (fx : Int))| ≤ B)
    (hsel : ∀ a, sel (mem a) < 256) (i : Nat) (hi : i ≤ fh.toNat) :
    |int_filter_rows sel mem src W H k fw fh x y i|
      ≤ (i : Int) * ((fw.toNat : Int) * (B * 255)) := by
  unfold int_filter_rows
  apply abs_range_sum_le
  intro fy hfy
  exact int_filter_row_bound sel mem src W H k filter fw fh x y B hk hsel fy fw.toNat
    (lt_of_lt_of_le hfy hi) le_rfl

theorem filter_accumulate_step (sel : zplRgbColour → Nat) (mem : Mem) (src W H : Int)
    (k : Int → Int) (filter : Int → ℚ) (fw fh x y : Int) (B : Int)
    (hk : ∀ fx fy : Nat, fx < fw.toNat → fy < fh.toNat →
      filter ((fy : Int) * fw + (fx : Int)) = ((k ((fy : Int) * fw + (fx : Int)) : Int) : ℚ) ∧
      |k ((fy : Int) * fw + (fx : Int))| ≤ B)
    (hsel : ∀ a, sel (mem a) < 256)
    (hB : (fh.toNat : Int) * ((fw.toNat : Int) * (B * 255)) ≤ 2147483647)
    (i j : Nat) (hi : i < fh.toNat) (hj : j < fw.toNat) :
    filter_accumulate
      (int_filter_rows sel mem src W H k fw fh x y i
        + int_filter_row sel mem src W H k fw fh x y i j)
      (sel (mem (src + (filter_wrap y fh (i : Int) H * W + filter_wrap x fw (j : Int) W))))
      (filter ((i : Int) * fw + (j : Int)))
    = .ok (int_filter_rows sel mem src W H k fw fh x y i
        + int_filter_row sel mem src W H k fw fh x y i (j + 1)) := by
  have hkij := hk j i hj hi
  have hB0 : 0 ≤ B := le_trans (abs_nonneg _) hkij.2
  have h1 := int_filter_rows_bound sel mem src W H k filter fw fh x y B hk hsel i hi.le
  have h2 := int_filter_row_bound sel mem src W H k filter fw fh x y B hk hsel i j hi hj.le
  have hC : 0 ≤ B * 255 := by positivity
  have hacc : |int_filter_rows sel mem src W H k fw fh x y i
        + int_filter_row sel mem src W H k fw fh x y i j|
      ≤ (i : Int) * ((fw.toNat : Int) * (B * 255)) + (j : Int) * (B * 255) :=
    le_trans (abs_add _ _) (add_le_add h1 h2)
  have hbig : (i : Int) * ((fw.toNat : Int) * (B * 255)) + (j : Int) * (B * 255) + B * 255
      ≤ 2147483647 := by
    have hj' : (j : Int) + 1 ≤ (fw.toNat : Int) := by exact_mod_cast hj
    have hi' : (i : Int) + 1 ≤ (fh.toNat : Int) := by exact_mod_cast hi
    have e1 : ((j : Int) + 1) * (B * 255) ≤ (fw.toNat : Int) * (B * 255) :=
      mul_le_mul_of_nonneg_right hj' hC
    have hfC : 0 ≤ (fw.toNat : Int) * (B * 255) := by positivity
    have e2 : ((i : Int) + 1) * ((fw.toNat : Int) * (B * 255))
        ≤ (fh.toNat : Int) * ((fw.toNat : Int) * (B * 255)) :=
      mul_le_mul_of_nonneg_right hi' hfC
    nlinarith
  have := filter_accumulate_int _
    (sel (mem (src + (filter_wrap y fh (i : Int) H * W + filter_wrap x fw (j : Int) W))))
    (k ((i : Int) * fw + (j : Int))) (filter ((i : Int) * fw + (j : Int)))
    _ B hkij.1 hacc hkij.2 (hsel _) hbig
  rw [this]
  congr 1
  unfold int_filter_row
  rw [range_sum_succ]
  unfold int_filter_term
  ring

theorem filter_sums_int (mem : Mem) (src W H : Int) (filter : Int → ℚ) (k : Int → Int)
    (fw fh x y : Int) (B : Int)
    (hk : ∀ fx fy : Nat, fx < fw.toNat → fy < fh.toNat →
      filter ((fy : Int) * fw + (fx : Int)) = ((k ((fy : Int) * fw + (fx : Int)) : Int) : ℚ) ∧
      |k ((fy : Int) * fw + (fx : Int))| ≤ B)
    (hmem : ∀ a, (mem a).is_u8)
    (hB : (fh.toNat : Int) * ((fw.toNat : Int) * (B * 255)) ≤ 2147483647) :
    filter_sums mem src W H filter fw fh x y =
      .ok (int_filter_sum (fun c => c.r) mem src W H k fw fh x y,
           int_filter_sum (fun c => c.g) mem src W H k fw fh x y,
           int_filter_sum (fun c => c.b) mem src W H k fw fh x y) := by
  have hr : ∀ a, (fun c : zplRgbColour => c.r) (mem a) < 256 := fun a => (hmem a).1
  have hg : ∀ a, (fun c : zplRgbColour => c.g) (mem a) < 256 := fun a => (hmem a).2.1
  have hb : ∀ a, (fun c : zplRgbColour => c.b) (mem a) < 256 := fun a => (hmem a).2.2
  unfold filter_sums int_filter_sum
  have key := foldlM_range_ok
    (fun acc (fy : Nat) => (List.range fw.toNat).foldlM
      (fun acc (fx : Nat) => filter_cell mem src W H filter fw fh x y acc (fx : Int) (fy : Int))
      acc)
    (fun i => (int_filter_rows (fun c => c.r) mem src W H k fw fh x y i,
               int_filter_rows (fun c => c.g) mem src W H k fw fh x y i,
               int_filter_rows (fun c => c.b) mem src W H k fw fh x y i))
    fh.toNat ?_
  · simpa [int_filter_rows] using key
  · intro i hi
    have inner := foldlM_range_ok
      (fun acc (fx : Nat) => filter_cell mem src W H filter fw fh x y acc (fx : Int) (i : Int))
      (fun j => (int_filter_rows (fun c => c.r) mem src W H k fw fh x y i
                  + int_filter_row (fun c => c.r) mem src W H k fw fh x y i j,
                 int_filter_rows (fun c => c.g) mem src W H k fw fh x y i
                  + int_filter_row (fun c => c.g) mem src W H k fw fh x y i j,
                 int_filter_rows (fun c => c.b) mem src W H k fw fh x y i
                  + int_filter_row (fun c => c.b) mem src W H k fw fh x y i j))
      fw.toNat ?_
    · have e0 : ∀ sel : zplRgbColour → Nat,
          int_filter_row sel mem src W H k fw fh x y i 0 = 0 := by
        intro sel; simp [int_filter_row]
      have e1 : ∀ sel : zplRgbColour → Nat,
          int_filter_rows sel mem src W H k fw fh x y i
            + int_filter_row sel mem src W H k fw fh x y i fw.toNat
          = int_filter_rows sel mem src W H k fw fh x y (i + 1) := by
        intro sel
        conv_rhs => unfold int_filter_rows
        rw [range_sum_succ]
        rfl
      simp only [e0, add_zero, e1] at inner
      exact inner
    · intro j hj
      unfold filter_cell
      dsimp only
      rw [filter_accumulate_step (fun c => c.r) mem src W H k filter fw fh x y B hk hr hB i j hi hj,
        filter_accumulate_step (fun c => c.g) mem src W H k filter fw fh x y B hk hg hB i j hi hj,
        filter_accumulate_step (fun c => c.b) mem src W H k filter fw fh x y B hk hb hB i j hi hj]
      rfl

theorem cast_range_sum (f : Nat → Int) (n : Nat) :
    ((((List.range n).map f).sum : Int) : ℚ) = ((List.range n).map fun i => ((f i : Int) : ℚ)).sum := by
  induction n with
  | zero => simp
  | succ n ih => rw [range_sum_succ, range_sum_succ, Int.cast_add, ih]

theorem range_sum_congr {α : Type} [AddCommMonoid α] (f g : Nat → α) (n : Nat)
    (h : ∀ i, i < n → f i = g i) :
    ((List.range n).map f).sum = ((List.range n).map g).sum := by
  induction n with
  | zero => rfl
  | succ n ih =>
    rw [range_sum_succ, range_sum_succ, ih (fun i hi => h i (Nat.lt_succ_of_lt hi)),
      h n (Nat.lt_succ_self n)]

theorem filter_wrap_eq_spec_wrap (x kw W : Int) (fx : Nat) (hW : 1 ≤ W) (hkw : 0 ≤ kw)
    (h : kw / 2 ≤ x + (fx : Int) + W) :
    filter_wrap x kw (fx : Int) W = spec_wrap (x - kw / 2 + (fx : Int)) W := by
  unfold filter_wrap spec_wrap
  rw [Int.tdiv_eq_ediv hkw (by norm_num), Int.tmod_eq_emod (by omega) (by omega)]

theorem int_filter_sum_cast (sel : zplRgbColour → Nat) (mem : Mem) (src W H : Int)
    (filter : Int → ℚ) (k : Int → Int) (fw fh x y : Int)
    (hW : 1 ≤ W) (hH : 1 ≤ H) (hfw : fw / 2 ≤ x + W) (hfh : fh / 2 ≤ y + H)
    (hk : ∀ fx fy : Nat, fx < fw.toNat → fy < fh.toNat →
      filter ((fy : Int) * fw + (fx : Int)) = ((k ((fy : Int) * fw + (fx : Int)) : Int) : ℚ)) :
    ((int_filter_sum sel mem src W H k fw fh x y : Int) : ℚ)
      = spec_filter_sum sel mem src W H filter fw fh x y := by
  unfold int_filter_sum int_filter_rows spec_filter_sum
  rw [cast_range_sum]
  apply range_sum_congr
  intro fy hfy
  unfold int_filter_row
  rw [cast_range_sum]
  apply range_sum_congr
  intro fx hfx
  unfold int_filter_term
  rw [hk fx fy hfx hfy,
    filter_wrap_eq_spec_wrap x fw W fx hW (by omega) (by omega),
    filter_wrap_eq_spec_wrap y fh H fy hH (by omega) (by omega)]
  push_cast
  rfl

/-- C7, as stated, fails in two ways.  For fractional weights: on a one-pixel
image whose channels are all `1`, with the `2 × 1` kernel of weights `1/2`,
`1/2`, the accumulators end at `0` (each addition is truncated to an `i32`),
whereas the exact weighted sum is `1`.  For a kernel wider than the image: on
the `2 × 1` image with channel values `1` and `2`, the `7 × 1` kernel of
weights `1` accumulates `109` at pixel `(0, 0)`, because its first cell samples
column `-1` (the cell before the image, which holds `100`), whereas the sum
over the wrapped coordinates is `11`. -/
theorem filter_sums_fractional_counterexample :
    filter_sums (fun _ => ⟨1, 1, 1, 0⟩) 0 1 1 (fun _ => 1 / 2) 2 1 0 0 = .ok (0, 0, 0) ∧
    spec_filter_sum (fun c => c.r) (fun _ => ⟨1, 1, 1, 0⟩) 0 1 1 (fun _ => 1 / 2) 2 1 0 0 = 1 ∧
    filter_sums edge_mem 500 2 1 (fun _ => 1) 7 1 0 0 = .ok (109, 109, 109) ∧
    spec_filter_sum (fun c => c.r) edge_mem 500 2 1 (fun _ => 1) 7 1 0 0 = 11 := by
  decide!

/-- C7, amended: for every kernel whose weights are integers of absolute
value at most `B`, with `filter_h * filter_w * B * 255` within the `i32`
range, every image of extents `>= 1` and every destination pixel `(x, y)`
with `filter_w / 2 <= x + source_w` and `filter_h / 2 <= y + source_h` (every
pixel, when the kernel is at most about twice as large as the image:
`filter_w / 2 <= source_w` and `filter_h / 2 <= source_h`), the three values
`zpl_image_rgb_filter` has accumulated before applying factor and bias are
the exact weighted sums, over all `fx` in `[0, filter_w)` and `fy` in
`[0, filter_h)`, of `filter[fy * filter_w + fx]` times the source channel at
the toroidally wrapped coordinate `(x - filter_w/2 + fx, y - filter_h/2 + fy)`. -/
theorem filter_sums_integer_weights (mem : Mem) (src W H : Int) (filter : Int → ℚ)
    (fw fh x y : Int) (B : Nat)
    (hW : 1 ≤ W) (hH : 1 ≤ H) (hfw : fw / 2 ≤ x + W) (hfh : fh / 2 ≤ y + H)
    (hw : ∀ fx fy : Nat, fx < fw.toNat → fy < fh.toNat →
      ((⌊filter ((fy : Int) * fw + (fx : Int))⌋ : Int) : ℚ) = filter ((fy : Int) * fw + (fx : Int)) ∧
      |filter ((fy : Int) * fw + (fx : Int))| ≤ (B : ℚ))
    (hmem : ∀ a, (mem a).is_u8)
    (hB : fh.toNat * (fw.toNat * (B * 255)) ≤ 2147483647) :
    ∃ r g b : Int,
      filter_sums mem src W H filter fw fh x y = .ok (r, g, b) ∧
      (r : ℚ) = spec_filter_sum (fun c => c.r) mem src W H filter fw fh x y ∧
      (g : ℚ) = spec_filter_sum (fun c => c.g) mem src W H filter fw fh x y ∧
      (b : ℚ) = spec_filter_sum (fun c => c.b) mem src W H filter fw fh x y := by
  have hk : ∀ fx fy : Nat, fx < fw.toNat → fy < fh.toNat →
      filter ((fy : Int) * fw + (fx : Int))
        = (((fun i => ⌊filter i⌋) ((fy : Int) * fw + (fx : Int)) : Int) : ℚ) ∧
      |(fun i => ⌊filter i⌋) ((fy : Int) * fw + (fx : Int))| ≤ (B : Int) := by
    intro fx fy hfx hfy
    obtain ⟨h1, h2⟩ := hw fx fy hfx hfy
    refine ⟨h1.symm, ?_⟩
    have h3 : |((⌊filter ((fy : Int) * fw + (fx : Int))⌋ : Int) : ℚ)| ≤ (B : ℚ) := by rw [h1]; exact h2
    have h4 : ((|⌊filter ((fy : Int) * fw + (fx : Int))⌋| : Int) : ℚ) ≤ ((B : Int) : ℚ) := by
      rw [Int.cast_abs]; exact_mod_cast h3
    exact_mod_cast h4
  have hB' : (fh.toNat : Int) * ((fw.toNat : Int) * ((B : Int) * 255)) ≤ 2147483647 := by
    exact_mod_cast hB
  refine ⟨_, _, _, filter_sums_int mem src W H filter (fun i => ⌊filter i⌋) fw fh x y B hk hmem hB',
    ?_, ?_, ?_⟩
  · exact int_filter_sum_cast _ mem src W H filter _ fw fh x y hW hH hfw hfh
      (fun fx fy h1 h2 => (hk fx fy h1 h2).1)
  · exact int_filter_sum_cast _ mem src W H filter _ fw fh x y hW hH hfw hfh
      (fun fx fy h1 h2 => (hk fx fy h1 h2).1)
  · exact int_filter_sum_cast _ mem src W H filter _ fw fh x y hW hH hfw hfh
      (fun fx fy h1 h2 => (hk fx fy h1 h2).1)

theorem filter_sums_integer_weights_witness :
    ∃ r g b : Int,
      filter_sums edge_mem 500 2 1 (fun _ => 2) 5 3 1 0 = .ok (r, g, b) ∧
      (r : ℚ) = spec_filter_sum (fun c => c.r) edge_mem 500 2 1 (fun _ => 2) 5 3 1 0 ∧
      (g : ℚ) = spec_filter_sum (fun c => c.g) edge_mem 500 2 1 (fun _ => 2) 5 3 1 0 ∧
      (b : ℚ) = spec_filter_sum (fun c => c.b) edge_mem 500 2 1 (fun _ => 2) 5 3 1 0 :=
  filter_sums_integer_weights edge_mem 500 2 1 (fun _ => 2) 5 3 1 0 2
    (by decide) (by decide) (by decide) (by decide)
    (fun _ _ _ _ => by norm_num)
    (fun a => by
      unfold edge_mem
      split_ifs <;> exact ⟨by norm_num, by norm_num, by norm_num⟩)
    (by decide)

/-! ## The pixel loops of the filter -/

theorem filter_progress_zero (mem : Mem) (dst : Int) (val : Int → zplRgbColour) :
    filter_progress mem dst val 0 = mem := by
  funext a
  unfold filter_progress
  rw [if_neg (by omega)]

theorem filter_progress_write (mem : Mem) (dst : Int) (val : Int → zplRgbColour) (n : Int)
    (hn : 0 ≤ n) :
    (filter_progress mem dst val n).write (dst + n) (val n)
      = filter_progress mem dst val (n + 1) := by
  funext a
  unfold Mem.write filter_progress
  by_cases h : a = dst + n
  · subst h
    rw [if_pos rfl, if_pos (by omega)]
    congr 1; omega
  · rw [if_neg h]
    by_cases h2 : dst ≤ a ∧ a < dst + n
    · rw [if_pos h2, if_pos (by omega)]
    · rw [if_neg h2, if_neg (by omega)]

theorem filter_loops (mem : Mem) (src W H dst : Int) (filter : Int → ℚ) (fw fh : Int)
    (factor bias : ℚ) (val : Int → zplRgbColour) (hW : 0 ≤ W)
    (hstep : ∀ x y : Nat, x < W.toNat → y < H.toNat →
      filter_pixel (filter_progress mem dst val ((y : Int) * W + (x : Int))) src W H dst
          filter fw fh factor bias (x : Int) (y : Int)
        = .ok ((filter_progress mem dst val ((y : Int) * W + (x : Int))).write
            (dst + ((y : Int) * W + (x : Int))) (val ((y : Int) * W + (x : Int))))) :
    zpl_image_rgb_filter mem src W H dst filter fw fh factor bias
      = .ok (filter_progress mem dst val ((H.toNat : Int) * W)) := by
  unfold zpl_image_rgb_filter
  dsimp only
  have key : (List.range H.toNat).foldlM
      (fun m (y : Nat) => (List.range W.toNat).foldlM
        (fun m (x : Nat) => filter_pixel m src W H dst filter fw fh factor bias (x : Int) (y : Int))
        m)
      (filter_progress mem dst val (((0 : Nat) : Int) * W))
      = .ok (filter_progress mem dst val ((H.toNat : Int) * W)) := by
    apply foldlM_range_ok _ (fun y : Nat => filter_progress mem dst val ((y : Int) * W))
    intro y hy
    have inner : (List.range W.toNat).foldlM
        (fun m (x : Nat) => filter_pixel m src W H dst filter fw fh factor bias (x : Int) (y : Int))
        (filter_progress mem dst val ((y : Int) * W + ((0 : Nat) : Int)))
        = .ok (filter_progress mem dst val ((y : Int) * W + (W.toNat : Int))) := by
      apply foldlM_range_ok _ (fun x : Nat => filter_progress mem dst val ((y : Int) * W + (x : Int)))
      intro x hx
      dsimp only
      rw [hstep x y hx hy, filter_progress_write _ _ _ _ (by positivity)]
      congr 2
      push_cast; ring_nf
    have e1 : (y : Int) * W + ((0 : Nat) : Int) = (y : Int) * W := by simp
    have e2 : (y : Int) * W + (W.toNat : Int) = ((y + 1 : Nat) : Int) * W := by
      rw [Int.toNat_of_nonneg hW]; push_cast; ring
    rw [e1, e2] at inner
    exact inner
  have e0 : ((0 : Nat) : Int) * W = 0 := by simp
  rw [e0, filter_progress_zero] at key
  exact key

/-! ## The identity kernel -/

theorem pixel_index_bounds (x y W H : Int) (hx0 : 0 ≤ x) (hx : x < W) (hy0 : 0 ≤ y) (hy : y < H) :
    0 ≤ y * W + x ∧ y * W + x < H * W := by
  have hW : 0 < W := lt_of_le_of_lt hx0 hx
  constructor
  · have := mul_nonneg hy0 hW.le
    linarith
  · have h1 : (y + 1) * W ≤ H * W := mul_le_mul_of_nonneg_right (by linarith) hW.le
    linarith

theorem filter_wrap_center (x W : Int) (hx0 : 0 ≤ x) (hx : x < W) : filter_wrap x 1 0 W = x := by
  unfold filter_wrap
  have e : Int.tdiv 1 2 = 0 := by decide
  rw [e, Int.tmod_eq_emod (by omega) (by omega)]
  have : x - 0 + 0 + W = x + W := by ring
  rw [this, Int.add_emod_self, Int.emod_eq_of_lt hx0 hx]

theorem filter_store_unit (acc : Int) (h1 : -2147483648 ≤ acc) (h2 : acc ≤ 2147483647) :
    filter_store 1 0 acc = .ok (max 0 (min 255 acc)).toNat := by
  unfold filter_store f64_add f64_mul i32_to_f64
  have hr : f64_round ((acc : Int) : ℚ) = (acc : ℚ) := by
    apply f64_round_int
    have h3 : ((acc.natAbs : Nat) : Int) < 2 ^ 53 := by
      rw [Int.natCast_natAbs]; norm_num; rw [abs_lt]; constructor <;> linarith
    exact_mod_cast h3
  rw [hr, one_mul, hr, add_zero, hr, f_to_i32_int acc h1 h2]
  show Except.ok (to_u8 (zpl_min (zpl_max acc 0) 255)) = _
  rw [to_u8_clamp]

theorem filter_store_unit_u8 (n : Nat) (hn : n < 256) : filter_store 1 0 (n : Int) = .ok n := by
  rw [filter_store_unit (n : Int) (by omega) (by omega)]
  congr 1
  have : max 0 (min 255 (n : Int)) = (n : Int) := by omega
  rw [this]; simp

theorem filter_progress_is_u8 (mem : Mem) (dst : Int) (val : Int → zplRgbColour) (n : Int)
    (hmem : ∀ a, (mem a).is_u8) (hval : ∀ i, (val i).is_u8) :
    ∀ a, (filter_progress mem dst val n a).is_u8 := by
  intro a
  unfold filter_progress
  split
  · exact hval _
  · exact hmem _

theorem int_filter_sum_one_by_one (sel : zplRgbColour → Nat) (mem : Mem) (src W H : Int)
    (k : Int → Int) (x y : Int) :
    int_filter_sum sel mem src W H k 1 1 x y
      = k 0 * (sel (mem (src + (filter_wrap y 1 0 H * W + filter_wrap x 1 0 W))) : Int) := by
  simp [int_filter_sum, int_filter_rows, int_filter_row, int_filter_term, List.range_succ]

/-- C3: for every `W ≥ 1`, `H ≥ 1` and every source buffer,
`zpl_image_rgb_filter` with a `1 × 1` kernel whose single weight is `1`,
`factor = 1` and `bias = 0` completes and leaves in every destination pixel
`(x, y)` exactly the r, g and b values of the source pixel `(x, y)`.  The
source and destination buffers are distinct objects, and memory cells hold
`u8` channels. -/
theorem zpl_image_rgb_filter_identity (mem : Mem) (source dest W H : Int) (filter : Int → ℚ)
    (hW : 1 ≤ W) (hH : 1 ≤ H) (hf : filter 0 = 1) (hmem : ∀ a, (mem a).is_u8)
    (hdisj : ∀ i j : Int, 0 ≤ i → i < H * W → 0 ≤ j → j < H * W → source + i ≠ dest + j) :
    ∃ m', zpl_image_rgb_filter mem source W H dest filter 1 1 1 0 = .ok m' ∧
      ∀ x y : Int, 0 ≤ x → x < W → 0 ≤ y → y < H →
        (m' (dest + (y * W + x))).r = (mem (source + (y * W + x))).r ∧
        (m' (dest + (y * W + x))).g = (mem (source + (y * W + x))).g ∧
        (m' (dest + (y * W + x))).b = (mem (source + (y * W + x))).b := by
  let val : Int → zplRgbColour := fun i =>
    ⟨(mem (source + i)).r, (mem (source + i)).g, (mem (source + i)).b, (mem (dest + i)).pad⟩
  have hval : ∀ i, (val i).is_u8 := fun i => hmem (source + i)
  have hW0 : 0 ≤ W := by omega
  have hWn : ((W.toNat : Nat) : Int) = W := Int.toNat_of_nonneg hW0
  have hHn : ((H.toNat : Nat) : Int) = H := Int.toNat_of_nonneg (by omega)
  refine ⟨filter_progress mem dest val ((H.toNat : Int) * W), ?_, ?_⟩
  · apply filter_loops mem source W H dest filter 1 1 1 0 val hW0
    intro x y hx hy
    have hx' : (x : Int) < W := by omega
    have hy' : (y : Int) < H := by omega
    obtain ⟨hn0, hn⟩ := pixel_index_bounds (x : Int) (y : Int) W H (by positivity) hx'
      (by positivity) hy'
    set n : Int := (y : Int) * W + (x : Int) with hndef
    set m : Mem := filter_progress mem dest val n with hm
    have hmu : ∀ a, (m a).is_u8 := filter_progress_is_u8 mem dest val n hmem hval
    have hk : ∀ fx fy : Nat, fx < (1 : Int).toNat → fy < (1 : Int).toNat →
        filter ((fy : Int) * 1 + (fx : Int))
          = (((fun _ => 1 : Int → Int) ((fy : Int) * 1 + (fx : Int)) : Int) : ℚ) ∧
        |(fun _ => 1 : Int → Int) ((fy : Int) * 1 + (fx : Int))| ≤ (1 : Int) := by
      intro fx fy hfx hfy
      have hfx0 : fx = 0 := by simpa using hfx
      have hfy0 : fy = 0 := by simpa using hfy
      subst hfx0; subst hfy0
      simp [hf]
    have hsums := filter_sums_int m source W H filter (fun _ => 1) 1 1 (x : Int) (y : Int) 1
      hk hmu (by decide)
    have hread : m (source + n) = mem (source + n) := by
      rw [hm]
      unfold filter_progress
      rw [if_neg]
      intro hcon
      exact hdisj n (source + n - dest) hn0 hn (by omega) (by omega) (by omega)
    have hold : m (dest + n) = mem (dest + n) := by
      rw [hm]
      unfold filter_progress
      rw [if_neg (by omega)]
    unfold filter_pixel
    rw [hsums]
    simp only [int_filter_sum_one_by_one, one_mul]
    rw [filter_wrap_center (x : Int) W (by positivity) hx',
      filter_wrap_center (y : Int) H (by positivity) hy', ← hndef, hread, hold]
    have := hmem (source + n)
    show (do
        let r ← filter_store 1 0 ((mem (source + n)).r : Int)
        let g ← filter_store 1 0 ((mem (source + n)).g : Int)
        let b ← filter_store 1 0 ((mem (source + n)).b : Int)
        pure (m.write (dest + n) ⟨r, g, b, (mem (dest + n)).pad⟩) : Except Fault Mem) = _
    rw [filter_store_unit_u8 _ this.1, filter_store_unit_u8 _ this.2.1,
      filter_store_unit_u8 _ this.2.2]
    rfl
  · intro x y hx0 hx hy0 hy
    obtain ⟨hn0, hn⟩ := pixel_index_bounds x y W H hx0 hx hy0 hy
    have : filter_progress mem dest val ((H.toNat : Int) * W) (dest + (y * W + x))
        = val (y * W + x) := by
      unfold filter_progress
      rw [if_pos (by rw [hHn]; omega)]
      congr 1; omega
    rw [this]
    exact ⟨rfl, rfl, rfl⟩

theorem example_mem_is_u8 : ∀ a, (example_mem a).is_u8 := by
  intro a
  refine ⟨?_, ?_, ?_⟩ <;> simp only [example_mem] <;> omega

theorem zpl_image_rgb_filter_identity_witness :
    ∃ m', zpl_image_rgb_filter example_mem 100 2 2 200 (fun _ => 1) 1 1 1 0 = .ok m' ∧
      ∀ x y : Int, 0 ≤ x → x < 2 → 0 ≤ y → y < 2 →
        (m' (200 + (y * 2 + x))).r = (example_mem (100 + (y * 2 + x))).r ∧
        (m' (200 + (y * 2 + x))).g = (example_mem (100 + (y * 2 + x))).g ∧
        (m' (200 + (y * 2 + x))).b = (example_mem (100 + (y * 2 + x))).b :=
  zpl_image_rgb_filter_identity example_mem 100 200 2 2 (fun _ => 1) (by decide) (by decide) rfl
    example_mem_is_u8 (by intro i j h1 h2 h3 h4; omega)

/-! ## The cross kernel and wraparound -/

theorem tmod_wrap (v W r : Int) (hr0 : 0 ≤ r) (hr : r < W) (h : v = r ∨ v = r + W) :
    Int.tmod v W = r := by
  rcases h with h | h
  · rw [h, Int.tmod_eq_emod hr0 (by omega), Int.emod_eq_of_lt hr0 hr]
  · rw [h, Int.tmod_eq_emod (by omega) (by omega), Int.add_emod_self, Int.emod_eq_of_lt hr0 hr]

theorem filter_wrap_five_range (x W : Int) (fx : Nat) (hx0 : 0 ≤ x) (hx : x < W)
    (hfx : fx < 5) (hW : 5 ≤ W) :
    0 ≤ filter_wrap x 5 (fx : Int) W ∧ filter_wrap x 5 (fx : Int) W < W := by
  unfold filter_wrap
  have e : Int.tdiv 5 2 = 2 := by decide
  rw [e]
  by_cases h : x - 2 + (fx : Int) < 0
  · rw [tmod_wrap _ W (x - 2 + (fx : Int) + W) (by omega) (by omega) (Or.inl rfl)]
    omega
  · by_cases h2 : x - 2 + (fx : Int) < W
    · rw [tmod_wrap _ W (x - 2 + (fx : Int)) (by omega) (by omega) (Or.inr rfl)]
      omega
    · have h3 : x - 2 + (fx : Int) + W = (x - 2 + (fx : Int) - W) + W * 2 := by ring
      rw [h3, Int.tmod_eq_emod (by omega) (by omega), Int.add_mul_emod_self_left,
        Int.emod_eq_of_lt (by omega) (by omega)]
      omega

theorem blur_filter_weights (fx fy : Nat) (hfx : fx < (5 : Int).toNat) (hfy : fy < (5 : Int).toNat) :
    blur_filter ((fy : Int) * 5 + (fx : Int))
      = ((blur_weights ((fy : Int) * 5 + (fx : Int)) : Int) : ℚ) ∧
    |blur_weights ((fy : Int) * 5 + (fx : Int))| ≤ (1 : Int) := by
  have h1 : fx < 5 := by simpa using hfx
  have h2 : fy < 5 := by simpa using hfy
  interval_cases fx <;> interval_cases fy <;> simp [blur_filter, blur_weights]

theorem int_filter_sum_congr (sel : zplRgbColour → Nat) (m mem : Mem) (src W H : Int)
    (k : Int → Int) (fw fh x y : Int)
    (h : ∀ fx fy : Nat, fx < fw.toNat → fy < fh.toNat →
      m (src + (filter_wrap y fh (fy : Int) H * W + filter_wrap x fw (fx : Int) W))
        = mem (src + (filter_wrap y fh (fy : Int) H * W + filter_wrap x fw (fx : Int) W))) :
    int_filter_sum sel m src W H k fw fh x y = int_filter_sum sel mem src W H k fw fh x y := by
  unfold int_filter_sum int_filter_rows
  apply range_sum_congr
  intro fy hfy
  unfold int_filter_row
  apply range_sum_congr
  intro fx hfx
  unfold int_filter_term
  rw [h fx fy hfx hfy]

theorem int_filter_sum_abs_le (sel : zplRgbColour → Nat) (mem : Mem) (src W H : Int)
    (k : Int → Int) (filter : Int → ℚ) (fw fh x y : Int) (B : Int)
    (hk : ∀ fx fy : Nat, fx < fw.toNat → fy < fh.toNat →
      filter ((fy : Int) * fw + (fx : Int)) = ((k ((fy : Int) * fw + (fx : Int)) : Int) : ℚ) ∧
      |k ((fy : Int) * fw + (fx : Int))| ≤ B)
    (hsel : ∀ a, sel (mem a) < 256) :
    |int_filter_sum sel mem src W H k fw fh x y|
      ≤ (fh.toNat : Int) * ((fw.toNat : Int) * (B * 255)) :=
  int_filter_rows_bound sel mem src W H k filter fw fh x y B hk hsel fh.toNat le_rfl

theorem index_div_mod (x y W : Int) (hx0 : 0 ≤ x) (hx : x < W) :
    (y * W + x) % W = x ∧ (y * W + x) / W = y := by
  constructor
  · rw [add_comm, Int.add_mul_emod_self, Int.emod_eq_of_lt hx0 hx]
  · rw [add_comm, Int.add_mul_ediv_right _ _ (by omega), Int.ediv_eq_zero_of_lt hx0 hx, zero_add]

/-- The filter with the cross kernel, `factor = 1` and `bias = 0`, run on
distinct buffers of a `W × H` image with `W, H ≥ 5`, completes, and its
destination holds `cross_value` at every index. -/
theorem filter_cross_result (mem : Mem) (source dest W H : Int)
    (hW : 5 ≤ W) (hH : 5 ≤ H) (hmem : ∀ a, (mem a).is_u8)
    (hdisj : ∀ i j : Int, 0 ≤ i → i < H * W → 0 ≤ j → j < H * W → source + i ≠ dest + j) :
    zpl_image_rgb_filter mem source W H dest blur_filter 5 5 1 0
      = .ok (filter_progress mem dest (cross_value mem source W H dest) ((H.toNat : Int) * W)) := by
  have hW0 : 0 ≤ W := by omega
  have hval : ∀ i, (cross_value mem source W H dest i).is_u8 := by
    intro i
    refine ⟨?_, ?_, ?_⟩ <;> simp only [cross_value] <;> omega
  apply filter_loops mem source W H dest blur_filter 5 5 1 0 _ hW0
  intro x y hx hy
  have hx' : (x : Int) < W := by omega
  have hy' : (y : Int) < H := by omega
  obtain ⟨hn0, hn⟩ := pixel_index_bounds (x : Int) (y : Int) W H (by positivity) hx'
    (by positivity) hy'
  obtain ⟨hmod, hdiv⟩ := index_div_mod (x : Int) (y : Int) W (by positivity) hx'
  set n : Int := (y : Int) * W + (x : Int) with hndef
  set m : Mem := filter_progress mem dest (cross_value mem source W H dest) n with hm
  have hmu : ∀ a, (m a).is_u8 := filter_progress_is_u8 mem dest _ n hmem hval
  have hsums := filter_sums_int m source W H blur_filter blur_weights 5 5 (x : Int) (y : Int) 1
    blur_filter_weights hmu (by decide)
  have hagree : ∀ fx fy : Nat, fx < (5 : Int).toNat → fy < (5 : Int).toNat →
      m (source + (filter_wrap (y : Int) 5 (fy : Int) H * W + filter_wrap (x : Int) 5 (fx : Int) W))
        = mem (source + (filter_wrap (y : Int) 5 (fy : Int) H * W
            + filter_wrap (x : Int) 5 (fx : Int) W)) := by
    intro fx fy hfx hfy
    have h1 : fx < 5 := by simpa using hfx
    have h2 : fy < 5 := by simpa using hfy
    obtain ⟨a0, a1⟩ := filter_wrap_five_range (x : Int) W fx (by positivity) hx' h1 hW
    obtain ⟨b0, b1⟩ := filter_wrap_five_range (y : Int) H fy (by positivity) hy' h2 hH
    obtain ⟨c0, c1⟩ := pixel_index_bounds _ _ W H a0 a1 b0 b1
    rw [hm]
    unfold filter_progress
    rw [if_neg]
    intro hcon
    exact hdisj _ (source + (filter_wrap (y : Int) 5 (fy : Int) H * W
      + filter_wrap (x : Int) 5 (fx : Int) W) - dest) c0 c1 (by omega) (by omega) (by omega)
  have hold : m (dest + n) = mem (dest + n) := by
    rw [hm]
    unfold filter_progress
    rw [if_neg (by omega)]
  have hsel : ∀ sel : zplRgbColour → Nat, (∀ a, sel (mem a) < 256) →
      filter_store 1 0 (int_filter_sum sel m source W H blur_weights 5 5 (x : Int) (y : Int))
        = .ok (max 0 (min 255 (int_filter_sum sel mem source W H blur_weights 5 5
            (n % W) (n / W)))).toNat := by
    intro sel hs
    rw [int_filter_sum_congr sel m mem source W H blur_weights 5 5 (x : Int) (y : Int) hagree,
      hmod, hdiv]
    have hb := int_filter_sum_abs_le sel mem source W H blur_weights blur_filter 5 5
      (x : Int) (y : Int) 1 blur_filter_weights hs
    have hb' := abs_le.1 hb
    have e5 : (((5 : Int).toNat : Nat) : Int) = 5 := by decide
    rw [e5] at hb'
    exact filter_store_unit _ (by linarith [hb'.1]) (by linarith [hb'.2])
  unfold filter_pixel
  rw [hsums]
  show (do
      let r ← filter_store 1 0 (int_filter_sum (fun c => c.r) m source W H blur_weights 5 5 x y)
      let g ← filter_store 1 0 (int_filter_sum (fun c => c.g) m source W H blur_weights 5 5 x y)
      let b ← filter_store 1 0 (int_filter_sum (fun c => c.b) m source W H blur_weights 5 5 x y)
      pure (m.write (dest + n) ⟨r, g, b, (m (dest + n)).pad⟩) : Except Fault Mem) = _
  rw [hsel _ (fun a => (hmem a).1), hsel _ (fun a => (hmem a).2.1),
    hsel _ (fun a => (hmem a).2.2), hold]
  rfl

theorem filter_wrap_zero_five (W : Int) (fx : Nat) (hfx : fx < 5) (hW : 5 ≤ W) :
    filter_wrap 0 5 (fx : Int) W = if fx < 2 then W - 2 + (fx : Int) else (fx : Int) - 2 := by
  unfold filter_wrap
  have e : Int.tdiv 5 2 = 2 := by decide
  rw [e]
  split
  · exact tmod_wrap _ W _ (by omega) (by omega) (Or.inl (by ring))
  · exact tmod_wrap _ W _ (by omega) (by omega) (Or.inr (by ring))

theorem int_filter_term_cross_corner (sel : zplRgbColour → Nat) (mem : Mem) (source W H : Int)
    (hW : 5 ≤ W) (hH : 5 ≤ H) (c : Nat)
    (hcorner : sel (mem (source + ((H - 1) * W + (W - 1)))) = c)
    (hzero : ∀ x y : Int, 0 ≤ x → x < W → 0 ≤ y → y < H → (x ≠ W - 1 ∨ y ≠ H - 1) →
      sel (mem (source + (y * W + x))) = 0)
    (fy fx : Nat) (hfy : fy < 5) (hfx : fx < 5) :
    int_filter_term sel mem source W H blur_weights 5 5 0 0 fy fx
      = if fy = 1 ∧ fx = 1 then (c : Int) else 0 := by
  unfold int_filter_term
  rw [filter_wrap_zero_five W fx hfx hW, filter_wrap_zero_five H fy hfy hH]
  by_cases h : fy = 1 ∧ fx = 1
  · obtain ⟨h1, h2⟩ := h
    subst h1; subst h2
    have e1 : (if (1 : Nat) < 2 then W - 2 + ((1 : Nat) : Int) else ((1 : Nat) : Int) - 2) = W - 1 := by
      simp; ring
    have e2 : (if (1 : Nat) < 2 then H - 2 + ((1 : Nat) : Int) else ((1 : Nat) : Int) - 2) = H - 1 := by
      simp; ring
    rw [e1, e2, hcorner]
    simp [blur_weights]
  · rw [if_neg h]
    have hz : sel (mem (source +
        ((if fy < 2 then H - 2 + (fy : Int) else (fy : Int) - 2) * W
          + (if fx < 2 then W - 2 + (fx : Int) else (fx : Int) - 2)))) = 0 := by
      apply hzero
      · split <;> omega
      · split <;> omega
      · split <;> omega
      · split <;> omega
      · by_cases hx1 : fx = 1
        · right
          have hy1 : fy ≠ 1 := fun hy1 => h ⟨hy1, hx1⟩
          split <;> omega
        · left
          split <;> omega
    rw [hz]
    simp

theorem int_filter_sum_cross_corner (sel : zplRgbColour → Nat) (mem : Mem) (source W H : Int)
    (hW : 5 ≤ W) (hH : 5 ≤ H) (c : Nat)
    (hcorner : sel (mem (source + ((H - 1) * W + (W - 1)))) = c)
    (hzero : ∀ x y : Int, 0 ≤ x → x < W → 0 ≤ y → y < H → (x ≠ W - 1 ∨ y ≠ H - 1) →
      sel (mem (source + (y * W + x))) = 0) :
    int_filter_sum sel mem source W H blur_weights 5 5 0 0 = (c : Int) := by
  unfold int_filter_sum int_filter_rows
  have e5 : (5 : Int).toNat = 5 := by decide
  rw [e5]
  have hrow : ∀ fy, fy < 5 →
      int_filter_row sel mem source W H blur_weights 5 5 0 0 fy 5
        = if fy = 1 then (c : Int) else 0 := by
    intro fy hfy
    unfold int_filter_row
    rw [range_sum_congr _ (fun fx => if fy = 1 ∧ fx = 1 then (c : Int) else 0) 5
      (fun fx hfx => int_filter_term_cross_corner sel mem source W H hW hH c hcorner hzero
        fy fx hfy hfx)]
    by_cases h : fy = 1
    · simp [h, List.range_succ]
    · simp [h]
  rw [range_sum_congr _ (fun fy => if fy = 1 then (c : Int) else 0) 5 hrow]
  simp [List.range_succ]

/-- C4: for every `W ≥ 5`, `H ≥ 5`, if the source image is zero everywhere
except pixel `(W-1, H-1)`, whose channels are those of the colour `c`, then
`zpl_image_rgb_filter` with the `5 × 5` cross kernel, `factor = 1` and
`bias = 0` completes and gives destination pixel `(0, 0)` the channel values
of `c`: the corner receives the contribution wrapped from the opposite
corner.  The buffers are distinct objects and memory cells hold `u8`
channels. -/
theorem zpl_image_rgb_filter_cross_wraps (mem : Mem) (source dest W H : Int) (c : zplRgbColour)
    (hW : 5 ≤ W) (hH : 5 ≤ H) (hmem : ∀ a, (mem a).is_u8)
    (hdisj : ∀ i j : Int, 0 ≤ i → i < H * W → 0 ≤ j → j < H * W → source + i ≠ dest + j)
    (hcorner : mem (source + ((H - 1) * W + (W - 1))) = c)
    (hzero : ∀ x y : Int, 0 ≤ x → x < W → 0 ≤ y → y < H → (x ≠ W - 1 ∨ y ≠ H - 1) →
      (mem (source + (y * W + x))).r = 0 ∧ (mem (source + (y * W + x))).g = 0 ∧
      (mem (source + (y * W + x))).b = 0) :
    ∃ m', zpl_image_rgb_filter mem source W H dest blur_filter 5 5 1 0 = .ok m' ∧
      (m' (dest + (0 * W + 0))).r = c.r ∧ (m' (dest + (0 * W + 0))).g = c.g ∧
      (m' (dest + (0 * W + 0))).b = c.b := by
  refine ⟨_, filter_cross_result mem source dest W H hW hH hmem hdisj, ?_⟩
  have hHn : ((H.toNat : Nat) : Int) = H := Int.toNat_of_nonneg (by omega)
  have hpos : 0 < H * W := by positivity
  have hcu : c.is_u8 := hcorner ▸ hmem _
  have e : filter_progress mem dest (cross_value mem source W H dest) ((H.toNat : Int) * W)
      (dest + (0 * W + 0)) = cross_value mem source W H dest 0 := by
    unfold filter_progress
    rw [if_pos (by rw [hHn]; omega)]
    congr 1; omega
  rw [e]
  have hr := int_filter_sum_cross_corner (fun c => c.r) mem source W H hW hH c.r
    (by rw [hcorner]) (fun x y h1 h2 h3 h4 h5 => (hzero x y h1 h2 h3 h4 h5).1)
  have hg := int_filter_sum_cross_corner (fun c => c.g) mem source W H hW hH c.g
    (by rw [hcorner]) (fun x y h1 h2 h3 h4 h5 => (hzero x y h1 h2 h3 h4 h5).2.1)
  have hb := int_filter_sum_cross_corner (fun c => c.b) mem source W H hW hH c.b
    (by rw [hcorner]) (fun x y h1 h2 h3 h4 h5 => (hzero x y h1 h2 h3 h4 h5).2.2)
  have z1 : (0 : Int) % W = 0 := by simp
  have z2 : (0 : Int) / W = 0 := by simp
  unfold cross_value
  rw [z1, z2, hr, hg, hb]
  obtain ⟨h1, h2, h3⟩ := hcu
  refine ⟨?_, ?_, ?_⟩ <;> simp only <;> omega

theorem zpl_image_rgb_filter_cross_wraps_witness :
    ∃ m', zpl_image_rgb_filter corner_mem 100 5 5 200 blur_filter 5 5 1 0 = .ok m' ∧
      (m' (200 + (0 * 5 + 0))).r = 200 ∧ (m' (200 + (0 * 5 + 0))).g = 100 ∧
      (m' (200 + (0 * 5 + 0))).b = 50 :=
  zpl_image_rgb_filter_cross_wraps corner_mem 100 200 5 5 ⟨200, 100, 50, 0⟩
    (by decide) (by decide)
    (by intro a; unfold corner_mem; split <;> exact ⟨by decide, by decide, by decide⟩)
    (by intro i j h1 h2 h3 h4; omega)
    (by decide)
    (by
      intro x y h1 h2 h3 h4 h5
      have : corner_mem (100 + (y * 5 + x)) = ⟨0, 0, 0, 0⟩ := by
        unfold corner_mem
        rw [if_neg (by omega)]
      rw [this]
      exact ⟨rfl, rfl, rfl⟩)

/-! ## The step of `zpl_image_rgb_resize` -/

theorem round_half_even_ge (n : Int) (d : Nat) (m : Int) (hd : 0 < d) (h : m * (d : Int) ≤ n) :
    m ≤ round_half_even n d := by
  have hd' : (0 : Int) < (d : Int) := by exact_mod_cast hd
  have h1 : m ≤ n / (d : Int) := Int.le_ediv_of_mul_le hd' h
  unfold round_half_even
  dsimp only
  split
  · exact h1
  · split
    · omega
    · split <;> omega

theorem round_half_even_le (n : Int) (d : Nat) (m : Int) (hd : 0 < d)
    (h : 2 * n < (2 * m + 1) * (d : Int)) : round_half_even n d ≤ m := by
  have hd' : (0 : Int) < (d : Int) := by exact_mod_cast hd
  have hdiv := Int.emod_add_ediv n (d : Int)
  have hr0 := Int.emod_nonneg n hd'.ne'
  have hr1 := Int.emod_lt_of_pos n hd'
  set q := n / (d : Int) with hq
  set r := n % (d : Int) with hr
  have hqm : q ≤ m := by
    by_contra hcon
    push_neg at hcon
    have : (m + 1) * (d : Int) ≤ q * (d : Int) := mul_le_mul_of_nonneg_right (by omega) hd'.le
    nlinarith
  have hup : (d : Int) ≤ 2 * r → q + 1 ≤ m := by
    intro h2
    by_contra hcon
    push_neg at hcon
    have hqe : q = m := by omega
    rw [hqe] at hdiv
    nlinarith
  unfold round_half_even
  dsimp only
  rw [← hq, ← hr]
  split
  · exact hqm
  · split
    · exact hup (by omega)
    · split
      · exact hqm
      · exact hup (by omega)

theorem cast_two_pow_int (n : Nat) : (((2 : Nat) ^ n : Nat) : Int) = (2 : Int) ^ n := by
  simp

theorem cast_two_pow_rat (n : Nat) : (((2 : Nat) ^ n : Nat) : ℚ) = (2 : ℚ) ^ n := by
  simp

theorem round_half_even_window (A B q S K : Nat) (hB : 0 < B) (hS : 0 < S) (hK : 0 < K)
    (hqB : q * B ≤ A) (hqB' : A < (q + 1) * B) (hBS : B < 2 * S) :
    (q : Int) * ((S : Int) * (K : Int))
        ≤ round_half_even ((A : Int) * ((S : Int) * (K : Int))) (B * K) * (K : Int) ∧
    round_half_even ((A : Int) * ((S : Int) * (K : Int))) (B * K) * (K : Int)
        < ((q : Int) + 1) * ((S : Int) * (K : Int)) := by
  have hKi : (0 : Int) < (K : Int) := by exact_mod_cast hK
  have hSi : (0 : Int) < (S : Int) := by exact_mod_cast hS
  have hqBi : (q : Int) * (B : Int) ≤ (A : Int) := by exact_mod_cast hqB
  have hqBi' : (A : Int) + 1 ≤ ((q : Int) + 1) * (B : Int) := by exact_mod_cast hqB'
  have hBSi : (B : Int) < 2 * (S : Int) := by exact_mod_cast hBS
  have hSKi : (0 : Int) < (S : Int) * (K : Int) := mul_pos hSi hKi
  have hlow : (q : Int) * (S : Int)
      ≤ round_half_even ((A : Int) * ((S : Int) * (K : Int))) (B * K) := by
    apply round_half_even_ge _ _ _ (by positivity)
    push_cast
    have := mul_le_mul_of_nonneg_right hqBi hSKi.le
    nlinarith
  have hhigh : round_half_even ((A : Int) * ((S : Int) * (K : Int))) (B * K)
      ≤ ((q : Int) + 1) * (S : Int) - 1 := by
    apply round_half_even_le _ _ _ (by positivity)
    push_cast
    have h1 := mul_le_mul_of_nonneg_right hqBi' hSKi.le
    have h2 := mul_lt_mul_of_pos_right hBSi hKi
    nlinarith
  constructor
  · have := mul_le_mul_of_nonneg_right hlow hKi.le
    nlinarith
  · have := mul_le_mul_of_nonneg_right hhigh hKi.le
    nlinarith

theorem f_to_i32_window (R q : Int) (P : Nat) (hP : 0 < P) (h1 : q * (P : Int) ≤ R)
    (h2 : R < (q + 1) * (P : Int)) (hq0 : 0 ≤ q) (hq : q ≤ 2147483647) :
    f_to_i32 ((R : ℚ) / (P : ℚ)) = .ok q := by
  have hpow : (0 : ℚ) < (P : ℚ) := by exact_mod_cast hP
  have hx1 : (q : ℚ) ≤ (R : ℚ) / (P : ℚ) := by
    rw [le_div_iff₀ hpow]
    exact_mod_cast h1
  have hx2 : (R : ℚ) / (P : ℚ) < (q : ℚ) + 1 := by
    rw [div_lt_iff₀ hpow]
    exact_mod_cast h2
  have hx0 : (0 : ℚ) ≤ (R : ℚ) / (P : ℚ) := le_trans (by exact_mod_cast hq0) hx1
  have hfloor : ⌊(R : ℚ) / (P : ℚ)⌋ = q := Int.floor_eq_iff.2 ⟨hx1, hx2⟩
  unfold f_to_i32
  rw [trunc_to_zero_eq, if_pos hx0, hfloor]
  dsimp only
  rw [if_pos ⟨by omega, hq⟩]

theorem resize_step_exact (A B : Nat) (hB : 1 ≤ B) (hAB : B ≤ A) (hA : A < 2 ^ 24) :
    resize_step (A : Int) (B : Int) = .ok ((A / B : Nat) : Int) := by
  have hB24 : B < 2 ^ 24 := lt_of_le_of_lt hAB hA
  have eA : i32_to_f32 (A : Int) = (A : ℚ) := i32_to_f32_nat A hA
  have eB : i32_to_f32 (B : Int) = (B : ℚ) := i32_to_f32_nat B hB24
  have hBne : (B : ℚ) ≠ 0 := by exact_mod_cast (by omega : B ≠ 0)
  have hBpos : 0 < B := by omega
  unfold resize_step
  rw [eA, eB, if_neg hBne]
  unfold f32_div f32_round
  have hdiv := fp_round_div 24 149 (A : Int) B hBpos
  rw [Int.cast_natCast] at hdiv
  rw [hdiv]
  unfold fp_round_frac
  dsimp only
  -- the quotient and its size
  set q : Nat := A / B with hq
  have hq1 : 1 ≤ q := (Nat.one_le_div_iff hBpos).2 hAB
  have hqB : q * B ≤ A := Nat.div_mul_le_self A B
  have hqB' : A < (q + 1) * B := by
    have := Nat.div_add_mod A B
    have h2 := Nat.mod_lt A hBpos
    rw [← hq] at this
    nlinarith
  have hqA : q ≤ A := Nat.div_le_self A B
  have hq24 : q < 2 ^ 24 := lt_of_le_of_lt hqA hA
  have hqr : (q : Int) ≤ 2147483647 := by
    have : (q : Int) < 2 ^ 24 := by exact_mod_cast hq24
    norm_num at this; omega
  -- the binade of the quotient
  set jq : Nat := bit_length q with hjq
  have hjq_lt : q < 2 ^ jq := bit_length_lt q
  have hjq_pos : 1 ≤ jq := lt_bit_length (by simpa using hq1)
  have hjq_le : 2 ^ (jq - 1) ≤ q := by
    by_contra hcon
    push_neg at hcon
    have := bit_length_le hcon
    omega
  have hjq24 : jq ≤ 24 := bit_length_le hq24
  have e1 : 24 - jq + (jq + 125) = 149 := by omega
  have e2 : jq - 1 + (1 + (24 - jq)) = 24 := by omega
  have e3 : jq + 149 - 24 = jq + 125 := by omega
  have e4 : jq - 1 + 149 + 1 = jq + 149 := by omega
  set K : Nat := 2 ^ (jq + 125) with hK
  set S : Nat := 2 ^ (24 - jq) with hS
  have hKpos : 0 < K := by positivity
  have hSpos : 0 < S := by positivity
  have hBS : B < 2 * S := by
    have h1 : 2 ^ (jq - 1) * B < 2 ^ (jq - 1) * (2 * S) := by
      calc 2 ^ (jq - 1) * B ≤ q * B := Nat.mul_le_mul_right _ hjq_le
        _ ≤ A := hqB
        _ < 2 ^ 24 := hA
        _ = 2 ^ (jq - 1) * (2 * S) := by
            rw [hS, ← pow_succ', ← pow_add, add_comm (24 - jq) 1, e2]
    exact Nat.lt_of_mul_lt_mul_left h1
  have hwin := round_half_even_window A B q S K hBpos hSpos hKpos hqB hqB' hBS
  clear hjq24 hq24 hqA hBS hB24 hA hAB hB eA eB hdiv hq1 hBne
  -- the binade of the scaled quotient
  have hSK : S * K = 2 ^ 149 := by
    rw [hS, hK, ← pow_add, e1]
  have habs : ((A : Int) * 2 ^ 149).natAbs = A * 2 ^ 149 := by
    rw [Int.natAbs_mul, Int.natAbs_pow]; rfl
  have hF1 : q * 2 ^ 149 ≤ A * 2 ^ 149 / B := by
    rw [Nat.le_div_iff_mul_le hBpos]
    calc q * 2 ^ 149 * B = q * B * 2 ^ 149 := Nat.mul_right_comm _ _ _
      _ ≤ A * 2 ^ 149 := Nat.mul_le_mul_right _ hqB
  have hF2 : A * 2 ^ 149 / B < (q + 1) * 2 ^ 149 := by
    rw [Nat.div_lt_iff_lt_mul hBpos]
    calc A * 2 ^ 149 < (q + 1) * B * 2 ^ 149 :=
          Nat.mul_lt_mul_of_pos_right hqB' (pow_pos (by decide) 149)
      _ = (q + 1) * 2 ^ 149 * B := Nat.mul_right_comm _ _ _
  have hbl : bit_length (A * 2 ^ 149 / B) = jq + 149 := by
    apply le_antisymm
    · apply bit_length_le
      calc A * 2 ^ 149 / B < (q + 1) * 2 ^ 149 := hF2
        _ ≤ 2 ^ jq * 2 ^ 149 := Nat.mul_le_mul_right _ hjq_lt
        _ = 2 ^ (jq + 149) := (pow_add 2 jq 149).symm
    · have h3 : 2 ^ (jq - 1 + 149) ≤ A * 2 ^ 149 / B := by
        calc 2 ^ (jq - 1 + 149) = 2 ^ (jq - 1) * 2 ^ 149 := pow_add 2 (jq - 1) 149
          _ ≤ q * 2 ^ 149 := Nat.mul_le_mul_right _ hjq_le
          _ ≤ A * 2 ^ 149 / B := hF1
      have h4 := lt_bit_length h3
      rw [← e4]
      exact h4
  rw [habs, hbl, e3]
  have hP : ((2 : Int) ^ 149) = (S : Int) * (K : Int) := by
    rw [← Nat.cast_mul, hSK, cast_two_pow_int]
  have hKc : ((2 : Int) ^ (jq + 125)) = (K : Int) := by rw [hK, cast_two_pow_int]
  have hPq : ((2 : ℚ) ^ 149) = ((S * K : Nat) : ℚ) := by rw [hSK, cast_two_pow_rat]
  rw [hKc, hP, hPq]
  apply f_to_i32_window _ _ _ (Nat.mul_pos hSpos hKpos)
  · push_cast; exact hwin.1
  · push_cast; exact hwin.2
  · exact Int.natCast_nonneg q
  · exact hqr

/-! ## `zpl_image_rgb_resize` -/

theorem foldlM_eq_foldl {α β : Type} (f : β → α → Except Fault β) (g : β → α → β)
    (l : List α) (h : ∀ b a, a ∈ l → f b a = .ok (g b a)) (b : β) :
    l.foldlM f b = .ok (l.foldl g b) := by
  induction l generalizing b with
  | nil => rfl
  | cons a l ih =>
    rw [List.foldlM_cons, h b a (List.mem_cons_self a l)]
    exact ih (fun b' a' ha' => h b' a' (List.mem_cons_of_mem a ha')) (g b a)

theorem foldl_congr_mem {α β : Type} (f g : β → α → β) (l : List α)
    (h : ∀ b a, a ∈ l → f b a = g b a) (b : β) : l.foldl f b = l.foldl g b := by
  induction l generalizing b with
  | nil => rfl
  | cons a l ih =>
    rw [List.foldl_cons, List.foldl_cons, h b a (List.mem_cons_self a l)]
    exact ih (fun b' a' ha' => h b' a' (List.mem_cons_of_mem a ha')) (g b a)

theorem resize_step_exact_int (a b : Int) (hb : 1 ≤ b) (hab : b ≤ a) (ha : a < 16777216) :
    resize_step a b = .ok (a / b) := by
  have h := resize_step_exact a.toNat b.toNat (by omega) (by omega) (by norm_num; omega)
  rw [Int.toNat_of_nonneg (by omega), Int.toNat_of_nonneg (by omega)] at h
  rw [h]
  congr 1
  rw [Int.natCast_div, Int.toNat_of_nonneg (by omega), Int.toNat_of_nonneg (by omega)]

theorem resize_steps (s d : Int) (hs : 1 ≤ s) (hd : 1 ≤ d) (hs24 : s < 16777216)
    (hd24 : d < 16777216) :
    (if decide (d < s) = true then resize_step s d else resize_step d s)
      = .ok (if d < s then s / d else d / s) := by
  by_cases h : d < s
  · simp only [h, decide_True, if_true]
    exact resize_step_exact_int s d hd h.le hs24
  · simp only [h, decide_False, if_false]
    exact resize_step_exact_int d s hs (by omega) hd24

theorem resize_step_pos (s d : Int) (hs : 1 ≤ s) (hd : 1 ≤ d) :
    1 ≤ (if d < s then s / d else d / s) := by
  split
  · exact Int.le_ediv_of_mul_le (by omega) (by omega)
  · exact Int.le_ediv_of_mul_le (by omega) (by omega)

theorem resize_coord_spec (s d x : Int) (hs : 1 ≤ s) (hd : 1 ≤ d) (hx : 0 ≤ x) :
    resize_coord (decide (d < s)) (if d < s then s / d else d / s) x
      = .ok (spec_resize_coord s d x) := by
  have hpos := resize_step_pos s d hs hd
  unfold resize_coord i32_div spec_resize_coord
  rw [if_neg (by omega)]
  by_cases h : d < s
  · simp [h]
  · simp only [h, if_false, decide_False]
    show Except.ok (if false = true then x * (d / s) else Int.tdiv x (d / s)) = _
    simp only [if_false, Bool.false_eq_true]
    rw [Int.tdiv_eq_ediv hx (by simp only [h, if_false] at hpos; omega)]

theorem except_ok_bind {α β : Type} (a : α) (f : α → Except Fault β) :
    (Except.ok a >>= f) = f a := rfl

theorem object_access_ok (cells i : Int) (h0 : 0 ≤ i) (h1 : i < cells) :
    object_access cells i = .ok () := by
  unfold object_access
  rw [if_pos ⟨h0, h1⟩]

theorem object_access_fault (cells i : Int) (h : ¬ (0 ≤ i ∧ i < cells)) :
    object_access cells i = .error .undefined := by
  unfold object_access
  rw [if_neg h]

theorem resize_pixel_spec (m : Mem) (src sw sh dst dw dh cells : Int) (x y : Nat)
    (hsw : 1 ≤ sw) (hsh : 1 ≤ sh) (hdw : 1 ≤ dw) (hdh : 1 ≤ dh)
    (hsrc0 : 0 ≤ spec_resize_coord sh dh (y : Int) * sw + spec_resize_coord sw dw (x : Int))
    (hsrc : spec_resize_coord sh dh (y : Int) * sw + spec_resize_coord sw dw (x : Int) < cells)
    (hdst : (y : Int) * dw + (x : Int) < cells) :
    resize_pixel m src sw dst dw cells (decide (dw < sw)) (decide (dh < sh))
        (if dw < sw then sw / dw else dw / sw) (if dh < sh then sh / dh else dh / sh)
        (x : Int) (y : Int)
      = .ok (m.write (dst + ((y : Int) * dw + (x : Int)))
          (m (src + (spec_resize_coord sh dh (y : Int) * sw
            + spec_resize_coord sw dw (x : Int))))) := by
  have hdst0 : 0 ≤ (y : Int) * dw + (x : Int) := by positivity
  unfold resize_pixel
  rw [resize_coord_spec sw dw (x : Int) hsw hdw (by positivity),
    resize_coord_spec sh dh (y : Int) hsh hdh (by positivity)]
  simp only [except_ok_bind]
  rw [object_access_ok _ _ hsrc0 hsrc, object_access_ok _ _ hdst0 hdst]
  rfl

theorem resize_copy_loop (mem : Mem) (src sw sh dst dw dh cells : Int)
    (hsw : 1 ≤ sw) (hsh : 1 ≤ sh) (hdw : 1 ≤ dw) (hdh : 1 ≤ dh)
    (hin : ∀ x y : Nat, x < dw.toNat → y < dh.toNat →
      0 ≤ spec_resize_coord sh dh (y : Int) * sw + spec_resize_coord sw dw (x : Int) ∧
      spec_resize_coord sh dh (y : Int) * sw + spec_resize_coord sw dw (x : Int) < cells ∧
      (y : Int) * dw + (x : Int) < cells) :
    (List.range dh.toNat).foldlM
      (fun m (y : Nat) => (List.range dw.toNat).foldlM
        (fun m (x : Nat) => resize_pixel m src sw dst dw cells (decide (dw < sw))
          (decide (dh < sh))
          (if dw < sw then sw / dw else dw / sw) (if dh < sh then sh / dh else dh / sh)
          (x : Int) (y : Int)) m)
      mem
    = .ok (spec_resize_copy mem src sw sh dst dw dh) := by
  unfold spec_resize_copy
  apply foldlM_eq_foldl
  intro m y hy
  apply foldlM_eq_foldl
  intro m' x hx
  obtain ⟨h0, h1, h2⟩ := hin x y (List.mem_range.1 hx) (List.mem_range.1 hy)
  exact resize_pixel_spec m' src sw sh dst dw dh cells x y hsw hsh hdw hdh h0 h1 h2

/-- Without blur, for extents in `[1, 2^24)` and a loop whose accesses all stay
inside the `cells` cells of the parameter variables, the call is the sequence
of copies `spec_resize_copy` between the two variables. -/
theorem zpl_image_rgb_resize_eq (mem : Mem)
    (addr_source addr_dest cells source sw sh dest dw dh : Int) (blur_iter blur_mem : Int)
    (hsw : 1 ≤ sw) (hsh : 1 ≤ sh) (hdw : 1 ≤ dw) (hdh : 1 ≤ dh)
    (hsw' : sw < 16777216) (hsh' : sh < 16777216) (hdw' : dw < 16777216) (hdh' : dh < 16777216)
    (hblur : blur_iter ≤ 0)
    (hin : ∀ x y : Nat, x < dw.toNat → y < dh.toNat →
      0 ≤ spec_resize_coord sh dh (y : Int) * sw + spec_resize_coord sw dw (x : Int) ∧
      spec_resize_coord sh dh (y : Int) * sw + spec_resize_coord sw dw (x : Int) < cells ∧
      (y : Int) * dw + (x : Int) < cells) :
    zpl_image_rgb_resize mem addr_source addr_dest cells source sw sh dest dw dh blur_iter
        blur_mem
      = .ok (spec_resize_copy (store_ptr (store_ptr mem addr_source source) addr_dest dest)
          addr_source sw sh addr_dest dw dh) := by
  unfold zpl_image_rgb_resize
  dsimp only
  rw [resize_steps sw dw hsw hdw hsw' hdw', resize_steps sh dh hsh hdh hsh' hdh']
  simp only [except_ok_bind]
  rw [resize_copy_loop _ addr_source sw sh addr_dest dw dh cells hsw hsh hdw hdh hin]
  simp only [except_ok_bind]
  rw [if_neg (by omega)]
  rfl

/-! ## Faults of the filter are never assertion failures -/

theorem bind_ne_assertion {α β : Type} (e : Except Fault α) (f : α → Except Fault β)
    (h1 : e ≠ .error .assertion) (h2 : ∀ a, f a ≠ .error .assertion) :
    (e >>= f) ≠ .error .assertion := by
  cases e with
  | error e' =>
    intro hcon
    have e : (Except.error e' >>= f) = Except.error e' := rfl
    rw [e] at hcon
    injection hcon with h
    exact h1 (by rw [h])
  | ok a => exact h2 a

theorem foldlM_ne_assertion {α β : Type} (f : β → α → Except Fault β) (l : List α)
    (h : ∀ b a, f b a ≠ .error .assertion) (b : β) :
    l.foldlM f b ≠ .error .assertion := by
  induction l generalizing b with
  | nil => intro hcon; cases hcon
  | cons a l ih =>
    rw [List.foldlM_cons]
    exact bind_ne_assertion _ _ (h b a) (fun b' => ih b')

theorem f_to_i32_ne_assertion (x : ℚ) : f_to_i32 x ≠ .error .assertion := by
  unfold f_to_i32
  dsimp only
  split <;> intro hcon <;> cases hcon

theorem filter_cell_ne_assertion (mem : Mem) (src W H : Int) (filter : Int → ℚ) (fw fh x y : Int)
    (acc : Int × Int × Int) (fx fy : Int) :
    filter_cell mem src W H filter fw fh x y acc fx fy ≠ .error .assertion := by
  unfold filter_cell filter_accumulate
  apply bind_ne_assertion _ _ (f_to_i32_ne_assertion _)
  intro r
  apply bind_ne_assertion _ _ (f_to_i32_ne_assertion _)
  intro g
  apply bind_ne_assertion _ _ (f_to_i32_ne_assertion _)
  intro b hcon
  cases hcon

theorem filter_store_ne_assertion (factor bias : ℚ) (acc : Int) :
    filter_store factor bias acc ≠ .error .assertion := by
  unfold filter_store
  apply bind_ne_assertion _ _ (f_to_i32_ne_assertion _)
  intro v hcon
  cases hcon

theorem filter_pixel_ne_assertion (mem : Mem) (src W H dst : Int) (filter : Int → ℚ)
    (fw fh : Int) (factor bias : ℚ) (x y : Int) :
    filter_pixel mem src W H dst filter fw fh factor bias x y ≠ .error .assertion := by
  unfold filter_pixel
  apply bind_ne_assertion
  · unfold filter_sums
    apply foldlM_ne_assertion
    intro acc fy
    apply foldlM_ne_assertion
    intro acc' fx
    exact filter_cell_ne_assertion _ _ _ _ _ _ _ _ _ _ _ _
  · intro acc
    apply bind_ne_assertion _ _ (filter_store_ne_assertion _ _ _)
    intro r
    apply bind_ne_assertion _ _ (filter_store_ne_assertion _ _ _)
    intro g
    apply bind_ne_assertion _ _ (filter_store_ne_assertion _ _ _)
    intro b hcon
    cases hcon

theorem zpl_image_rgb_filter_ne_assertion (mem : Mem) (source W H dest : Int)
    (filter : Int → ℚ) (fw fh : Int) (factor bias : ℚ) :
    zpl_image_rgb_filter mem source W H dest filter fw fh factor bias ≠ .error .assertion := by
  unfold zpl_image_rgb_filter
  dsimp only
  apply foldlM_ne_assertion
  intro m y
  apply foldlM_ne_assertion
  intro m' x
  exact filter_pixel_ne_assertion _ _ _ _ _ _ _ _ _ _ _ _



/-! ## Claims on `zpl_image_rgb_resize` -/

theorem except_error_bind {α β : Type} (e : Fault) (f : α → Except Fault β) :
    ((Except.error e : Except Fault α) >>= f) = .error e := rfl

theorem resize_pixel_fault (m : Mem) (src sw dst dw cells : Int) (xd yd : Bool)
    (sx sy x y ox oy : Int) (hx : resize_coord xd sx x = .ok ox) (hy : resize_coord yd sy y = .ok oy)
    (h : ¬ (0 ≤ oy * sw + ox ∧ oy * sw + ox < cells)) :
    resize_pixel m src sw dst dw cells xd yd sx sy x y = .error .undefined := by
  unfold resize_pixel
  rw [hx, hy]
  simp only [except_ok_bind]
  rw [object_access_fault _ _ h]
  rfl

theorem resize_coord_cases (down : Bool) (step x : Int) :
    resize_coord down step x = .error .undefined ∨ ∃ o, resize_coord down step x = .ok o := by
  unfold resize_coord i32_div
  by_cases h : step = 0
  · left; rw [if_pos h]; rfl
  · right; rw [if_neg h]; exact ⟨_, rfl⟩

theorem object_access_cases (cells i : Int) :
    object_access cells i = .error .undefined ∨ object_access cells i = .ok () := by
  unfold object_access
  split
  · right; rfl
  · left; rfl

theorem resize_pixel_cases (m : Mem) (src sw dst dw cells : Int) (xd yd : Bool)
    (sx sy x y : Int) :
    resize_pixel m src sw dst dw cells xd yd sx sy x y = .error .undefined ∨
    ∃ m', resize_pixel m src sw dst dw cells xd yd sx sy x y = .ok m' := by
  unfold resize_pixel
  rcases resize_coord_cases xd sx x with h1 | ⟨ox, h1⟩
  · left; rw [h1]; rfl
  rcases resize_coord_cases yd sy y with h2 | ⟨oy, h2⟩
  · left; rw [h1, h2]; rfl
  rw [h1, h2]
  simp only [except_ok_bind]
  rcases object_access_cases cells (oy * sw + ox) with h3 | h3
  · left; rw [h3]; rfl
  rcases object_access_cases cells (y * dw + x) with h4 | h4
  · left; rw [h3, h4]; rfl
  · right; rw [h3, h4]; exact ⟨_, rfl⟩

theorem resize_loop_wide_fault (mem : Mem) (src dst cells : Int) (hcells : cells ≤ 5592405) :
    (List.range (1 : Int).toNat).foldlM
      (fun m (y : Nat) => (List.range (3 : Int).toNat).foldlM
        (fun m (x : Nat) => resize_pixel m src 16777215 dst 3 cells (decide ((3 : Int) < 16777215))
          (decide ((1 : Int) < 1))
          (if (3 : Int) < 16777215 then 16777215 / 3 else 3 / 16777215)
          (if (1 : Int) < 1 then 1 / 1 else 1 / 1)
          (x : Int) (y : Int)) m)
      mem
    = .error .undefined := by
  have e1 : (1 : Int).toNat = 1 := by decide
  have e3 : (3 : Int).toNat = 3 := by decide
  have r1 : List.range 1 = [0] := by decide
  have r3 : List.range 3 = [0, 1, 2] := by decide
  rw [e1, e3, r1, r3]
  have hstep : (if (3 : Int) < 16777215 then (16777215 : Int) / 3 else 3 / 16777215) = 5592405 := by
    decide
  have hstep1 : (if (1 : Int) < 1 then (1 : Int) / 1 else 1 / 1) = 1 := by decide
  rw [hstep, hstep1]
  have hsecond : ∀ m : Mem, resize_pixel m src 16777215 dst 3 cells (decide ((3 : Int) < 16777215))
      (decide ((1 : Int) < 1)) 5592405 1 ((1 : Nat) : Int) ((0 : Nat) : Int) = .error .undefined := by
    intro m
    apply resize_pixel_fault m src 16777215 dst 3 cells _ _ 5592405 1 _ _ 5592405 0
    · decide
    · decide
    · omega
  simp only [List.foldlM_cons, List.foldlM_nil]
  rcases resize_pixel_cases mem src 16777215 dst 3 cells (decide ((3 : Int) < 16777215))
      (decide ((1 : Int) < 1)) 5592405 1 ((0 : Nat) : Int) ((0 : Nat) : Int) with h | ⟨m', h⟩
  · rw [h]
    rfl
  · rw [h]
    simp only [except_ok_bind]
    rw [hsecond m']
    rfl

theorem foldlM_cases {α β : Type} (f : β → α → Except Fault β) (l : List α)
    (hc : ∀ b a, a ∈ l → f b a = .error .undefined ∨ ∃ b', f b a = .ok b') (b : β) :
    l.foldlM f b = .error .undefined ∨ ∃ b', l.foldlM f b = .ok b' := by
  induction l generalizing b with
  | nil => exact Or.inr ⟨b, rfl⟩
  | cons x l ih =>
    rw [List.foldlM_cons]
    rcases hc b x (List.mem_cons_self x l) with h | ⟨b', h⟩
    · left; rw [h]; rfl
    · rw [h]
      exact ih (fun b a ha => hc b a (List.mem_cons_of_mem x ha)) b'

theorem foldlM_fault {α β : Type} (f : β → α → Except Fault β) (l : List α) (a : α)
    (ha : a ∈ l) (hf : ∀ b, f b a = .error .undefined)
    (hc : ∀ b a, a ∈ l → f b a = .error .undefined ∨ ∃ b', f b a = .ok b') (b : β) :
    l.foldlM f b = .error .undefined := by
  induction l generalizing b with
  | nil => cases ha
  | cons x l ih =>
    rw [List.foldlM_cons]
    rcases List.mem_cons.1 ha with hax | hal
    · subst hax
      rw [hf b]
      rfl
    · rcases hc b x (List.mem_cons_self x l) with h | ⟨b', h⟩
      · rw [h]; rfl
      · rw [h]
        exact ih hal (fun b a ha => hc b a (List.mem_cons_of_mem x ha)) b'

theorem resize_pixel_dest_fault (m : Mem) (src sw dst dw cells : Int) (xd yd : Bool)
    (sx sy x y : Int) (h : ¬ (0 ≤ y * dw + x ∧ y * dw + x < cells)) :
    resize_pixel m src sw dst dw cells xd yd sx sy x y = .error .undefined := by
  unfold resize_pixel
  rcases resize_coord_cases xd sx x with h1 | ⟨ox, h1⟩
  · rw [h1]; rfl
  rcases resize_coord_cases yd sy y with h2 | ⟨oy, h2⟩
  · rw [h1, h2]; rfl
  rw [h1, h2]
  simp only [except_ok_bind]
  rcases object_access_cases cells (oy * sw + ox) with h3 | h3
  · rw [h3]; rfl
  · rw [h3, object_access_fault _ _ h]
    rfl

/-- A destination image of more pixels than the `cells` cells that may be
accessed from the first cell of a parameter variable cannot be written
through the pointer to the variable `dest`: for all extents in `[1, 2^24)`
with `dest_w * dest_h > cells` the call has no defined result, whatever
`blur_iter` and `blur_mem` are.  Under the rules of C, where `cells = 2`, this
is every call with a destination of more than two pixels. -/
theorem zpl_image_rgb_resize_overrun (mem : Mem)
    (addr_source addr_dest cells source sw sh dest dw dh : Int) (blur_iter blur_mem : Int)
    (hsw : 1 ≤ sw) (hsh : 1 ≤ sh) (hdw : 1 ≤ dw) (hdh : 1 ≤ dh)
    (hsw' : sw < 16777216) (hsh' : sh < 16777216) (hdw' : dw < 16777216) (hdh' : dh < 16777216)
    (hcells : cells < dw * dh) :
    zpl_image_rgb_resize mem addr_source addr_dest cells source sw sh dest dw dh blur_iter
        blur_mem = .error .undefined := by
  unfold zpl_image_rgb_resize
  dsimp only
  rw [resize_steps sw dw hsw hdw hsw' hdw', resize_steps sh dh hsh hdh hsh' hdh']
  simp only [except_ok_bind]
  have hloop : ∀ m : Mem, (List.range dh.toNat).foldlM
      (fun m (y : Nat) => (List.range dw.toNat).foldlM
        (fun m (x : Nat) => resize_pixel m addr_source sw addr_dest dw cells (decide (dw < sw))
          (decide (dh < sh)) (if dw < sw then sw / dw else dw / sw)
          (if dh < sh then sh / dh else dh / sh) (x : Int) (y : Int)) m) m
      = .error .undefined := by
    intro m
    apply foldlM_fault _ _ (dh.toNat - 1)
    · exact List.mem_range.2 (by omega)
    · intro b
      apply foldlM_fault _ _ (dw.toNat - 1)
      · exact List.mem_range.2 (by omega)
      · intro b'
        apply resize_pixel_dest_fault
        intro hcon
        have e1 : ((dh.toNat - 1 : Nat) : Int) = dh - 1 := by omega
        have e2 : ((dw.toNat - 1 : Nat) : Int) = dw - 1 := by omega
        rw [e1, e2] at hcon
        nlinarith [hcon.2]
      · intro b' x _
        exact resize_pixel_cases _ _ _ _ _ _ _ _ _ _ _ _
    · intro b y _
      apply foldlM_cases
      intro b' x _
      exact resize_pixel_cases _ _ _ _ _ _ _ _ _ _ _ _
  rw [hloop]
  rfl

theorem resize_step_ne_assertion (a b : Int) : resize_step a b ≠ .error .assertion := by
  unfold resize_step
  split
  · intro hcon; cases hcon
  · exact f_to_i32_ne_assertion _

theorem resize_pixel_ne_assertion (m : Mem) (src sw dst dw cells : Int) (xd yd : Bool)
    (sx sy x y : Int) :
    resize_pixel m src sw dst dw cells xd yd sx sy x y ≠ .error .assertion := by
  rcases resize_pixel_cases m src sw dst dw cells xd yd sx sy x y with h | ⟨m', h⟩
  · rw [h]; intro hcon; cases hcon
  · rw [h]; intro hcon; cases hcon

/-- The part of C5 that holds for every call: `zpl_image_rgb_resize` fails the
check `ZPL_ASSERT_NOT_NULL` only if `blur_iter > 0` and `blur_mem` is null. -/
theorem zpl_image_rgb_resize_assertion_only (mem : Mem)
    (addr_source addr_dest cells source sw sh dest dw dh : Int) (blur_iter blur_mem : Int)
    (h : zpl_image_rgb_resize mem addr_source addr_dest cells source sw sh dest dw dh blur_iter
      blur_mem = .error .assertion) :
    blur_iter > 0 ∧ blur_mem = 0 := by
  by_contra hnot
  revert h
  unfold zpl_image_rgb_resize
  dsimp only
  apply bind_ne_assertion
  · split
    · exact resize_step_ne_assertion _ _
    · exact resize_step_ne_assertion _ _
  intro step_x
  apply bind_ne_assertion
  · split
    · exact resize_step_ne_assertion _ _
    · exact resize_step_ne_assertion _ _
  intro step_y
  apply bind_ne_assertion
  · apply foldlM_ne_assertion
    intro m y
    apply foldlM_ne_assertion
    intro m' x
    exact resize_pixel_ne_assertion _ _ _ _ _ _ _ _ _ _ _ _
  intro mem1
  by_cases hb : blur_iter > 0
  · rw [if_pos hb]
    have hnull : blur_mem ≠ 0 := fun h0 => hnot ⟨hb, h0⟩
    apply bind_ne_assertion
    · unfold ZPL_ASSERT_NOT_NULL
      rw [if_neg hnull]
      intro hcon; cases hcon
    intro _
    apply bind_ne_assertion
    · unfold load_ptr
      dsimp only
      split <;> intro hcon <;> cases hcon
    intro dest_now
    apply bind_ne_assertion
    · unfold buffer_access
      split <;> intro hcon <;> cases hcon
    intro _
    exact zpl_image_rgb_filter_ne_assertion _ _ _ _ _ _ _ _ _ _
  · rw [if_neg hb]
    intro hcon; cases hcon


/-- C5, evaluated at its failing input, a `16777215 × 1` source resized to
`3 × 1` with a null `blur_mem`: the copy loop runs before the check of line
322 and, for destination column `1`, reads `src[5592405]` through the pointer
to the parameter variable `source`.  Unless more than `5592405` cells (22 MB)
behind that variable are accessible, the call has no defined result, with
`blur_iter = 1` as with `blur_iter = 0`: it neither fails the precondition
check nor completes.  On a `1 × 1` image, whose loop stays inside the
variables, the same call with `blur_iter = 1` does fail the check. -/
theorem zpl_image_rgb_resize_assertion_unreached (mem : Mem)
    (addr_source addr_dest cells source dest : Int) (h1 : 1 ≤ cells) (h2 : cells ≤ 5592405) :
    zpl_image_rgb_resize mem addr_source addr_dest cells source 16777215 1 dest 3 1 1 0
      = .error .undefined ∧
    zpl_image_rgb_resize mem addr_source addr_dest cells source 16777215 1 dest 3 1 0 0
      = .error .undefined ∧
    zpl_image_rgb_resize mem addr_source addr_dest cells source 1 1 dest 1 1 1 0
      = .error .assertion := by
  have hwide : ∀ blur_iter : Int,
      zpl_image_rgb_resize mem addr_source addr_dest cells source 16777215 1 dest 3 1 blur_iter 0
        = .error .undefined := by
    intro blur_iter
    unfold zpl_image_rgb_resize
    dsimp only
    rw [resize_steps 16777215 3 (by decide) (by decide) (by decide) (by decide),
      resize_steps 1 1 (by decide) (by decide) (by decide) (by decide)]
    simp only [except_ok_bind]
    rw [resize_loop_wide_fault _ addr_source addr_dest cells h2]
    rfl
  refine ⟨hwide 1, hwide 0, ?_⟩
  unfold zpl_image_rgb_resize
  dsimp only
  rw [resize_steps 1 1 (by decide) (by decide) (by decide) (by decide)]
  simp only [except_ok_bind]
  rw [resize_copy_loop _ addr_source 1 1 addr_dest 1 1 cells (by decide) (by decide) (by decide)
    (by decide)
    (by
      intro x y hx hy
      have hx0 : x = 0 := by simpa using hx
      have hy0 : y = 0 := by simpa using hy
      subst hx0; subst hy0
      have e : spec_resize_coord 1 1 ((0 : Nat) : Int) = 0 := by decide
      rw [e]
      refine ⟨by norm_num, by norm_num; omega, by norm_num; omega⟩)]
  simp only [except_ok_bind]
  rfl

theorem zpl_image_rgb_resize_assertion_unreached_witness :
    zpl_image_rgb_resize resize_bug_mem 10 12 2 1000 16777215 1 2000 3 1 1 0
      = .error .undefined ∧
    zpl_image_rgb_resize resize_bug_mem 10 12 2 1000 16777215 1 2000 3 1 0 0
      = .error .undefined ∧
    zpl_image_rgb_resize resize_bug_mem 10 12 2 1000 1 1 2000 1 1 1 0
      = .error .assertion :=
  zpl_image_rgb_resize_assertion_unreached resize_bug_mem 10 12 2 1000 2000 (by decide)
    (by decide)

/-- For large extents the step computed through single-precision division is
not the floor quotient: for `source_w = 33554431` and `dest_w = 2` it is
`16777216`, not `16777215`, and destination column `1` is given source column
`16777216` instead of `16777215`. -/
theorem resize_step_large_counterexample :
    resize_step 33554431 2 = .ok 16777216 ∧ (33554431 : Int) / 2 = 16777215 ∧
    resize_coord (decide ((2 : Int) < 33554431)) 16777216 1 = .ok 16777216 ∧
    spec_resize_coord 33554431 2 1 = 16777215 := by
  decide!

/-- C8, evaluated at its failing input, a `1 × 1` source with pixel
`(10, 20, 30)` at cell `1000` resized with `blur_iter = 0` into a `2 × 1`
destination at cells `2000`, `2001` that holds `(0, 0, 0)`: both source
coordinates are `0`, so both destination pixels should become `(10, 20, 30)`;
the two copies go from the first cell of the parameter variable `source`
(cell `10`) to the two cells of the parameter variable `dest` (cells `12`,
`13`), and the caller's destination buffer is unchanged. -/
theorem zpl_image_rgb_resize_upsample_fails :
    (zpl_image_rgb_resize resize_bug_mem 10 12 2 1000 1 1 2000 2 1 0 0).map
        (fun m => (m 2000, m 2001, m 12, m 13))
      = .ok (⟨0, 0, 0, 0⟩, ⟨0, 0, 0, 0⟩, ⟨160, 15, 0, 0⟩, ⟨160, 15, 0, 0⟩) ∧
    resize_bug_mem 1000 = ⟨10, 20, 30, 0⟩ ∧
    spec_resize_coord 1 2 0 = 0 ∧ spec_resize_coord 1 2 1 = 0 := by
  decide!

/-- C2, evaluated at its failing input, a `1 × 1` image with source pixel
`(10, 20, 30)` at cell `1000` and destination pixel `(0, 0, 0)` at cell
`2000`: after `zpl_image_rgb_resize` with `blur_iter = 0` the caller's
destination cell is unchanged and differs from the source pixel, while the
first cell of the parameter variable `dest` (cell `12`) has received the
first cell of the parameter variable `source` (cell `10`). -/
theorem zpl_image_rgb_resize_identity_fails :
    (zpl_image_rgb_resize resize_bug_mem 10 12 2 1000 1 1 2000 1 1 0 0).map
        (fun m => (m 2000, m 12))
      = .ok (⟨0, 0, 0, 0⟩, ⟨160, 15, 0, 0⟩) ∧
    resize_bug_mem 1000 = ⟨10, 20, 30, 0⟩ ∧ resize_bug_mem 2000 = ⟨0, 0, 0, 0⟩ ∧
    resize_bug_mem 10 = ⟨160, 15, 0, 0⟩ := by
  decide!

theorem foldl_preserves {α β : Type} (P : β → Prop) (f : β → α → β) (l : List α)
    (h : ∀ b a, a ∈ l → P b → P (f b a)) (b : β) (hb : P b) : P (l.foldl f b) := by
  induction l generalizing b with
  | nil => exact hb
  | cons a l ih =>
    rw [List.foldl_cons]
    exact ih (fun b' a' ha' => h b' a' (List.mem_cons_of_mem a ha')) (f b a)
      (h b a (List.mem_cons_self a l) hb)

theorem store_ptr_other (mem : Mem) (a p c : Int) (h1 : c ≠ a) (h2 : c ≠ a + 1) :
    store_ptr mem a p c = mem c := by
  unfold store_ptr Mem.write
  rw [if_neg h2, if_neg h1]

/-- The copy loop of `zpl_image_rgb_resize` writes only to the `dest_w * dest_h`
cells that start at the address of the parameter variable `dest`: every other
cell, in particular every cell of a destination buffer that lies elsewhere,
keeps its content.  (The two parameter variables themselves hold the
arguments on entry.) -/
theorem zpl_image_rgb_resize_frame (mem : Mem)
    (addr_source addr_dest cells source sw sh dest dw dh : Int) (blur_iter blur_mem : Int)
    (hsw : 1 ≤ sw) (hsh : 1 ≤ sh) (hdw : 1 ≤ dw) (hdh : 1 ≤ dh)
    (hsw' : sw < 16777216) (hsh' : sh < 16777216) (hdw' : dw < 16777216) (hdh' : dh < 16777216)
    (hblur : blur_iter ≤ 0)
    (hin : ∀ x y : Nat, x < dw.toNat → y < dh.toNat →
      0 ≤ spec_resize_coord sh dh (y : Int) * sw + spec_resize_coord sw dw (x : Int) ∧
      spec_resize_coord sh dh (y : Int) * sw + spec_resize_coord sw dw (x : Int) < cells ∧
      (y : Int) * dw + (x : Int) < cells) :
    ∃ m', zpl_image_rgb_resize mem addr_source addr_dest cells source sw sh dest dw dh
        blur_iter blur_mem = .ok m' ∧
      ∀ a : Int, (a < addr_dest ∨ addr_dest + dh * dw ≤ a) →
        a ≠ addr_source → a ≠ addr_source + 1 → a ≠ addr_dest + 1 → m' a = mem a := by
  refine ⟨_, zpl_image_rgb_resize_eq mem addr_source addr_dest cells source sw sh dest dw dh
    blur_iter blur_mem hsw hsh hdw hdh hsw' hsh' hdw' hdh' hblur hin, ?_⟩
  intro a ha hs0 hs1 hd1
  have hd0 : a ≠ addr_dest := by
    have : 1 ≤ dh * dw := by nlinarith
    omega
  have hentry : store_ptr (store_ptr mem addr_source source) addr_dest dest a = mem a := by
    rw [store_ptr_other _ _ _ _ hd0 hd1, store_ptr_other _ _ _ _ hs0 hs1]
  rw [← hentry]
  unfold spec_resize_copy
  apply foldl_preserves (fun m : Mem =>
    m a = store_ptr (store_ptr mem addr_source source) addr_dest dest a)
  · intro m y hy hm
    apply foldl_preserves (fun m : Mem =>
      m a = store_ptr (store_ptr mem addr_source source) addr_dest dest a)
    · intro m' x hx hm'
      have hx' : (x : Int) < dw := by
        have := List.mem_range.1 hx; omega
      have hy' : (y : Int) < dh := by
        have := List.mem_range.1 hy; omega
      obtain ⟨h0, h1⟩ := pixel_index_bounds (x : Int) (y : Int) dw dh (by positivity) hx'
        (by positivity) hy'
      unfold Mem.write
      rw [if_neg (by omega)]
      exact hm'
    · exact hm
  · rfl

/-! ## Soundness of the round-trip checker -/

theorem eval_at_eq (n : Nat) (f : Nat → Bool) : eval_at n f = f n := by
  cases n <;> rfl

theorem all_below_spec (n : Nat) (f : Nat → Bool) (h : all_below n f = true) :
    ∀ i, i < n → f i = true := by
  induction n with
  | zero => intro i hi; omega
  | succ n ih =>
    have h' : (f n && all_below n f) = true := h
    rw [Bool.and_eq_true] at h'
    intro i hi
    rcases Nat.lt_succ_iff_lt_or_eq.1 hi with h1 | h1
    · exact ih h'.2 i h1
    · rw [h1]; exact h'.1

theorem hsv_mix_eq (v s w : Nat) : hsv_mix v s w = v * (255 - s * w / 256) / 256 := rfl

theorem hsv_mix_window (M D w : Nat) (hD : 1 ≤ D) (hDM : D ≤ M) (hM : M ≤ 255) (hw : w ≤ 256) :
    hsv_mix M (255 * D / M) w + 255 * D * w / 65536 ≤ M ∧
    M ≤ hsv_mix M (255 * D / M) w + 255 * D * w / 65536 + 2 := by
  rw [hsv_mix_eq]
  have hMpos : 0 < M := by omega
  set s := 255 * D / M with hs
  have hs1 : s * M ≤ 255 * D := Nat.div_mul_le_self _ _
  have hs2 : 255 * D < s * M + M := by
    have h1 := Nat.div_add_mod (255 * D) M
    have h2 := Nat.mod_lt (255 * D) hMpos
    rw [← hs] at h1
    have h3 : M * s = s * M := Nat.mul_comm _ _
    omega
  have hs3 : s ≤ 255 := by
    have : 255 * D ≤ 255 * M := Nat.mul_le_mul_left _ hDM
    have := Nat.div_le_div_right (c := M) this
    rw [Nat.mul_div_cancel _ hMpos] at this
    exact this
  set a := s * w / 256 with ha
  have ha1 : 256 * a ≤ s * w := by rw [ha]; exact Nat.mul_div_le _ _
  have ha2 : s * w < 256 * a + 256 := by
    have h1 := Nat.div_add_mod (s * w) 256
    have h2 := Nat.mod_lt (s * w) (by norm_num : 256 > 0)
    rw [← ha] at h1
    omega
  have hsw : s * w ≤ 255 * 256 := Nat.mul_le_mul hs3 hw
  have ha3 : a ≤ 255 := by omega
  set X := M * (255 - a) / 256 with hX
  have hX1 : 256 * X ≤ M * (255 - a) := by rw [hX]; exact Nat.mul_div_le _ _
  have hX2 : M * (255 - a) < 256 * X + 256 := by
    have h1 := Nat.div_add_mod (M * (255 - a)) 256
    have h2 := Nat.mod_lt (M * (255 - a)) (by norm_num : 256 > 0)
    rw [← hX] at h1
    omega
  have hMa : M * (255 - a) + M * a = 255 * M := by
    rw [← Nat.mul_add, Nat.sub_add_cancel ha3, Nat.mul_comm]
  set Z := 255 * D * w / 65536 with hZ
  have hZ1 : 65536 * Z ≤ 255 * D * w := by rw [hZ]; exact Nat.mul_div_le _ _
  have hZ2 : 255 * D * w < 65536 * Z + 65536 := by
    have h1 := Nat.div_add_mod (255 * D * w) 65536
    have h2 := Nat.mod_lt (255 * D * w) (by norm_num : 65536 > 0)
    rw [← hZ] at h1
    omega
  have p1 : 256 * (M * a) ≤ M * (s * w) := by
    calc 256 * (M * a) = M * (256 * a) := by ring
      _ ≤ M * (s * w) := Nat.mul_le_mul_left _ ha1
  have p2 : M * (s * w) ≤ 256 * (M * a) + 256 * M := by
    calc M * (s * w) ≤ M * (256 * a + 256) := Nat.mul_le_mul_left _ ha2.le
      _ = 256 * (M * a) + 256 * M := by ring
  have p3 : M * (s * w) ≤ 255 * D * w := by
    calc M * (s * w) = s * M * w := by ring
      _ ≤ 255 * D * w := Nat.mul_le_mul_right _ hs1
  have p4 : 255 * D * w ≤ M * (s * w) + M * w := by
    calc 255 * D * w ≤ (s * M + M) * w := Nat.mul_le_mul_right _ hs2.le
      _ = M * (s * w) + M * w := by ring
  have p5 : M * w ≤ 255 * 256 := Nat.mul_le_mul hM hw
  generalize M * (255 - a) = A at *
  generalize M * a = Ma at *
  generalize M * (s * w) = Msw at *
  generalize 255 * D * w = Dw at *
  generalize M * w = Mw at *
  constructor <;> omega

theorem chan_window_sound (M D oi code : Nat) (hD : 1 ≤ D) (hDM : D ≤ M) (hM : M ≤ 255)
    (hcode : code = 1000 ∨ code ≤ 256) (h : chan_window D oi code = true) :
    chan_eval M (255 * D / M) code ≤ (M - oi) + 11 ∧
    (M - oi) ≤ chan_eval M (255 * D / M) code + 11 := by
  unfold chan_window at h
  unfold chan_eval
  by_cases hc : code = 1000
  · subst hc
    have h1 : Nat.ble oi 11 = true := h
    have h2 : oi ≤ 11 := Nat.le_of_ble_eq_true h1
    show M ≤ (M - oi) + 11 ∧ (M - oi) ≤ M + 11
    omega
  · have hb : Nat.beq code 1000 = false := by
      cases hbe : Nat.beq code 1000
      · rfl
      · exact absurd (Nat.eq_of_beq_eq_true hbe) hc
    rw [hb] at h ⊢
    have h' : (Nat.ble oi (255 * D * code / 65536 + 11) &&
        Nat.ble (255 * D * code / 65536 + 2) (oi + 11)) = true := h
    rw [Bool.and_eq_true] at h'
    have h1 := Nat.le_of_ble_eq_true h'.1
    have h2 := Nat.le_of_ble_eq_true h'.2
    have hw : code ≤ 256 := by omega
    obtain ⟨w1, w2⟩ := hsv_mix_window M D code hD hDM hM hw
    show hsv_mix M (255 * D / M) code ≤ (M - oi) + 11 ∧
      (M - oi) ≤ hsv_mix M (255 * D / M) code + 11
    omega

theorem chan_direct_sound (M D oi code : Nat) (h : chan_direct M D oi code = true) :
    chan_eval M (255 * D / M) code ≤ (M - oi) + 11 ∧
    (M - oi) ≤ chan_eval M (255 * D / M) code + 11 := by
  have h' : (Nat.ble (chan_eval M (255 * D / M) code) ((M - oi) + 11) &&
      Nat.ble (M - oi) (chan_eval M (255 * D / M) code + 11)) = true := h
  rw [Bool.and_eq_true] at h'
  exact ⟨Nat.le_of_ble_eq_true h'.1, Nat.le_of_ble_eq_true h'.2⟩

theorem hue_rem_le (h : Nat) : hue_rem h ≤ 252 := by
  show (h - h / 43 * 43) * 6 ≤ 252
  omega

theorem hue_code_cases (h : Nat) :
    (h / 43 = 0 ∧ hue_code_r h = 1000 ∧ hue_code_g h = 255 - hue_rem h ∧ hue_code_b h = 256) ∨
    (h / 43 = 1 ∧ hue_code_r h = hue_rem h ∧ hue_code_g h = 1000 ∧ hue_code_b h = 256) ∨
    (h / 43 = 2 ∧ hue_code_r h = 256 ∧ hue_code_g h = 1000 ∧ hue_code_b h = 255 - hue_rem h) ∨
    (h / 43 = 3 ∧ hue_code_r h = 256 ∧ hue_code_g h = hue_rem h ∧ hue_code_b h = 1000) ∨
    (h / 43 = 4 ∧ hue_code_r h = 255 - hue_rem h ∧ hue_code_g h = 256 ∧ hue_code_b h = 1000) ∨
    (5 ≤ h / 43 ∧ hue_code_r h = 1000 ∧ hue_code_g h = 256 ∧ hue_code_b h = hue_rem h) := by
  have key : ∀ n : Nat, n = h / 43 →
      (n = 0 ∧ hue_code_r h = 1000 ∧ hue_code_g h = 255 - hue_rem h ∧ hue_code_b h = 256) ∨
      (n = 1 ∧ hue_code_r h = hue_rem h ∧ hue_code_g h = 1000 ∧ hue_code_b h = 256) ∨
      (n = 2 ∧ hue_code_r h = 256 ∧ hue_code_g h = 1000 ∧ hue_code_b h = 255 - hue_rem h) ∨
      (n = 3 ∧ hue_code_r h = 256 ∧ hue_code_g h = hue_rem h ∧ hue_code_b h = 1000) ∨
      (n = 4 ∧ hue_code_r h = 255 - hue_rem h ∧ hue_code_g h = 256 ∧ hue_code_b h = 1000) ∨
      (5 ≤ n ∧ hue_code_r h = 1000 ∧ hue_code_g h = 256 ∧ hue_code_b h = hue_rem h) := by
    intro n hn
    have hd : Nat.div h 43 = n := hn.symm
    unfold hue_code_r hue_code_g hue_code_b
    rw [hd]
    match n with
    | 0 => left; exact ⟨rfl, rfl, rfl, rfl⟩
    | 1 => right; left; exact ⟨rfl, rfl, rfl, rfl⟩
    | 2 => right; right; left; exact ⟨rfl, rfl, rfl, rfl⟩
    | 3 => right; right; right; left; exact ⟨rfl, rfl, rfl, rfl⟩
    | 4 => right; right; right; right; left; exact ⟨rfl, rfl, rfl, rfl⟩
    | n + 5 =>
      right; right; right; right; right
      exact ⟨by omega, rfl, rfl, rfl⟩
  exact key (h / 43) rfl

theorem hue_code_valid (h : Nat) :
    (hue_code_r h = 1000 ∨ hue_code_r h ≤ 256) ∧ (hue_code_g h = 1000 ∨ hue_code_g h ≤ 256) ∧
    (hue_code_b h = 1000 ∨ hue_code_b h ≤ 256) := by
  have hr := hue_rem_le h
  rcases hue_code_cases h with ⟨_, a, b, c⟩ | ⟨_, a, b, c⟩ | ⟨_, a, b, c⟩ | ⟨_, a, b, c⟩ |
    ⟨_, a, b, c⟩ | ⟨_, a, b, c⟩ <;> rw [a, b, c] <;> refine ⟨?_, ?_, ?_⟩ <;> omega

theorem case_ok_sound (D h o_r o_g o_b M : Nat) (hD : 1 ≤ D) (hDM : D ≤ M) (hM : M ≤ 255)
    (hok : case_ok D h o_r o_g o_b = true) :
    (chan_eval M (255 * D / M) (hue_code_r h) ≤ (M - o_r) + 11 ∧
      (M - o_r) ≤ chan_eval M (255 * D / M) (hue_code_r h) + 11) ∧
    (chan_eval M (255 * D / M) (hue_code_g h) ≤ (M - o_g) + 11 ∧
      (M - o_g) ≤ chan_eval M (255 * D / M) (hue_code_g h) + 11) ∧
    (chan_eval M (255 * D / M) (hue_code_b h) ≤ (M - o_b) + 11 ∧
      (M - o_b) ≤ chan_eval M (255 * D / M) (hue_code_b h) + 11) := by
  unfold case_ok at hok
  rw [eval_at_eq, eval_at_eq, eval_at_eq] at hok
  obtain ⟨vr, vg, vb⟩ := hue_code_valid h
  have hok' : ((chan_window D o_r (hue_code_r h) &&
        (chan_window D o_g (hue_code_g h) && chan_window D o_b (hue_code_b h))) ||
      all_below 256 (fun M => Nat.blt M D ||
        (chan_direct M D o_r (hue_code_r h) &&
          (chan_direct M D o_g (hue_code_g h) && chan_direct M D o_b (hue_code_b h))))) = true :=
    hok
  rw [Bool.or_eq_true] at hok'
  rcases hok' with hw | hd
  · rw [Bool.and_eq_true, Bool.and_eq_true] at hw
    exact ⟨chan_window_sound M D o_r _ hD hDM hM vr hw.1,
      chan_window_sound M D o_g _ hD hDM hM vg hw.2.1,
      chan_window_sound M D o_b _ hD hDM hM vb hw.2.2⟩
  · have hM' := all_below_spec 256 _ hd M (by omega)
    rw [Bool.or_eq_true] at hM'
    rcases hM' with hlt | hall
    · have := Nat.le_of_ble_eq_true hlt
      omega
    · rw [Bool.and_eq_true, Bool.and_eq_true] at hall
      exact ⟨chan_direct_sound M D o_r _ hall.1, chan_direct_sound M D o_g _ hall.2.1,
        chan_direct_sound M D o_b _ hall.2.2⟩

theorem to_u8_natCast (n : Nat) (h : n < 256) : to_u8 (n : Int) = n := by
  unfold to_u8
  omega

theorem chan_eval_v (v s : Nat) : chan_eval v s 1000 = v := rfl

theorem chan_eval_mix (v s c : Nat) (hc : c ≤ 256) : chan_eval v s c = hsv_mix v s c := by
  unfold chan_eval
  have hb : Nat.beq c 1000 = false := by
    cases hbe : Nat.beq c 1000
    · rfl
    · have := Nat.eq_of_beq_eq_true hbe
      omega
  rw [hb]
  rfl

theorem hsv_mix_lt (v s w : Nat) (hv : v < 256) : hsv_mix v s w < 256 := by
  rw [hsv_mix_eq]
  have h1 : v * (255 - s * w / 256) ≤ 255 * 255 := Nat.mul_le_mul (by omega) (by omega)
  omega

theorem mix_link (v s w : Nat) (hs : s ≤ 255) (hw : w ≤ 256) (hv : v < 256) :
    to_u8 (((v : Int) * (255 - (((s : Int) * (w : Int)) >>> (8 : Nat)))) >>> (8 : Nat))
      = hsv_mix v s w := by
  have hsw : s * w / 256 ≤ 255 := by
    have : s * w ≤ 255 * 256 := Nat.mul_le_mul hs hw
    omega
  have e1 : ((s : Int) * (w : Int)) >>> (8 : Nat) = ((s * w / 256 : Nat) : Int) := by
    rw [Int.shiftRight_eq_div_pow]
    push_cast
    rfl
  have e2 : (255 : Int) - ((s * w / 256 : Nat) : Int) = ((255 - s * w / 256 : Nat) : Int) := by
    omega
  have e3 : ((v : Int) * ((255 - s * w / 256 : Nat) : Int)) >>> (8 : Nat)
      = ((v * (255 - s * w / 256) / 256 : Nat) : Int) := by
    rw [Int.shiftRight_eq_div_pow]
    push_cast
    rfl
  rw [e1, e2, e3, to_u8_natCast _ (by rw [← hsv_mix_eq]; exact hsv_mix_lt v s w hv), hsv_mix_eq]

theorem mix_link_p (v s : Nat) (hs : s ≤ 255) (hv : v < 256) :
    to_u8 (((v : Int) * (255 - (s : Int))) >>> (8 : Nat)) = hsv_mix v s 256 := by
  have e0 : s * 256 / 256 = s := Nat.mul_div_cancel _ (by norm_num)
  have e2 : (255 : Int) - (s : Int) = ((255 - s : Nat) : Int) := by omega
  have e3 : ((v : Int) * ((255 - s : Nat) : Int)) >>> (8 : Nat)
      = ((v * (255 - s) / 256 : Nat) : Int) := by
    rw [Int.shiftRight_eq_div_pow]
    push_cast
    rfl
  have e4 : hsv_mix v s 256 = v * (255 - s) / 256 := by rw [hsv_mix_eq, e0]
  rw [e2, e3, e4, to_u8_natCast _ (by rw [← e4]; exact hsv_mix_lt v s 256 hv)]

theorem hsv_to_rgb_codes (x h s v : Nat) (hh : h < 256) (hs0 : 0 < s) (hs : s < 256)
    (hv : v < 256) :
    zpl_image_hsv_to_rgb ⟨x, h, s, v⟩
      = ⟨chan_eval v s (hue_code_r h), chan_eval v s (hue_code_g h),
          chan_eval v s (hue_code_b h), 0⟩ := by
  have hregion : to_u8 (Int.tdiv (h : Int) 43) = h / 43 := by
    rw [Int.tdiv_eq_ediv (by positivity) (by norm_num)]
    have : (h : Int) / 43 = ((h / 43 : Nat) : Int) := by omega
    rw [this, to_u8_natCast _ (by omega)]
  have hrem : to_u8 (((h : Int) - ((h / 43 : Nat) : Int) * 43) * 6) = hue_rem h := by
    have : ((h : Int) - ((h / 43 : Nat) : Int) * 43) * 6 = (((h - h / 43 * 43) * 6 : Nat) : Int) := by
      omega
    rw [this, to_u8_natCast _ (by omega)]
    rfl
  have hr := hue_rem_le h
  have hq := mix_link v s (hue_rem h) (by omega) (by omega) hv
  have ht := mix_link v s (255 - hue_rem h) (by omega) (by omega) hv
  have hcast : ((255 - hue_rem h : Nat) : Int) = 255 - (hue_rem h : Int) := by omega
  rw [hcast] at ht
  have hp := mix_link_p v s (by omega) hv
  unfold zpl_image_hsv_to_rgb
  dsimp only
  rw [if_neg (by omega), hregion, hrem, hp, hq, ht]
  rcases hue_code_cases h with ⟨e, a, b, c⟩ | ⟨e, a, b, c⟩ | ⟨e, a, b, c⟩ | ⟨e, a, b, c⟩ |
    ⟨e, a, b, c⟩ | ⟨e, a, b, c⟩
  · rw [a, b, c, e, chan_eval_v, chan_eval_mix _ _ _ (by omega), chan_eval_mix _ _ _ (by omega)]
  · rw [a, b, c, e, chan_eval_v, chan_eval_mix _ _ _ (by omega), chan_eval_mix _ _ _ (by omega)]
  · rw [a, b, c, e, chan_eval_v, chan_eval_mix _ _ _ (by omega), chan_eval_mix _ _ _ (by omega)]
  · rw [a, b, c, e, chan_eval_v, chan_eval_mix _ _ _ (by omega), chan_eval_mix _ _ _ (by omega)]
  · rw [a, b, c, e, chan_eval_v, chan_eval_mix _ _ _ (by omega), chan_eval_mix _ _ _ (by omega)]
  · have e5 : h / 43 = 5 := by omega
    rw [a, b, c, e5, chan_eval_v, chan_eval_mix _ _ _ (by omega), chan_eval_mix _ _ _ (by omega)]

theorem sat_link (M m : Nat) (hm : m ≤ M) (hM0 : 0 < M) :
    to_u8 (Int.tdiv (255 * ((M : Int) - (m : Int))) (M : Int)) = 255 * (M - m) / M := by
  have e1 : (255 : Int) * ((M : Int) - (m : Int)) = ((255 * (M - m) : Nat) : Int) := by
    push_cast [Nat.cast_sub hm]; ring
  rw [e1, Int.tdiv_eq_ediv (by positivity) (by positivity), ← Int.natCast_div]
  apply to_u8_natCast
  have h1 : 255 * (M - m) ≤ 255 * M := Nat.mul_le_mul_left _ (by omega)
  have h2 := Nat.div_le_div_right (c := M) h1
  rw [Nat.mul_div_cancel _ hM0] at h2
  omega

theorem hue_quotient_le (e D : Nat) (hD : 0 < D) (he : e ≤ D) : 43 * e / D ≤ 43 := by
  have h1 : 43 * e ≤ 43 * D := Nat.mul_le_mul_left _ he
  have h2 := Nat.div_le_div_right (c := D) h1
  rw [Nat.mul_div_cancel _ hD] at h2
  exact h2

theorem case_hue_lt (base : Nat) (neg : Bool) (D e : Nat) (hD : 0 < D) (he : e ≤ D)
    (hbase : base ≤ 171) : case_hue base neg D e < 256 := by
  have hk := hue_quotient_le e D hD he
  cases neg
  · show base + 43 * e / D < 256
    omega
  · show (256 + base - 43 * e / D) % 256 < 256
    omega

theorem hue_link_pos (b : Int) (base e D : Nat) (hb : b = (base : Int)) (hD : 0 < D)
    (he : e ≤ D) (hbase : base ≤ 171) :
    to_u8 (b + Int.tdiv (43 * (e : Int)) (D : Int)) = case_hue base false D e := by
  have hk := hue_quotient_le e D hD he
  have e1 : (43 : Int) * (e : Int) = ((43 * e : Nat) : Int) := by push_cast; ring
  rw [hb, e1, Int.tdiv_eq_ediv (by positivity) (by positivity), ← Int.natCast_div]
  have e2 : (base : Int) + ((43 * e / D : Nat) : Int) = ((base + 43 * e / D : Nat) : Int) := by
    push_cast; ring
  rw [e2, to_u8_natCast _ (by omega)]
  rfl

theorem hue_link_neg (b : Int) (base e D : Nat) (hb : b = (base : Int)) (hD : 0 < D)
    (he : e ≤ D) (hbase : base ≤ 171) :
    to_u8 (b + Int.tdiv (43 * (-(e : Int))) (D : Int)) = case_hue base true D e := by
  have hk := hue_quotient_le e D hD he
  have e1 : (43 : Int) * (-(e : Int)) = -((43 * e : Nat) : Int) := by push_cast; ring
  rw [hb, e1, Int.neg_tdiv, Int.tdiv_eq_ediv (by positivity) (by positivity), ← Int.natCast_div]
  show to_u8 ((base : Int) + -((43 * e / D : Nat) : Int)) = (256 + base - 43 * e / D) % 256
  unfold to_u8
  generalize 43 * e / D = k at *
  omega

theorem rgb_to_hsv_of (c : zplRgbColour) (M m : Nat)
    (hmax : (if c.r > c.g then (if c.r > c.b then c.r else c.b)
              else (if c.g > c.b then c.g else c.b)) = M)
    (hmin : (if c.r < c.g then (if c.r < c.b then c.r else c.b)
              else (if c.g < c.b then c.g else c.b)) = m)
    (hmM : m < M) (hM : M ≤ 255) :
    zpl_image_rgb_to_hsv c =
      ⟨0,
       (if M = c.r then
          to_u8 (0 + Int.tdiv (43 * ((c.g : Int) - (c.b : Int))) ((M : Int) - (m : Int)))
        else if M = c.g then
          to_u8 (85 + Int.tdiv (43 * ((c.b : Int) - (c.r : Int))) ((M : Int) - (m : Int)))
        else
          to_u8 (171 + Int.tdiv (43 * ((c.r : Int) - (c.g : Int))) ((M : Int) - (m : Int)))),
       255 * (M - m) / M, M⟩ := by
  have hs := sat_link M m hmM.le (by omega)
  have hs0 : 255 * (M - m) / M ≠ 0 := by
    have : 0 < 255 * (M - m) / M := Nat.div_pos (by omega) (by omega)
    omega
  unfold zpl_image_rgb_to_hsv
  dsimp only
  rw [hmax, hmin, if_neg (by omega), hs, if_neg hs0]
  split_ifs <;> rfl

theorem rgb_to_hsv_grey (c : zplRgbColour) (h1 : c.r = c.g) (h2 : c.g = c.b) :
    zpl_image_hsv_to_rgb (zpl_image_rgb_to_hsv c) = ⟨c.r, c.r, c.r, 0⟩ := by
  have hmax : (if c.r > c.g then (if c.r > c.b then c.r else c.b)
      else (if c.g > c.b then c.g else c.b)) = c.r := by split_ifs <;> omega
  have hmin : (if c.r < c.g then (if c.r < c.b then c.r else c.b)
      else (if c.g < c.b then c.g else c.b)) = c.r := by split_ifs <;> omega
  unfold zpl_image_rgb_to_hsv
  dsimp only
  rw [hmax, hmin]
  by_cases h0 : c.r = 0
  · rw [if_pos h0, h0]
    rfl
  · rw [if_neg h0]
    have hs : to_u8 (Int.tdiv (255 * ((c.r : Int) - (c.r : Int))) (c.r : Int)) = 0 := by
      rw [sub_self, mul_zero, Int.zero_tdiv]
      rfl
    rw [hs, if_pos rfl]
    rfl

set_option maxRecDepth 1000000 in
theorem check_red_true : check_red = true := by decide!

set_option maxRecDepth 1000000 in
theorem check_green_true : check_green = true := by decide!

set_option maxRecDepth 1000000 in
theorem check_blue_true : check_blue = true := by decide!

theorem check_red_spec (D e : Nat) (hD : D ≤ 255) (he : e ≤ D) :
    case_ok D (case_hue 0 false D e) 0 (D - e) D = true ∧
    case_ok D (case_hue 0 true D e) 0 D (D - e) = true := by
  have h1 := all_below_spec 256 _ check_red_true D (by omega)
  have h2 := all_below_spec (D + 1) _ h1 e (by omega)
  have h3 : ((eval_at (case_hue 0 false D e) fun h => case_ok D h 0 (D - e) D) &&
      (eval_at (case_hue 0 true D e) fun h => case_ok D h 0 D (D - e))) = true := h2
  rw [Bool.and_eq_true, eval_at_eq, eval_at_eq] at h3
  exact h3

theorem check_green_spec (D e : Nat) (hD : D ≤ 255) (he : e ≤ D) :
    case_ok D (case_hue 85 false D e) D 0 (D - e) = true ∧
    case_ok D (case_hue 85 true D e) (D - e) 0 D = true := by
  have h1 := all_below_spec 256 _ check_green_true D (by omega)
  have h2 := all_below_spec (D + 1) _ h1 e (by omega)
  have h3 : ((eval_at (case_hue 85 false D e) fun h => case_ok D h D 0 (D - e)) &&
      (eval_at (case_hue 85 true D e) fun h => case_ok D h (D - e) 0 D)) = true := h2
  rw [Bool.and_eq_true, eval_at_eq, eval_at_eq] at h3
  exact h3

theorem check_blue_spec (D e : Nat) (hD : D ≤ 255) (he : e ≤ D) :
    case_ok D (case_hue 171 false D e) (D - e) D 0 = true ∧
    case_ok D (case_hue 171 true D e) D (D - e) 0 = true := by
  have h1 := all_below_spec 256 _ check_blue_true D (by omega)
  have h2 := all_below_spec (D + 1) _ h1 e (by omega)
  have h3 : ((eval_at (case_hue 171 false D e) fun h => case_ok D h (D - e) D 0) &&
      (eval_at (case_hue 171 true D e) fun h => case_ok D h D (D - e) 0)) = true := h2
  rw [Bool.and_eq_true, eval_at_eq, eval_at_eq] at h3
  exact h3

theorem roundtrip_case (c : zplRgbColour) (M D e base : Nat) (neg : Bool) (o_r o_g o_b : Nat)
    (hhsv : zpl_image_rgb_to_hsv c = ⟨0, case_hue base neg D e, 255 * D / M, M⟩)
    (hD : 1 ≤ D) (hDM : D ≤ M) (hM : M ≤ 255) (he : e ≤ D) (hbase : base ≤ 171)
    (hr : c.r = M - o_r) (hg : c.g = M - o_g) (hb : c.b = M - o_b)
    (hok : case_ok D (case_hue base neg D e) o_r o_g o_b = true) :
    ((zpl_image_hsv_to_rgb (zpl_image_rgb_to_hsv c)).r ≤ c.r + 11 ∧
      c.r ≤ (zpl_image_hsv_to_rgb (zpl_image_rgb_to_hsv c)).r + 11) ∧
    ((zpl_image_hsv_to_rgb (zpl_image_rgb_to_hsv c)).g ≤ c.g + 11 ∧
      c.g ≤ (zpl_image_hsv_to_rgb (zpl_image_rgb_to_hsv c)).g + 11) ∧
    ((zpl_image_hsv_to_rgb (zpl_image_rgb_to_hsv c)).b ≤ c.b + 11 ∧
      c.b ≤ (zpl_image_hsv_to_rgb (zpl_image_rgb_to_hsv c)).b + 11) := by
  have hs0 : 0 < 255 * D / M := Nat.div_pos (by omega) (by omega)
  have hs1 : 255 * D / M < 256 := by
    have h1 : 255 * D ≤ 255 * M := Nat.mul_le_mul_left _ hDM
    have h2 := Nat.div_le_div_right (c := M) h1
    rw [Nat.mul_div_cancel _ (by omega : 0 < M)] at h2
    omega
  rw [hhsv, hsv_to_rgb_codes 0 _ _ M (case_hue_lt base neg D e (by omega) he hbase) hs0 hs1
    (by omega), hr, hg, hb]
  exact case_ok_sound D _ o_r o_g o_b M hD hDM hM hok

theorem roundtrip_branch (c : zplRgbColour) (M m e base : Nat) (neg : Bool) (o_r o_g o_b : Nat)
    (hmax : (if c.r > c.g then (if c.r > c.b then c.r else c.b)
              else (if c.g > c.b then c.g else c.b)) = M)
    (hmin : (if c.r < c.g then (if c.r < c.b then c.r else c.b)
              else (if c.g < c.b then c.g else c.b)) = m)
    (hmM : m < M) (hM : M ≤ 255) (he : e ≤ M - m) (hbase : base ≤ 171)
    (hhue : (if M = c.r then
          to_u8 (0 + Int.tdiv (43 * ((c.g : Int) - (c.b : Int))) ((M : Int) - (m : Int)))
        else if M = c.g then
          to_u8 (85 + Int.tdiv (43 * ((c.b : Int) - (c.r : Int))) ((M : Int) - (m : Int)))
        else
          to_u8 (171 + Int.tdiv (43 * ((c.r : Int) - (c.g : Int))) ((M : Int) - (m : Int))))
        = case_hue base neg (M - m) e)
    (hr : c.r = M - o_r) (hg : c.g = M - o_g) (hb : c.b = M - o_b)
    (hok : case_ok (M - m) (case_hue base neg (M - m) e) o_r o_g o_b = true) :
    ((zpl_image_hsv_to_rgb (zpl_image_rgb_to_hsv c)).r ≤ c.r + 11 ∧
      c.r ≤ (zpl_image_hsv_to_rgb (zpl_image_rgb_to_hsv c)).r + 11) ∧
    ((zpl_image_hsv_to_rgb (zpl_image_rgb_to_hsv c)).g ≤ c.g + 11 ∧
      c.g ≤ (zpl_image_hsv_to_rgb (zpl_image_rgb_to_hsv c)).g + 11) ∧
    ((zpl_image_hsv_to_rgb (zpl_image_rgb_to_hsv c)).b ≤ c.b + 11 ∧
      c.b ≤ (zpl_image_hsv_to_rgb (zpl_image_rgb_to_hsv c)).b + 11) := by
  have hhsv := rgb_to_hsv_of c M m hmax hmin hmM hM
  rw [hhue] at hhsv
  exact roundtrip_case c M (M - m) e base neg o_r o_g o_b hhsv (by omega) (by omega) hM he hbase
    hr hg hb hok

/-- C1, as stated, fails: the colour `(0, 237, 11)` comes back from the round
trip as `(0, 237, 0)`, which differs by `11` in the blue channel. -/
theorem rgb_hsv_roundtrip_counterexample :
    zpl_image_hsv_to_rgb (zpl_image_rgb_to_hsv ⟨0, 237, 11, 0⟩) = ⟨0, 237, 0, 0⟩ ∧
    ¬ (11 ≤ (zpl_image_hsv_to_rgb (zpl_image_rgb_to_hsv ⟨0, 237, 11, 0⟩)).b + 1) := by
  decide

/-- C1, amended: for every RGB colour `c` (r, g, b each in 0..255),
`zpl_image_hsv_to_rgb(zpl_image_rgb_to_hsv(c))` differs from `c` by at most
`11` in each of the r, g and b channels. -/
theorem rgb_hsv_roundtrip_within_11 (c : zplRgbColour) (hc : c.is_u8) :
    ((zpl_image_hsv_to_rgb (zpl_image_rgb_to_hsv c)).r ≤ c.r + 11 ∧
      c.r ≤ (zpl_image_hsv_to_rgb (zpl_image_rgb_to_hsv c)).r + 11) ∧
    ((zpl_image_hsv_to_rgb (zpl_image_rgb_to_hsv c)).g ≤ c.g + 11 ∧
      c.g ≤ (zpl_image_hsv_to_rgb (zpl_image_rgb_to_hsv c)).g + 11) ∧
    ((zpl_image_hsv_to_rgb (zpl_image_rgb_to_hsv c)).b ≤ c.b + 11 ∧
      c.b ≤ (zpl_image_hsv_to_rgb (zpl_image_rgb_to_hsv c)).b + 11) := by
  obtain ⟨hr, hg, hb⟩ := hc
  by_cases hgrey : c.r = c.g ∧ c.g = c.b
  · rw [rgb_to_hsv_grey c hgrey.1 hgrey.2]
    obtain ⟨h1, h2⟩ := hgrey
    refine ⟨⟨?_, ?_⟩, ⟨?_, ?_⟩, ⟨?_, ?_⟩⟩ <;> simp only <;> omega
  by_cases hB1 : c.g ≤ c.r ∧ c.b ≤ c.r
  · -- red is maximal
    by_cases hsign : c.b ≤ c.g
    · have hmax : (if c.r > c.g then (if c.r > c.b then c.r else c.b)
          else (if c.g > c.b then c.g else c.b)) = c.r := by split_ifs <;> omega
      have hmin : (if c.r < c.g then (if c.r < c.b then c.r else c.b)
          else (if c.g < c.b then c.g else c.b)) = c.b := by split_ifs <;> omega
      have hD : (c.r : Int) - (c.b : Int) = ((c.r - c.b : Nat) : Int) := by omega
      have hδ : (c.g : Int) - (c.b : Int) = ((c.g - c.b : Nat) : Int) := by omega
      apply roundtrip_branch c c.r c.b (c.g - c.b) 0 false 0 (c.r - c.b - (c.g - c.b)) (c.r - c.b)
        hmax hmin (by omega) (by omega) (by omega) (by omega)
      · rw [if_pos rfl, hD, hδ]
        exact hue_link_pos 0 0 _ _ rfl (by omega) (by omega) (by omega)
      · omega
      · omega
      · omega
      · exact (check_red_spec (c.r - c.b) (c.g - c.b) (by omega) (by omega)).1
    · have hmax : (if c.r > c.g then (if c.r > c.b then c.r else c.b)
          else (if c.g > c.b then c.g else c.b)) = c.r := by split_ifs <;> omega
      have hmin : (if c.r < c.g then (if c.r < c.b then c.r else c.b)
          else (if c.g < c.b then c.g else c.b)) = c.g := by split_ifs <;> omega
      have hD : (c.r : Int) - (c.g : Int) = ((c.r - c.g : Nat) : Int) := by omega
      have hδ : (c.g : Int) - (c.b : Int) = -((c.b - c.g : Nat) : Int) := by omega
      apply roundtrip_branch c c.r c.g (c.b - c.g) 0 true 0 (c.r - c.g) (c.r - c.g - (c.b - c.g))
        hmax hmin (by omega) (by omega) (by omega) (by omega)
      · rw [if_pos rfl, hD, hδ]
        exact hue_link_neg 0 0 _ _ rfl (by omega) (by omega) (by omega)
      · omega
      · omega
      · omega
      · exact (check_red_spec (c.r - c.g) (c.b - c.g) (by omega) (by omega)).2
  by_cases hB2 : c.b ≤ c.g
  · -- green is maximal, red is not
    have hgr : c.r < c.g := by omega
    by_cases hsign : c.r ≤ c.b
    · have hmax : (if c.r > c.g then (if c.r > c.b then c.r else c.b)
          else (if c.g > c.b then c.g else c.b)) = c.g := by split_ifs <;> omega
      have hmin : (if c.r < c.g then (if c.r < c.b then c.r else c.b)
          else (if c.g < c.b then c.g else c.b)) = c.r := by split_ifs <;> omega
      have hD : (c.g : Int) - (c.r : Int) = ((c.g - c.r : Nat) : Int) := by omega
      have hδ : (c.b : Int) - (c.r : Int) = ((c.b - c.r : Nat) : Int) := by omega
      apply roundtrip_branch c c.g c.r (c.b - c.r) 85 false (c.g - c.r) 0 (c.g - c.r - (c.b - c.r))
        hmax hmin (by omega) (by omega) (by omega) (by omega)
      · rw [if_neg (by omega), if_pos rfl, hD, hδ]
        exact hue_link_pos 85 85 _ _ rfl (by omega) (by omega) (by omega)
      · omega
      · omega
      · omega
      · exact (check_green_spec (c.g - c.r) (c.b - c.r) (by omega) (by omega)).1
    · have hmax : (if c.r > c.g then (if c.r > c.b then c.r else c.b)
          else (if c.g > c.b then c.g else c.b)) = c.g := by split_ifs <;> omega
      have hmin : (if c.r < c.g then (if c.r < c.b then c.r else c.b)
          else (if c.g < c.b then c.g else c.b)) = c.b := by split_ifs <;> omega
      have hD : (c.g : Int) - (c.b : Int) = ((c.g - c.b : Nat) : Int) := by omega
      have hδ : (c.b : Int) - (c.r : Int) = -((c.r - c.b : Nat) : Int) := by omega
      apply roundtrip_branch c c.g c.b (c.r - c.b) 85 true (c.g - c.b - (c.r - c.b)) 0 (c.g - c.b)
        hmax hmin (by omega) (by omega) (by omega) (by omega)
      · rw [if_neg (by omega), if_pos rfl, hD, hδ]
        exact hue_link_neg 85 85 _ _ rfl (by omega) (by omega) (by omega)
      · omega
      · omega
      · omega
      · exact (check_green_spec (c.g - c.b) (c.r - c.b) (by omega) (by omega)).2
  · -- blue is maximal, red and green are not
    have hbr : c.r < c.b := by omega
    have hbg : c.g < c.b := by omega
    by_cases hsign : c.g ≤ c.r
    · have hmax : (if c.r > c.g then (if c.r > c.b then c.r else c.b)
          else (if c.g > c.b then c.g else c.b)) = c.b := by split_ifs <;> omega
      have hmin : (if c.r < c.g then (if c.r < c.b then c.r else c.b)
          else (if c.g < c.b then c.g else c.b)) = c.g := by split_ifs <;> omega
      have hD : (c.b : Int) - (c.g : Int) = ((c.b - c.g : Nat) : Int) := by omega
      have hδ : (c.r : Int) - (c.g : Int) = ((c.r - c.g : Nat) : Int) := by omega
      apply roundtrip_branch c c.b c.g (c.r - c.g) 171 false (c.b - c.g - (c.r - c.g)) (c.b - c.g) 0
        hmax hmin (by omega) (by omega) (by omega) (by omega)
      · rw [if_neg (by omega), if_neg (by omega), hD, hδ]
        exact hue_link_pos 171 171 _ _ rfl (by omega) (by omega) (by omega)
      · omega
      · omega
      · omega
      · exact (check_blue_spec (c.b - c.g) (c.r - c.g) (by omega) (by omega)).1
    · have hmax : (if c.r > c.g then (if c.r > c.b then c.r else c.b)
          else (if c.g > c.b then c.g else c.b)) = c.b := by split_ifs <;> omega
      have hmin : (if c.r < c.g then (if c.r < c.b then c.r else c.b)
          else (if c.g < c.b then c.g else c.b)) = c.r := by split_ifs <;> omega
      have hD : (c.b : Int) - (c.r : Int) = ((c.b - c.r : Nat) : Int) := by omega
      have hδ : (c.r : Int) - (c.g : Int) = -((c.g - c.r : Nat) : Int) := by omega
      apply roundtrip_branch c c.b c.r (c.g - c.r) 171 true (c.b - c.r) (c.b - c.r - (c.g - c.r)) 0
        hmax hmin (by omega) (by omega) (by omega) (by omega)
      · rw [if_neg (by omega), if_neg (by omega), hD, hδ]
        exact hue_link_neg 171 171 _ _ rfl (by omega) (by omega) (by omega)
      · omega
      · omega
      · omega
      · exact (check_blue_spec (c.b - c.r) (c.g - c.r) (by omega) (by omega)).2

theorem rgb_hsv_roundtrip_within_11_witness :
    ((zpl_image_hsv_to_rgb (zpl_image_rgb_to_hsv ⟨0, 237, 11, 0⟩)).r ≤ 0 + 11 ∧
      0 ≤ (zpl_image_hsv_to_rgb (zpl_image_rgb_to_hsv ⟨0, 237, 11, 0⟩)).r + 11) ∧
    ((zpl_image_hsv_to_rgb (zpl_image_rgb_to_hsv ⟨0, 237, 11, 0⟩)).g ≤ 237 + 11 ∧
      237 ≤ (zpl_image_hsv_to_rgb (zpl_image_rgb_to_hsv ⟨0, 237, 11, 0⟩)).g + 11) ∧
    ((zpl_image_hsv_to_rgb (zpl_image_rgb_to_hsv ⟨0, 237, 11, 0⟩)).b ≤ 11 + 11 ∧
      11 ≤ (zpl_image_hsv_to_rgb (zpl_image_rgb_to_hsv ⟨0, 237, 11, 0⟩)).b + 11) :=
  rgb_hsv_roundtrip_within_11 ⟨0, 237, 11, 0⟩ ⟨by decide, by decide, by decide⟩

/-! ## Monotonicity of rounding -/

theorem round_half_even_upper (n : Int) (d : Nat) (hd : 0 < d) :
    2 * n ≤ (2 * round_half_even n d + 1) * (d : Int) := by
  have hd' : (0 : Int) < (d : Int) := by exact_mod_cast hd
  have hdiv := Int.emod_add_ediv n (d : Int)
  have hr0 := Int.emod_nonneg n hd'.ne'
  have hr1 := Int.emod_lt_of_pos n hd'
  unfold round_half_even
  dsimp only
  set q := n / (d : Int) with hq
  set r := n % (d : Int) with hr
  split
  · nlinarith
  · split
    · nlinarith
    · split <;> nlinarith

theorem round_half_even_mono (n n' : Int) (d : Nat) (hd : 0 < d) (h : n ≤ n') :
    round_half_even n d ≤ round_half_even n' d := by
  rcases eq_or_lt_of_le h with h1 | h1
  · rw [h1]
  · apply round_half_even_le n d _ hd
    have := round_half_even_upper n' d hd
    linarith

theorem bit_length_ge (a : Nat) (h : 0 < bit_length a) : 2 ^ (bit_length a - 1) ≤ a := by
  by_contra hcon
  push_neg at hcon
  have := bit_length_le hcon
  omega

theorem fp_round_frac_ge (prec emin : Nat) (hp : 1 ≤ prec) (n D : Nat) (hD : 0 < D)
    (m e : Nat) (hm : m < 2 ^ prec) (h : m * 2 ^ e * D ≤ n * 2 ^ emin) :
    ((m * 2 ^ e : Nat) : ℚ) / 2 ^ emin ≤ fp_round_frac prec emin (n : Int) D := by
  unfold fp_round_frac
  dsimp only
  have hnat : ((n : Int) * 2 ^ emin).natAbs = n * 2 ^ emin := by
    have : ((n : Int) * 2 ^ emin) = ((n * 2 ^ emin : Nat) : Int) := by push_cast; ring
    rw [this, Int.natAbs_ofNat]
  rw [hnat]
  have hcast : ((n : Int) * 2 ^ emin) = ((n * 2 ^ emin : Nat) : Int) := by push_cast; ring
  rw [hcast]
  generalize n * 2 ^ emin = N at h ⊢
  set a : Nat := N / D with ha
  set k : Nat := bit_length a - prec with hk
  have haD : a * D ≤ N := Nat.div_mul_le_self N D
  have key : ((m * 2 ^ e : Nat) : Int) ≤ round_half_even (N : Int) (D * 2 ^ k) * 2 ^ k := by
    by_cases hek : k ≤ e
    · have h1 : ((m * 2 ^ (e - k) : Nat) : Int) ≤ round_half_even (N : Int) (D * 2 ^ k) := by
        apply round_half_even_ge _ _ _ (by positivity)
        have : m * 2 ^ (e - k) * (D * 2 ^ k) = m * 2 ^ e * D := by
          have : (2 : Nat) ^ e = 2 ^ (e - k) * 2 ^ k := by rw [← pow_add]; congr 1; omega
          rw [this]; ring
        exact_mod_cast this ▸ h
      have h2 : ((m * 2 ^ e : Nat) : Int) = ((m * 2 ^ (e - k) : Nat) : Int) * 2 ^ k := by
        have : (2 : Nat) ^ e = 2 ^ (e - k) * 2 ^ k := by rw [← pow_add]; congr 1; omega
        rw [this]; push_cast; ring
      rw [h2]
      exact mul_le_mul_of_nonneg_right h1 (by positivity)
    · push_neg at hek
      have hL : bit_length a = k + prec := by omega
      have hge := bit_length_ge a (by omega)
      have h1 : ((2 ^ (prec - 1) : Nat) : Int) ≤ round_half_even (N : Int) (D * 2 ^ k) := by
        apply round_half_even_ge _ _ _ (by positivity)
        have e1 : 2 ^ (prec - 1) * (D * 2 ^ k) = 2 ^ (bit_length a - 1) * D := by
          have : bit_length a - 1 = (prec - 1) + k := by omega
          rw [this, pow_add]; ring
        have e2 : 2 ^ (bit_length a - 1) * D ≤ N :=
          le_trans (Nat.mul_le_mul_right D hge) haD
        exact_mod_cast e1 ▸ e2
      have h2 : m * 2 ^ e ≤ 2 ^ (prec - 1) * 2 ^ k := by
        have h3 : m * 2 ^ e ≤ 2 ^ prec * 2 ^ e := Nat.mul_le_mul_right _ hm.le
        have h4 : (2 : Nat) ^ prec * 2 ^ e ≤ 2 ^ (prec - 1) * 2 ^ k := by
          rw [← pow_add, ← pow_add]
          exact Nat.pow_le_pow_right (by norm_num) (by omega)
        exact le_trans h3 h4
      have h5 : ((m * 2 ^ e : Nat) : Int) ≤ ((2 ^ (prec - 1) : Nat) : Int) * 2 ^ k := by
        exact_mod_cast h2
      exact le_trans h5 (mul_le_mul_of_nonneg_right h1 (by positivity))
  have hpos : (0 : ℚ) < 2 ^ emin := by positivity
  rw [div_le_div_iff_of_pos_right hpos]
  exact_mod_cast key

theorem fp_round_frac_le (prec emin : Nat) (hp : 1 ≤ prec) (n D : Nat) (hD : 0 < D)
    (m e : Nat) (hm : m < 2 ^ prec) (h : n * 2 ^ emin ≤ m * 2 ^ e * D) :
    fp_round_frac prec emin (n : Int) D ≤ ((m * 2 ^ e : Nat) : ℚ) / 2 ^ emin := by
  unfold fp_round_frac
  dsimp only
  have hnat : ((n : Int) * 2 ^ emin).natAbs = n * 2 ^ emin := by
    have : ((n : Int) * 2 ^ emin) = ((n * 2 ^ emin : Nat) : Int) := by push_cast; ring
    rw [this, Int.natAbs_ofNat]
  rw [hnat]
  have hcast : ((n : Int) * 2 ^ emin) = ((n * 2 ^ emin : Nat) : Int) := by push_cast; ring
  rw [hcast]
  generalize n * 2 ^ emin = N at h ⊢
  set a : Nat := N / D with ha
  set k : Nat := bit_length a - prec with hk
  have haD : a * D ≤ N := Nat.div_mul_le_self N D
  have hek : k ≤ e := by
    by_contra hcon
    push_neg at hcon
    have hL : bit_length a = k + prec := by omega
    have hge := bit_length_ge a (by omega)
    have h3 : m * 2 ^ e < 2 ^ prec * 2 ^ e := Nat.mul_lt_mul_of_pos_right hm (by positivity)
    have h4 : (2 : Nat) ^ prec * 2 ^ e ≤ 2 ^ (bit_length a - 1) := by
      rw [← pow_add]
      exact Nat.pow_le_pow_right (by norm_num) (by omega)
    have h5 : m * 2 ^ e < a := by omega
    have h6 : (m * 2 ^ e + 1) * D ≤ a * D := Nat.mul_le_mul_right D h5
    have h7 : (m * 2 ^ e + 1) * D = m * 2 ^ e * D + D := by ring
    omega
  have key : round_half_even (N : Int) (D * 2 ^ k) * 2 ^ k ≤ ((m * 2 ^ e : Nat) : Int) := by
    have h1 : round_half_even (N : Int) (D * 2 ^ k) ≤ ((m * 2 ^ (e - k) : Nat) : Int) := by
      apply round_half_even_le _ _ _ (by positivity)
      have e1 : m * 2 ^ (e - k) * (D * 2 ^ k) = m * 2 ^ e * D := by
        have : (2 : Nat) ^ e = 2 ^ (e - k) * 2 ^ k := by rw [← pow_add]; congr 1; omega
        rw [this]; ring
      have e2 : N ≤ m * 2 ^ (e - k) * (D * 2 ^ k) := e1 ▸ h
      have e3 : (N : Int) ≤ ((m * 2 ^ (e - k) : Nat) : Int) * ((D * 2 ^ k : Nat) : Int) := by
        exact_mod_cast e2
      have e4 : (0 : Int) < ((D * 2 ^ k : Nat) : Int) := by positivity
      nlinarith
    have h2 : ((m * 2 ^ e : Nat) : Int) = ((m * 2 ^ (e - k) : Nat) : Int) * 2 ^ k := by
      have : (2 : Nat) ^ e = 2 ^ (e - k) * 2 ^ k := by rw [← pow_add]; congr 1; omega
      rw [this]; push_cast; ring
    rw [h2]
    exact mul_le_mul_of_nonneg_right h1 (by positivity)
  have hpos : (0 : ℚ) < 2 ^ emin := by positivity
  rw [div_le_div_iff_of_pos_right hpos]
  exact_mod_cast key

theorem rat_eq_nat_div (x : ℚ) (hx : 0 ≤ x) :
    ∃ n : Nat, x.num = (n : Int) ∧ x = (n : ℚ) / (x.den : ℚ) := by
  have hnum : 0 ≤ x.num := Rat.num_nonneg.2 hx
  obtain ⟨n, hn⟩ := Int.eq_ofNat_of_zero_le hnum
  refine ⟨n, hn, ?_⟩
  have := Rat.num_div_den x
  rw [hn, Int.cast_natCast] at this
  exact this.symm

theorem fp_round_ge_rep (prec emin : Nat) (hp : 1 ≤ prec) (x : ℚ) (hx : 0 ≤ x) (m e : Nat)
    (hm : m < 2 ^ prec) (h : ((m * 2 ^ e : Nat) : ℚ) / 2 ^ emin ≤ x) :
    ((m * 2 ^ e : Nat) : ℚ) / 2 ^ emin ≤ fp_round prec emin x := by
  obtain ⟨n, hn, hxn⟩ := rat_eq_nat_div x hx
  unfold fp_round
  rw [hn]
  apply fp_round_frac_ge prec emin hp n x.den x.den_pos m e hm
  have hden : (0 : ℚ) < (x.den : ℚ) := by exact_mod_cast x.den_pos
  have hpos : (0 : ℚ) < 2 ^ emin := by positivity
  rw [hxn, div_le_div_iff₀ hpos hden] at h
  exact_mod_cast h

theorem fp_round_le_rep (prec emin : Nat) (hp : 1 ≤ prec) (x : ℚ) (hx : 0 ≤ x) (m e : Nat)
    (hm : m < 2 ^ prec) (h : x ≤ ((m * 2 ^ e : Nat) : ℚ) / 2 ^ emin) :
    fp_round prec emin x ≤ ((m * 2 ^ e : Nat) : ℚ) / 2 ^ emin := by
  obtain ⟨n, hn, hxn⟩ := rat_eq_nat_div x hx
  unfold fp_round
  rw [hn]
  apply fp_round_frac_le prec emin hp n x.den x.den_pos m e hm
  have hden : (0 : ℚ) < (x.den : ℚ) := by exact_mod_cast x.den_pos
  have hpos : (0 : ℚ) < 2 ^ emin := by positivity
  rw [hxn, div_le_div_iff₀ hden hpos] at h
  exact_mod_cast h

/-- A value `c * 2 ^ i` with `c < 2 ^ prec` is a lower bound of the rounded
value whenever it is a lower bound of the argument. -/
theorem fp_round_ge_nat (prec emin : Nat) (hp : 1 ≤ prec) (x : ℚ) (c i : Nat)
    (hc : c < 2 ^ prec) (h : (c : ℚ) * 2 ^ i ≤ x) :
    (c : ℚ) * 2 ^ i ≤ fp_round prec emin x := by
  have hx : 0 ≤ x := le_trans (by positivity) h
  have e : ((c * 2 ^ (i + emin) : Nat) : ℚ) / 2 ^ emin = (c : ℚ) * 2 ^ i := by
    push_cast
    rw [pow_add]
    field_simp
    ring
  have := fp_round_ge_rep prec emin hp x hx c (i + emin) hc (by rw [e]; exact h)
  rw [e] at this
  exact this

theorem fp_round_le_nat (prec emin : Nat) (hp : 1 ≤ prec) (x : ℚ) (hx : 0 ≤ x) (c i : Nat)
    (hc : c < 2 ^ prec) (h : x ≤ (c : ℚ) * 2 ^ i) :
    fp_round prec emin x ≤ (c : ℚ) * 2 ^ i := by
  have e : ((c * 2 ^ (i + emin) : Nat) : ℚ) / 2 ^ emin = (c : ℚ) * 2 ^ i := by
    push_cast
    rw [pow_add]
    field_simp
    ring
  have := fp_round_le_rep prec emin hp x hx c (i + emin) hc (by rw [e]; exact h)
  rw [e] at this
  exact this

theorem fp_round_le_dyadic (prec emin : Nat) (hp : 1 ≤ prec) (x : ℚ) (hx : 0 ≤ x) (c j : Nat)
    (hj : j ≤ emin) (hc : c < 2 ^ prec) (h : x ≤ (c : ℚ) / 2 ^ j) :
    fp_round prec emin x ≤ (c : ℚ) / 2 ^ j := by
  have e : ((c * 2 ^ (emin - j) : Nat) : ℚ) / 2 ^ emin = (c : ℚ) / 2 ^ j := by
    have : (2 : ℚ) ^ emin = 2 ^ (emin - j) * 2 ^ j := by rw [← pow_add]; congr 1; omega
    push_cast
    rw [this]
    field_simp
    ring
  have := fp_round_le_rep prec emin hp x hx c (emin - j) hc (by rw [e]; exact h)
  rw [e] at this
  exact this

theorem fp_round_nonneg (prec emin : Nat) (hp : 1 ≤ prec) (x : ℚ) (hx : 0 ≤ x) :
    0 ≤ fp_round prec emin x := by
  have := fp_round_ge_nat prec emin hp x 0 0 (by positivity) (by simpa using hx)
  simpa using this

theorem bit_length_mono {a b : Nat} (h : a ≤ b) : bit_length a ≤ bit_length b :=
  bit_length_le (lt_of_le_of_lt h (bit_length_lt b))

theorem fp_round_frac_mono (prec emin : Nat) (hp : 1 ≤ prec) (n D n' D' : Nat) (hD : 0 < D)
    (hD' : 0 < D') (h : n * D' ≤ n' * D) :
    fp_round_frac prec emin (n : Int) D ≤ fp_round_frac prec emin (n' : Int) D' := by
  have hN : n * 2 ^ emin * D' ≤ n' * 2 ^ emin * D := by
    have := Nat.mul_le_mul_right (2 ^ emin) h
    calc n * 2 ^ emin * D' = n * D' * 2 ^ emin := by ring
      _ ≤ n' * D * 2 ^ emin := this
      _ = n' * 2 ^ emin * D := by ring
  have haD : n * 2 ^ emin / D * D ≤ n * 2 ^ emin := Nat.div_mul_le_self _ _
  have haD' : n' * 2 ^ emin / D' * D' ≤ n' * 2 ^ emin := Nat.div_mul_le_self _ _
  have hle : n * 2 ^ emin / D ≤ n' * 2 ^ emin / D' := by
    rw [Nat.le_div_iff_mul_le hD']
    have h1 : n * 2 ^ emin / D * D' * D ≤ n' * 2 ^ emin * D := by
      calc n * 2 ^ emin / D * D' * D = n * 2 ^ emin / D * D * D' := by ring
        _ ≤ n * 2 ^ emin * D' := Nat.mul_le_mul_right _ haD
        _ ≤ n' * 2 ^ emin * D := hN
    exact Nat.le_of_mul_le_mul_right h1 hD
  have hbl := bit_length_mono hle
  by_cases hk : bit_length (n * 2 ^ emin / D) - prec = bit_length (n' * 2 ^ emin / D') - prec
  · unfold fp_round_frac
    dsimp only
    have hnat : ∀ t : Nat, ((t : Int) * 2 ^ emin).natAbs = t * 2 ^ emin := by
      intro t
      have : ((t : Int) * 2 ^ emin) = ((t * 2 ^ emin : Nat) : Int) := by push_cast; ring
      rw [this, Int.natAbs_ofNat]
    rw [hnat, hnat, ← hk]
    set k := bit_length (n * 2 ^ emin / D) - prec
    have hpos : (0 : ℚ) < 2 ^ emin := by positivity
    rw [div_le_div_iff_of_pos_right hpos]
    have key : round_half_even ((n : Int) * 2 ^ emin) (D * 2 ^ k)
        ≤ round_half_even ((n' : Int) * 2 ^ emin) (D' * 2 ^ k) := by
      rw [← round_half_even_scale D' hD' ((n : Int) * 2 ^ emin) (D * 2 ^ k),
        ← round_half_even_scale D hD ((n' : Int) * 2 ^ emin) (D' * 2 ^ k)]
      have e : D' * (D * 2 ^ k) = D * (D' * 2 ^ k) := by ring
      rw [e]
      apply round_half_even_mono _ _ _ (by positivity)
      have : ((n * 2 ^ emin * D' : Nat) : Int) ≤ ((n' * 2 ^ emin * D : Nat) : Int) := by
        exact_mod_cast hN
      push_cast at this
      linarith
    have := mul_le_mul_of_nonneg_right key (by positivity : (0 : Int) ≤ 2 ^ k)
    exact_mod_cast this
  · have hlt : bit_length (n * 2 ^ emin / D) < bit_length (n' * 2 ^ emin / D') := by omega
    have h1 : fp_round_frac prec emin (n : Int) D
        ≤ ((1 * 2 ^ bit_length (n * 2 ^ emin / D) : Nat) : ℚ) / 2 ^ emin := by
      apply fp_round_frac_le prec emin hp n D hD 1 _ (Nat.one_lt_two_pow (by omega))
      have hb := bit_length_lt (n * 2 ^ emin / D)
      have h2 : n * 2 ^ emin < (n * 2 ^ emin / D + 1) * D := by
        have := Nat.div_add_mod (n * 2 ^ emin) D
        have := Nat.mod_lt (n * 2 ^ emin) hD
        have e : (n * 2 ^ emin / D + 1) * D = D * (n * 2 ^ emin / D) + D := by ring
        omega
      have h3 : (n * 2 ^ emin / D + 1) * D ≤ 2 ^ bit_length (n * 2 ^ emin / D) * D :=
        Nat.mul_le_mul_right D hb
      rw [one_mul]
      omega
    have h2 : ((1 * 2 ^ (bit_length (n' * 2 ^ emin / D') - 1) : Nat) : ℚ) / 2 ^ emin
        ≤ fp_round_frac prec emin (n' : Int) D' := by
      apply fp_round_frac_ge prec emin hp n' D' hD' 1 _ (Nat.one_lt_two_pow (by omega))
      have hge := bit_length_ge (n' * 2 ^ emin / D') (by omega)
      rw [one_mul]
      exact le_trans (Nat.mul_le_mul_right D' hge) haD'
    have h3 : ((1 * 2 ^ bit_length (n * 2 ^ emin / D) : Nat) : ℚ) / 2 ^ emin
        ≤ ((1 * 2 ^ (bit_length (n' * 2 ^ emin / D') - 1) : Nat) : ℚ) / 2 ^ emin := by
      have hpos : (0 : ℚ) < 2 ^ emin := by positivity
      rw [div_le_div_iff_of_pos_right hpos]
      have : 1 * 2 ^ bit_length (n * 2 ^ emin / D)
          ≤ 1 * 2 ^ (bit_length (n' * 2 ^ emin / D') - 1) :=
        Nat.mul_le_mul_left 1 (Nat.pow_le_pow_right (by norm_num) (by omega))
      exact_mod_cast this
    exact le_trans h1 (le_trans h3 h2)

theorem fp_round_mono (prec emin : Nat) (hp : 1 ≤ prec) (x y : ℚ) (hx : 0 ≤ x) (hxy : x ≤ y) :
    fp_round prec emin x ≤ fp_round prec emin y := by
  obtain ⟨n, hn, hxn⟩ := rat_eq_nat_div x hx
  obtain ⟨n', hn', hyn⟩ := rat_eq_nat_div y (le_trans hx hxy)
  unfold fp_round
  rw [hn, hn']
  apply fp_round_frac_mono prec emin hp n x.den n' y.den x.den_pos y.den_pos
  have hdx : (0 : ℚ) < (x.den : ℚ) := by exact_mod_cast x.den_pos
  have hdy : (0 : ℚ) < (y.den : ℚ) := by exact_mod_cast y.den_pos
  rw [hxn, hyn, div_le_div_iff₀ hdx hdy] at hxy
  exact_mod_cast hxy

/-! ## The steps of the resize -/

theorem f_to_i32_of_bounds (x : ℚ) (q : Int) (h1 : (q : ℚ) ≤ x) (h2 : x < (q : ℚ) + 1)
    (hq0 : 0 ≤ q) (hq : q ≤ 2147483647) : f_to_i32 x = .ok q := by
  have hx0 : (0 : ℚ) ≤ x := le_trans (by exact_mod_cast hq0) h1
  have hfloor : ⌊x⌋ = q := Int.floor_eq_iff.2 ⟨h1, h2⟩
  unfold f_to_i32
  rw [trunc_to_zero_eq, if_pos hx0, hfloor]
  simp only
  rw [if_pos ⟨by omega, hq⟩]

theorem resize_step_bounds (a b : Int) (hb : 1 ≤ b) (hab : b ≤ a) (ha : a ≤ 2147483520) :
    ∃ s, resize_step a b = .ok s ∧ 1 ≤ s ∧ s ≤ 2147483520 := by
  have hp : 1 ≤ 24 := by norm_num
  have hbq : (1 : ℚ) ≤ (b : ℚ) := by exact_mod_cast hb
  have habq : (b : ℚ) ≤ (a : ℚ) := by exact_mod_cast hab
  have haq : (a : ℚ) ≤ 2147483520 := by exact_mod_cast ha
  have hB1 : (1 : ℚ) ≤ i32_to_f32 b := by
    have := fp_round_ge_nat 24 149 hp (b : ℚ) 1 0 (by norm_num) (by simpa using hbq)
    simpa using this
  have hBA : i32_to_f32 b ≤ i32_to_f32 a :=
    fp_round_mono 24 149 hp (b : ℚ) (a : ℚ) (by linarith) habq
  have hA : i32_to_f32 a ≤ 2147483520 := by
    have := fp_round_le_nat 24 149 hp (a : ℚ) (by linarith) 16777215 7 (by norm_num)
      (by norm_num; exact haq)
    have e : ((16777215 : Nat) : ℚ) * 2 ^ 7 = 2147483520 := by norm_num
    rw [e] at this
    exact this
  have hBpos : (0 : ℚ) < i32_to_f32 b := by linarith
  have hq1 : (1 : ℚ) ≤ i32_to_f32 a / i32_to_f32 b := by
    rw [le_div_iff₀ hBpos]; linarith
  have hq2 : i32_to_f32 a / i32_to_f32 b ≤ 2147483520 := by
    rw [div_le_iff₀ hBpos]
    nlinarith
  have hF1 : (1 : ℚ) ≤ f32_div (i32_to_f32 a) (i32_to_f32 b) := by
    have := fp_round_ge_nat 24 149 hp (i32_to_f32 a / i32_to_f32 b) 1 0 (by norm_num)
      (by simpa using hq1)
    simpa using this
  have hF2 : f32_div (i32_to_f32 a) (i32_to_f32 b) ≤ 2147483520 := by
    have := fp_round_le_nat 24 149 hp (i32_to_f32 a / i32_to_f32 b) (by linarith) 16777215 7
      (by norm_num) (by norm_num; exact hq2)
    have e : ((16777215 : Nat) : ℚ) * 2 ^ 7 = 2147483520 := by norm_num
    rw [e] at this
    exact this
  set F := f32_div (i32_to_f32 a) (i32_to_f32 b) with hF
  have hfl1 : 1 ≤ ⌊F⌋ := Int.le_floor.2 (by exact_mod_cast hF1)
  have hfl2 : ⌊F⌋ ≤ 2147483520 := by
    have : ((⌊F⌋ : Int) : ℚ) ≤ 2147483520 := le_trans (Int.floor_le F) hF2
    exact_mod_cast this
  refine ⟨⌊F⌋, ?_, hfl1, hfl2⟩
  unfold resize_step
  rw [if_neg (by linarith), ← hF]
  exact f_to_i32_of_bounds F ⌊F⌋ (Int.floor_le F) (Int.lt_floor_add_one F) (by omega) (by omega)

theorem resize_axis_steps (s d : Int) (hs : 1 ≤ s) (hd : 1 ≤ d) (hs' : s ≤ 2147483520)
    (hd' : d ≤ 2147483520) :
    ∃ step, (if decide (d < s) = true then resize_step s d else resize_step d s) = .ok step ∧
      1 ≤ step ∧ ∀ x : Int, ∃ o, resize_coord (decide (d < s)) step x = .ok o := by
  have key : ∃ step, (if decide (d < s) = true then resize_step s d else resize_step d s)
      = .ok step ∧ 1 ≤ step := by
    by_cases h : d < s
    · obtain ⟨t, ht, h1, _⟩ := resize_step_bounds s d hd h.le hs'
      exact ⟨t, by simp only [h, decide_True, if_true]; exact ht, h1⟩
    · obtain ⟨t, ht, h1, _⟩ := resize_step_bounds d s hs (by omega) hd'
      exact ⟨t, by simp only [h, decide_False, if_false]; exact ht, h1⟩
  obtain ⟨step, h1, h2⟩ := key
  refine ⟨step, h1, h2, fun x => ?_⟩
  unfold resize_coord i32_div
  rw [if_neg (by omega)]
  exact ⟨_, rfl⟩

/-- C16, as stated, fails at the top of the `i32` range: for
`source_w = 2147483647` and `dest_w = 1` the quotient computed in single
precision is `2147483648.0`, whose conversion to `i32` is undefined, so no
step `>= 1` is produced and the call has no defined result. -/
theorem resize_step_undefined_counterexample :
    resize_step 2147483647 1 = .error Fault.undefined ∧
    (zpl_image_rgb_resize resize_bug_mem 10 12 2 1000 2147483647 1 2000 1 1 0 0).map
        (fun m => m 2000)
      = .error Fault.undefined := by
  decide!

/-- C16, amended: for all source and destination extents in
`[1, 2147483520]` (`2147483520 = 2^31 - 128` is the largest `f32` value that
is an `i32`), both `step_x` and `step_y` of `zpl_image_rgb_resize` are
computed, in the downsampling and in the upsampling branch, and are `>= 1`,
so that the divisions `x / step_x` and `y / step_y` are defined for every `x`
and `y`. -/
theorem zpl_image_rgb_resize_steps_positive (source_w source_h dest_w dest_h : Int)
    (hsw : 1 ≤ source_w) (hsh : 1 ≤ source_h) (hdw : 1 ≤ dest_w) (hdh : 1 ≤ dest_h)
    (hsw' : source_w ≤ 2147483520) (hsh' : source_h ≤ 2147483520)
    (hdw' : dest_w ≤ 2147483520) (hdh' : dest_h ≤ 2147483520) :
    (∃ step_x,
      (if decide (dest_w < source_w) = true then resize_step source_w dest_w
        else resize_step dest_w source_w) = .ok step_x ∧
      1 ≤ step_x ∧ ∀ x : Int, ∃ o_x, resize_coord (decide (dest_w < source_w)) step_x x = .ok o_x) ∧
    (∃ step_y,
      (if decide (dest_h < source_h) = true then resize_step source_h dest_h
        else resize_step dest_h source_h) = .ok step_y ∧
      1 ≤ step_y ∧ ∀ y : Int, ∃ o_y, resize_coord (decide (dest_h < source_h)) step_y y = .ok o_y) :=
  ⟨resize_axis_steps source_w dest_w hsw hdw hsw' hdw',
   resize_axis_steps source_h dest_h hsh hdh hsh' hdh'⟩

theorem zpl_image_rgb_resize_steps_positive_witness :
    (∃ step_x,
      (if decide ((2 : Int) < 2147483520) = true then resize_step 2147483520 2
        else resize_step 2 2147483520) = .ok step_x ∧
      1 ≤ step_x ∧ ∀ x : Int, ∃ o_x, resize_coord (decide ((2 : Int) < 2147483520)) step_x x = .ok o_x) ∧
    (∃ step_y,
      (if decide ((7 : Int) < 3) = true then resize_step 3 7
        else resize_step 7 3) = .ok step_y ∧
      1 ≤ step_y ∧ ∀ y : Int, ∃ o_y, resize_coord (decide ((7 : Int) < 3)) step_y y = .ok o_y) :=
  zpl_image_rgb_resize_steps_positive 2147483520 3 2 7 (by decide) (by decide) (by decide)
    (by decide) (by decide) (by decide) (by decide) (by decide)

/-! ## The range of the source coordinate -/

theorem resize_source_coord_spec (s d x : Int) (hs : 1 ≤ s) (hd : 1 ≤ d) (hs24 : s < 16777216)
    (hd24 : d < 16777216) (hx : 0 ≤ x) :
    resize_source_coord s d x = .ok (spec_resize_coord s d x) := by
  unfold resize_source_coord
  dsimp only
  rw [resize_steps s d hs hd hs24 hd24]
  exact resize_coord_spec s d x hs hd hx

theorem spec_resize_coord_range (s d : Int) (hs : 1 ≤ s) (hd : 1 ≤ d) :
    (∀ x : Int, 0 ≤ x → x < d → 0 ≤ spec_resize_coord s d x ∧ spec_resize_coord s d x < s) ↔
      (d < s ∨ s ∣ d) := by
  have hpos := resize_step_pos s d hs hd
  constructor
  · intro h
    by_cases hds : d < s
    · exact Or.inl hds
    · right
      simp only [hds, if_false] at hpos
      have h1 := (h (d - 1) (by omega) (by omega)).2
      unfold spec_resize_coord at h1
      rw [if_neg hds] at h1
      have h2 : d - 1 < s * (d / s) := Int.lt_mul_of_ediv_lt (by omega) h1
      have h3 : d / s * s ≤ d := Int.ediv_mul_le d (by omega)
      have h4 : d = s * (d / s) := by
        have : s * (d / s) = d / s * s := mul_comm _ _
        omega
      exact ⟨d / s, h4⟩
  · intro h x hx0 hx
    unfold spec_resize_coord
    by_cases hds : d < s
    · simp only [hds, if_true] at hpos ⊢
      have h3 : s / d * d ≤ s := Int.ediv_mul_le s (by omega)
      have h4 : x * (s / d) ≤ (d - 1) * (s / d) :=
        mul_le_mul_of_nonneg_right (by omega) (by omega)
      constructor
      · exact mul_nonneg hx0 (by omega)
      · nlinarith
    · simp only [hds, if_false] at hpos ⊢
      rcases h with h | ⟨j, hj⟩
      · exact absurd h hds
      · have hj' : d / s = j := by
          rw [hj]; exact Int.mul_ediv_cancel_left j (by omega)
        rw [hj'] at hpos ⊢
        constructor
        · exact Int.ediv_nonneg hx0 (by omega)
        · apply Int.ediv_lt_of_lt_mul (by omega)
          rw [← hj]; exact hx

/-- C20, as stated, fails for large extents: with `source_w = 33554431` and
`dest_w = 16777217` the resize downsamples, the step computed in single
precision is `2` (both extents round to powers of two), and destination
column `16777216` is given the source column `33554432 >= source_w`. -/
theorem resize_source_coord_large_counterexample :
    ((16777217 : Int) < 33554431) ∧ resize_step 33554431 16777217 = .ok 2 ∧
    resize_source_coord 33554431 16777217 16777216 = .ok 33554432 := by
  decide!

/-- C20, amended: for all `source_w` and `dest_w` in `[1, 2^24)`, the source
column `o_x` that `zpl_image_rgb_resize` computes is defined and satisfies
`0 <= o_x < source_w` for every destination column `x` in `[0, dest_w)` if and
only if `dest_w < source_w` or `dest_w` is an integer multiple of `source_w`;
the rows are computed by the same statements from the heights. -/
theorem resize_source_coord_in_range (source_w dest_w : Int) (hs : 1 ≤ source_w)
    (hd : 1 ≤ dest_w) (hs24 : source_w < 16777216) (hd24 : dest_w < 16777216) :
    (∀ x : Int, 0 ≤ x → x < dest_w →
      ∃ o_x, resize_source_coord source_w dest_w x = .ok o_x ∧ 0 ≤ o_x ∧ o_x < source_w) ↔
      (dest_w < source_w ∨ source_w ∣ dest_w) := by
  rw [← spec_resize_coord_range source_w dest_w hs hd]
  constructor
  · intro h x hx0 hx
    obtain ⟨o, ho, h1, h2⟩ := h x hx0 hx
    rw [resize_source_coord_spec source_w dest_w x hs hd hs24 hd24 hx0] at ho
    injection ho with ho
    rw [ho]
    exact ⟨h1, h2⟩
  · intro h x hx0 hx
    exact ⟨_, resize_source_coord_spec source_w dest_w x hs hd hs24 hd24 hx0, h x hx0 hx⟩

theorem resize_source_coord_in_range_witness :
    (∀ x : Int, 0 ≤ x → x < 5 →
      ∃ o_x, resize_source_coord 2 5 x = .ok o_x ∧ 0 ≤ o_x ∧ o_x < 2) ↔
      ((5 : Int) < 2 ∨ (2 : Int) ∣ 5) :=
  resize_source_coord_in_range 2 5 (by decide) (by decide) (by decide) (by decide)

/-! ## Resize of a solid-colour image -/

/-- C11, evaluated at its witness, a `4 × 4` source buffer (cells
`1000 .. 1015`) whose pixels all are `k`, resized with `blur_iter = 0` into a
`2 × 2` destination buffer (cells `2000 .. 2003`) whose pixels all are `d`.
In a run in which the eleven cells behind the parameter variables are
accessible, the call completes and every pixel of the caller's destination
buffer still is `d`, whatever `k` is, because the copies go to the cells that
start at the parameter variable `dest` (cell `12`).  Under the rules of C,
where only the two cells of each variable may be accessed, the second copy
reads `src[2]` and the call has no defined result. -/
theorem zpl_image_rgb_resize_solid_fails (k d : zplRgbColour) :
    (∀ i : Int, 0 ≤ i → i < 16 → solid_mem k d (1000 + i) = k) ∧
    (∃ m', zpl_image_rgb_resize (solid_mem k d) 10 12 11 1000 4 4 2000 2 2 0 0 = .ok m' ∧
      ∀ i : Int, 0 ≤ i → i < 4 → m' (2000 + i) = d) ∧
    zpl_image_rgb_resize (solid_mem k d) 10 12 2 1000 4 4 2000 2 2 0 0
      = .error .undefined := by
  refine ⟨?_, ?_, ?_⟩
  · intro i h0 h1
    unfold solid_mem
    rw [if_pos (by omega)]
  · obtain ⟨m', h1, h2⟩ := zpl_image_rgb_resize_frame (solid_mem k d) 10 12 11 1000 4 4 2000 2 2
      0 0 (by decide) (by decide) (by decide) (by decide) (by decide) (by decide) (by decide)
      (by decide) (by decide)
      (by
        intro x y hx hy
        have hx2 : x < 2 := by simpa using hx
        have hy2 : y < 2 := by simpa using hy
        interval_cases x <;> interval_cases y <;> decide)
    refine ⟨m', h1, ?_⟩
    intro i h0 h3
    rw [h2 (2000 + i) (by omega) (by omega) (by omega) (by omega)]
    unfold solid_mem
    rw [if_neg (by omega), if_pos (by omega)]
  · unfold zpl_image_rgb_resize
    dsimp only
    rw [resize_steps 4 2 (by decide) (by decide) (by decide) (by decide)]
    rfl

theorem tdiv_scaled_bounds (δ D : Int) (hD : 0 < D) (h1 : -D ≤ δ) (h2 : δ ≤ D) :
    -43 ≤ Int.tdiv (43 * δ) D ∧ Int.tdiv (43 * δ) D ≤ 43 ∧
    (δ < D → Int.tdiv (43 * δ) D ≤ 42) ∧ (-D < δ → -42 ≤ Int.tdiv (43 * δ) D) ∧
    (0 ≤ δ → 0 ≤ Int.tdiv (43 * δ) D) ∧
    (δ < 0 → (Int.tdiv (43 * δ) D < 0 ↔ D ≤ 43 * (-δ))) := by
  by_cases hδ : 0 ≤ δ
  · rw [Int.tdiv_eq_ediv (by omega) hD.le]
    have h3 : 0 ≤ 43 * δ / D := Int.ediv_nonneg (by omega) hD.le
    have h4 : 43 * δ / D ≤ 43 := by
      apply Int.ediv_le_of_le_mul hD; nlinarith
    refine ⟨by omega, h4, ?_, by omega, fun _ => h3, fun h => absurd h (by omega)⟩
    intro h
    have : 43 * δ / D < 43 := by
      apply Int.ediv_lt_of_lt_mul hD; nlinarith
    omega
  · push_neg at hδ
    have e : Int.tdiv (43 * δ) D = -((43 * (-δ)) / D) := by
      have : 43 * δ = -(43 * (-δ)) := by ring
      rw [this, Int.neg_tdiv, Int.tdiv_eq_ediv (by omega) hD.le]
    rw [e]
    have h3 : 0 ≤ 43 * (-δ) / D := Int.ediv_nonneg (by omega) hD.le
    have h4 : 43 * (-δ) / D ≤ 43 := by
      apply Int.ediv_le_of_le_mul hD; nlinarith
    refine ⟨by omega, by omega, fun _ => by omega, ?_, fun h => absurd h (by omega), fun _ => ?_⟩
    · intro h
      have : 43 * (-δ) / D < 43 := by
        apply Int.ediv_lt_of_lt_mul hD; nlinarith
      omega
    · constructor
      · intro h
        by_contra hcon
        push_neg at hcon
        have : 43 * (-δ) / D = 0 := Int.ediv_eq_zero_of_lt (by omega) hcon
        omega
      · intro h
        have : 1 ≤ 43 * (-δ) / D := Int.le_ediv_of_mul_le hD (by omega)
        omega

/-! ## Achromatic colours and the hue formula -/

theorem i32_div_ok (a b : Int) (hb : b ≠ 0) : i32_div a b = .ok (Int.tdiv a b) := by
  unfold i32_div
  rw [if_neg hb]

theorem rgb_max_min_facts (c : zplRgbColour) :
    (if c.r > c.g then (if c.r > c.b then c.r else c.b)
      else (if c.g > c.b then c.g else c.b)) = max c.r (max c.g c.b) ∧
    (if c.r < c.g then (if c.r < c.b then c.r else c.b)
      else (if c.g < c.b then c.g else c.b)) = min c.r (min c.g c.b) := by
  constructor
  · split_ifs <;> omega
  · split_ifs <;> omega

theorem rgb_to_hsv_checked_eq (c : zplRgbColour) :
    zpl_image_rgb_to_hsv_checked c = .ok (zpl_image_rgb_to_hsv c) := by
  obtain ⟨hmax, hmin⟩ := rgb_max_min_facts c
  unfold zpl_image_rgb_to_hsv_checked zpl_image_rgb_to_hsv
  dsimp only
  rw [hmax, hmin]
  generalize hM : max c.r (max c.g c.b) = M
  generalize hm : min c.r (min c.g c.b) = m
  by_cases h0 : M = 0
  · rw [if_pos h0, if_pos h0]
    rfl
  · rw [if_neg h0, if_neg h0, i32_div_ok _ _ (by exact_mod_cast h0)]
    show (if to_u8 (Int.tdiv (255 * ((M : Int) - (m : Int))) (M : Int)) = 0 then _ else _) = _
    by_cases hs : to_u8 (Int.tdiv (255 * ((M : Int) - (m : Int))) (M : Int)) = 0
    · rw [if_pos hs, if_pos hs]
      rfl
    · rw [if_neg hs, if_neg hs]
      have hd : (M : Int) - (m : Int) ≠ 0 := by
        intro hcon
        apply hs
        rw [hcon, mul_zero, Int.zero_tdiv]
        rfl
      split_ifs <;> rw [i32_div_ok _ _ hd] <;> rfl

theorem rgb_to_hsv_grey_value (c : zplRgbColour) (h1 : c.r = c.g) (h2 : c.g = c.b) :
    zpl_image_rgb_to_hsv c = ⟨0, 0, 0, c.r⟩ := by
  have hmax : (if c.r > c.g then (if c.r > c.b then c.r else c.b)
      else (if c.g > c.b then c.g else c.b)) = c.r := by split_ifs <;> omega
  have hmin : (if c.r < c.g then (if c.r < c.b then c.r else c.b)
      else (if c.g < c.b then c.g else c.b)) = c.r := by split_ifs <;> omega
  unfold zpl_image_rgb_to_hsv
  dsimp only
  rw [hmax, hmin]
  by_cases h0 : c.r = 0
  · rw [if_pos h0]
  · rw [if_neg h0]
    have hs : to_u8 (Int.tdiv (255 * ((c.r : Int) - (c.r : Int))) (c.r : Int)) = 0 := by
      rw [sub_self, mul_zero, Int.zero_tdiv]
      rfl
    rw [hs, if_pos rfl]

/-- C12: for every RGB colour with 8-bit channels, `zpl_image_rgb_to_hsv`
returns saturation `0` if and only if `r = g = b`, and then its result is
`(h = 0, s = 0, v = r)`; moreover no division of the function has a zero
divisor: the variant with checked divisions returns the same result, so the
division by `v` is reached only with `v > 0` and the hue branch only with
`max - min > 0`. -/
theorem zpl_image_rgb_to_hsv_achromatic (c : zplRgbColour) (hc : c.is_u8) :
    ((zpl_image_rgb_to_hsv c).s = 0 ↔ (c.r = c.g ∧ c.g = c.b)) ∧
    ((c.r = c.g ∧ c.g = c.b) → zpl_image_rgb_to_hsv c = ⟨0, 0, 0, c.r⟩) ∧
    zpl_image_rgb_to_hsv_checked c = .ok (zpl_image_rgb_to_hsv c) ∧
    ((zpl_image_rgb_to_hsv c).s ≠ 0 →
      0 < (zpl_image_rgb_to_hsv c).v ∧ min c.r (min c.g c.b) < max c.r (max c.g c.b)) := by
  obtain ⟨hr, hg, hb⟩ := hc
  obtain ⟨hmax, hmin⟩ := rgb_max_min_facts c
  have hiff : (zpl_image_rgb_to_hsv c).s = 0 ↔ (c.r = c.g ∧ c.g = c.b) := by
    constructor
    · intro hs
      by_contra hne
      have hlt : min c.r (min c.g c.b) < max c.r (max c.g c.b) := by omega
      have hM : max c.r (max c.g c.b) ≤ 255 := by omega
      rw [rgb_to_hsv_of c _ _ hmax hmin hlt hM] at hs
      have : 0 < 255 * (max c.r (max c.g c.b) - min c.r (min c.g c.b)) / max c.r (max c.g c.b) :=
        Nat.div_pos (by omega) (by omega)
      have hs' : 255 * (max c.r (max c.g c.b) - min c.r (min c.g c.b)) / max c.r (max c.g c.b) = 0 := hs
      omega
    · rintro ⟨h1, h2⟩
      rw [rgb_to_hsv_grey_value c h1 h2]
  refine ⟨hiff, fun h => rgb_to_hsv_grey_value c h.1 h.2, rgb_to_hsv_checked_eq c, ?_⟩
  intro hs
  have hne : ¬ (c.r = c.g ∧ c.g = c.b) := fun h => hs (hiff.2 h)
  have hlt : min c.r (min c.g c.b) < max c.r (max c.g c.b) := by omega
  refine ⟨?_, hlt⟩
  rw [rgb_to_hsv_of c _ _ hmax hmin hlt (by omega)]
  show 0 < max c.r (max c.g c.b)
  omega

theorem zpl_image_rgb_to_hsv_achromatic_witness :
    ((zpl_image_rgb_to_hsv ⟨7, 7, 7, 0⟩).s = 0 ↔ ((7 : Nat) = 7 ∧ (7 : Nat) = 7)) ∧
    (((7 : Nat) = 7 ∧ (7 : Nat) = 7) → zpl_image_rgb_to_hsv ⟨7, 7, 7, 0⟩ = ⟨0, 0, 0, 7⟩) ∧
    zpl_image_rgb_to_hsv_checked ⟨7, 7, 7, 0⟩ = .ok (zpl_image_rgb_to_hsv ⟨7, 7, 7, 0⟩) ∧
    ((zpl_image_rgb_to_hsv ⟨7, 7, 7, 0⟩).s ≠ 0 →
      0 < (zpl_image_rgb_to_hsv ⟨7, 7, 7, 0⟩).v ∧ min 7 (min 7 7) < max 7 (max 7 7)) :=
  zpl_image_rgb_to_hsv_achromatic ⟨7, 7, 7, 0⟩ (by decide)

theorem hsv_to_rgb_grey (c : zplHsvColour) (hs : c.s = 0) :
    zpl_image_hsv_to_rgb c = ⟨c.v, c.v, c.v, 0⟩ := by
  unfold zpl_image_hsv_to_rgb
  rw [if_pos hs]

/-- C13: for every HSV colour with `s = 0`, whatever its hue,
`zpl_image_hsv_to_rgb` returns `r = g = b = v`. -/
theorem zpl_image_hsv_to_rgb_achromatic (c : zplHsvColour) (hs : c.s = 0) :
    zpl_image_hsv_to_rgb c = ⟨c.v, c.v, c.v, 0⟩ :=
  hsv_to_rgb_grey c hs

theorem zpl_image_hsv_to_rgb_achromatic_witness :
    zpl_image_hsv_to_rgb ⟨0, 200, 0, 90⟩ = ⟨90, 90, 90, 0⟩ :=
  zpl_image_hsv_to_rgb_achromatic ⟨0, 200, 0, 90⟩ rfl

theorem to_u8_cast (x : Int) : ((to_u8 x : Nat) : Int) = x % 256 := by
  unfold to_u8
  omega

/-- C14, as stated, fails: for the colour `(255, 0, 128)` red is maximal, the
formula `0 + 43 * (g - b) / (max - min)` has the value `-21`, which is not an
integer in `0..255`, and the 8-bit hue field receives `235`. -/
theorem zpl_image_rgb_to_hsv_hue_counterexample :
    (zpl_image_rgb_to_hsv ⟨255, 0, 128, 0⟩).h = 235 ∧ spec_hue ⟨255, 0, 128, 0⟩ = -21 := by
  decide

/-- C14, amended: for every RGB colour with 8-bit channels and `max != min`,
the hue returned by `zpl_image_rgb_to_hsv` is the value of the formula
`base + 43 * delta / (max - min)` reduced modulo `256`; the value of the
formula lies in `[-43, 213]`, and it is negative, so that the store into the
8-bit hue field wraps around, exactly when `r` is maximal and
`max - min <= 43 * (b - g)`; in every other case the hue equals the value of
the formula. -/
theorem zpl_image_rgb_to_hsv_hue (c : zplRgbColour) (hc : c.is_u8)
    (hne : max c.r (max c.g c.b) ≠ min c.r (min c.g c.b)) :
    ((zpl_image_rgb_to_hsv c).h : Int) = spec_hue c % 256 ∧
    -43 ≤ spec_hue c ∧ spec_hue c ≤ 213 ∧
    (spec_hue c < 0 ↔
      (c.r = max c.r (max c.g c.b) ∧
        ((max c.r (max c.g c.b) : Nat) : Int) - ((min c.r (min c.g c.b) : Nat) : Int)
          ≤ 43 * ((c.b : Int) - (c.g : Int)))) ∧
    (0 ≤ spec_hue c → ((zpl_image_rgb_to_hsv c).h : Int) = spec_hue c) := by
  obtain ⟨hr, hg, hb⟩ := hc
  obtain ⟨hmax, hmin⟩ := rgb_max_min_facts c
  have hlt : min c.r (min c.g c.b) < max c.r (max c.g c.b) := by omega
  have hM : max c.r (max c.g c.b) ≤ 255 := by omega
  rw [rgb_to_hsv_of c _ _ hmax hmin hlt hM]
  unfold spec_hue
  dsimp only
  generalize hMd : max c.r (max c.g c.b) = M at *
  generalize hmd : min c.r (min c.g c.b) = m at *
  have hD : (0 : Int) < (M : Int) - (m : Int) := by omega
  by_cases h1 : M = c.r
  · have h1' : (c.r : Int) = (M : Int) := by omega
    rw [if_pos h1, if_pos h1']
    obtain ⟨b1, b2, b3, b4, b5, b6⟩ :=
      tdiv_scaled_bounds ((c.g : Int) - (c.b : Int)) ((M : Int) - (m : Int)) hD (by omega) (by omega)
    rw [to_u8_cast]
    refine ⟨rfl, by omega, by omega, ?_, fun h => Int.emod_eq_of_lt h (by omega)⟩
    by_cases hgb : (c.g : Int) - (c.b : Int) < 0
    · have := b6 hgb
      constructor
      · intro h; exact ⟨h1.symm, by have := this.1 (by omega); omega⟩
      · intro h; have := this.2 (by omega); omega
    · have := b5 (by omega)
      constructor
      · intro h; omega
      · intro h; omega
  · have h1' : ¬ (c.r : Int) = (M : Int) := by omega
    rw [if_neg h1, if_neg h1']
    by_cases h2 : M = c.g
    · have h2' : (c.g : Int) = (M : Int) := by omega
      rw [if_pos h2, if_pos h2']
      obtain ⟨b1, b2, b3, b4, b5, b6⟩ :=
        tdiv_scaled_bounds ((c.b : Int) - (c.r : Int)) ((M : Int) - (m : Int)) hD (by omega)
          (by omega)
      rw [to_u8_cast]
      refine ⟨rfl, by omega, by omega, ?_, fun h => Int.emod_eq_of_lt h (by omega)⟩
      constructor
      · intro h; omega
      · intro h; omega
    · have h2' : ¬ (c.g : Int) = (M : Int) := by omega
      rw [if_neg h2, if_neg h2']
      obtain ⟨b1, b2, b3, b4, b5, b6⟩ :=
        tdiv_scaled_bounds ((c.r : Int) - (c.g : Int)) ((M : Int) - (m : Int)) hD (by omega)
          (by omega)
      have b3' := b3 (by omega)
      rw [to_u8_cast]
      refine ⟨rfl, by omega, by omega, ?_, fun h => Int.emod_eq_of_lt h (by omega)⟩
      constructor
      · intro h; omega
      · intro h; omega

theorem zpl_image_rgb_to_hsv_hue_witness :
    ((zpl_image_rgb_to_hsv ⟨255, 0, 128, 0⟩).h : Int) = spec_hue ⟨255, 0, 128, 0⟩ % 256 ∧
    -43 ≤ spec_hue ⟨255, 0, 128, 0⟩ ∧ spec_hue ⟨255, 0, 128, 0⟩ ≤ 213 ∧
    (spec_hue ⟨255, 0, 128, 0⟩ < 0 ↔
      ((255 : Nat) = max 255 (max 0 128) ∧
        ((max 255 (max 0 128) : Nat) : Int) - ((min 255 (min 0 128) : Nat) : Int)
          ≤ 43 * (((128 : Nat) : Int) - ((0 : Nat) : Int)))) ∧
    (0 ≤ spec_hue ⟨255, 0, 128, 0⟩ →
      ((zpl_image_rgb_to_hsv ⟨255, 0, 128, 0⟩).h : Int) = spec_hue ⟨255, 0, 128, 0⟩) :=
  zpl_image_rgb_to_hsv_hue ⟨255, 0, 128, 0⟩ (by decide) (by decide)

/-! ## The wrapped coordinate of the filter -/

theorem tmod_of_neg (a b : Int) : Int.tmod (-a) b = -Int.tmod a b := by
  rw [Int.tmod_def, Int.tmod_def, Int.neg_tdiv]
  ring

/-- C15, as stated, fails: for an image of width `2` and a kernel of width `7`
the column sampled at `x = 0`, `fx = 0` is `(0 - 3 + 0 + 2) % 2 = -1` with the
C remainder, which is not in `[0, 2)`; the non-negative residue of
`0 - 3 + 0` modulo `2` is `1`. -/
theorem filter_wrap_negative_counterexample :
    filter_wrap 0 7 0 2 = -1 ∧ ((0 : Int) - 7 / 2 + 0) % 2 = 1 := by
  decide

/-- C15, amended: for every extent `W >= 1`, kernel width `kw >= 1` and all
`x` and `fx`, in particular for `x` in `[0, W)` and `fx` in `[0, kw)`: when
`kw / 2 <= x + fx + W`, which holds for all such `x` and `fx` if
`kw / 2 <= W`, the coordinate `(x - kw/2 + fx + W) % W` that
`zpl_image_rgb_filter` samples lies in `[0, W)` and is the non-negative
residue of `x - kw/2 + fx` modulo `W`; when `x + fx + W < kw / 2` it lies in
`(-W, 0]` and is either `0` or that residue minus `W`.  The same function
computes the row from `y`, the kernel height and `H`. -/
theorem filter_wrap_residue (W kw x fx : Int) (hW : 1 ≤ W) (hkw : 1 ≤ kw) :
    (kw / 2 ≤ x + fx + W →
      0 ≤ filter_wrap x kw fx W ∧ filter_wrap x kw fx W < W ∧
      filter_wrap x kw fx W = (x - kw / 2 + fx) % W) ∧
    (x + fx + W < kw / 2 →
      -W < filter_wrap x kw fx W ∧ filter_wrap x kw fx W ≤ 0 ∧
      (filter_wrap x kw fx W = 0 ∨ filter_wrap x kw fx W = (x - kw / 2 + fx) % W - W)) := by
  have hhalf : Int.tdiv kw 2 = kw / 2 := Int.tdiv_eq_ediv (by omega) (by norm_num)
  have hWne : W ≠ 0 := by omega
  unfold filter_wrap
  rw [hhalf]
  have hres : (x - kw / 2 + fx + W) % W = (x - kw / 2 + fx) % W := Int.add_emod_self
  have hr0 := Int.emod_nonneg (x - kw / 2 + fx) hWne
  have hr1 := Int.emod_lt_of_pos (x - kw / 2 + fx) (by omega : 0 < W)
  constructor
  · intro h
    rw [Int.tmod_eq_emod (by omega) (by omega), hres]
    exact ⟨hr0, hr1, rfl⟩
  · intro h
    have hneg : x - kw / 2 + fx + W = -(-(x - kw / 2 + fx + W)) := by ring
    have ht : Int.tmod (x - kw / 2 + fx + W) W = -((-(x - kw / 2 + fx + W)) % W) := by
      rw [hneg, tmod_of_neg, Int.tmod_eq_emod (by omega) (by omega), neg_neg]
    rw [ht]
    have hq0 := Int.emod_nonneg (-(x - kw / 2 + fx + W)) hWne
    have hq1 := Int.emod_lt_of_pos (-(x - kw / 2 + fx + W)) (by omega : 0 < W)
    refine ⟨by omega, by omega, ?_⟩
    by_cases hz : (-(x - kw / 2 + fx + W)) % W = 0
    · left; omega
    · right
      have e1 := Int.emod_add_ediv (-(x - kw / 2 + fx + W)) W
      have e2 := Int.emod_add_ediv (x - kw / 2 + fx) W
      have key : (x - kw / 2 + fx) % W + (-(x - kw / 2 + fx + W)) % W = W := by
        have hdvd : W ∣ ((x - kw / 2 + fx) % W + (-(x - kw / 2 + fx + W)) % W) := by
          refine ⟨-((x - kw / 2 + fx) / W) - ((-(x - kw / 2 + fx + W)) / W) - 1, ?_⟩
          linear_combination e1 + e2
        obtain ⟨t, ht'⟩ := hdvd
        have hpos : 0 < (x - kw / 2 + fx) % W + (-(x - kw / 2 + fx + W)) % W := by omega
        have hlt2 : (x - kw / 2 + fx) % W + (-(x - kw / 2 + fx + W)) % W < 2 * W := by omega
        have ht1 : t = 1 := by
          have h1 : 0 < W * t := by rw [← ht']; exact hpos
          have h2 : W * t < 2 * W := by rw [← ht']; exact hlt2
          have h3 : 0 < t := by
            by_contra hcon; push_neg at hcon
            have := mul_nonpos_of_nonneg_of_nonpos (by omega : (0:Int) ≤ W) hcon
            omega
          have h4 : t < 2 := by
            by_contra hcon; push_neg at hcon
            have := mul_le_mul_of_nonneg_left hcon (by omega : (0:Int) ≤ W)
            omega
          omega
        rw [ht', ht1, mul_one]
      omega

theorem filter_wrap_residue_witness :
    ((5 : Int) / 2 ≤ 0 + 0 + 3 →
      0 ≤ filter_wrap 0 5 0 3 ∧ filter_wrap 0 5 0 3 < 3 ∧
      filter_wrap 0 5 0 3 = ((0 : Int) - 5 / 2 + 0) % 3) ∧
    ((0 : Int) + 0 + 3 < 5 / 2 →
      -3 < filter_wrap 0 5 0 3 ∧ filter_wrap 0 5 0 3 ≤ 0 ∧
      (filter_wrap 0 5 0 3 = 0 ∨ filter_wrap 0 5 0 3 = ((0 : Int) - 5 / 2 + 0) % 3 - 3)) :=
  filter_wrap_residue 3 5 0 0 (by decide) (by decide)

/-! ## The sectors of `zpl_image_hsv_to_rgb` -/

theorem hsv_mix_le (v s w : Nat) : hsv_mix v s w ≤ v := by
  rw [hsv_mix_eq]
  have h1 : v * (255 - s * w / 256) ≤ v * 255 := Nat.mul_le_mul_left _ (by omega)
  omega

theorem spec_hsv_region_cast (h : Nat) : spec_hsv_region (h : Int) = ((h / 43 : Nat) : Int) := by
  unfold spec_hsv_region
  omega

theorem spec_hsv_rem_cast (h : Nat) : spec_hsv_rem (h : Int) = ((hue_rem h : Nat) : Int) := by
  unfold spec_hsv_rem
  rw [spec_hsv_region_cast]
  have : hue_rem h = (h - h / 43 * 43) * 6 := rfl
  rw [this]
  omega

theorem spec_mix_cast (v s w : Nat) (hs : s ≤ 255) (hw : w ≤ 256) :
    ((v : Int) * (255 - ((s : Int) * (w : Int)) / 256)) / 256 = ((hsv_mix v s w : Nat) : Int) := by
  have hsw : s * w / 256 ≤ 255 := by
    have : s * w ≤ 255 * 256 := Nat.mul_le_mul hs hw
    omega
  rw [hsv_mix_eq]
  have e1 : ((s : Int) * (w : Int)) / 256 = ((s * w / 256 : Nat) : Int) := by
    push_cast; rfl
  have e2 : (255 : Int) - ((s * w / 256 : Nat) : Int) = ((255 - s * w / 256 : Nat) : Int) := by
    omega
  rw [e1, e2]
  push_cast
  rfl

theorem spec_hsv_p_cast (s v : Nat) (hs : s ≤ 255) :
    spec_hsv_p (s : Int) (v : Int) = ((hsv_mix v s 256 : Nat) : Int) := by
  unfold spec_hsv_p
  rw [← spec_mix_cast v s 256 hs le_rfl]
  have : ((s : Int) * ((256 : Nat) : Int)) / 256 = (s : Int) := by
    push_cast
    exact Int.mul_ediv_cancel _ (by norm_num)
  rw [this]

theorem spec_hsv_q_cast (h s v : Nat) (hs : s ≤ 255) :
    spec_hsv_q (h : Int) (s : Int) (v : Int) = ((hsv_mix v s (hue_rem h) : Nat) : Int) := by
  unfold spec_hsv_q
  rw [spec_hsv_rem_cast, spec_mix_cast v s (hue_rem h) hs (by have := hue_rem_le h; omega)]

theorem spec_hsv_t_cast (h s v : Nat) (hs : s ≤ 255) :
    spec_hsv_t (h : Int) (s : Int) (v : Int) = ((hsv_mix v s (255 - hue_rem h) : Nat) : Int) := by
  unfold spec_hsv_t
  rw [spec_hsv_rem_cast]
  have hr := hue_rem_le h
  have e : (255 : Int) - ((hue_rem h : Nat) : Int) = ((255 - hue_rem h : Nat) : Int) := by omega
  rw [e, spec_mix_cast v s (255 - hue_rem h) hs (by omega)]

/-- C17: for every HSV colour with 8-bit fields and `s != 0`, in
`zpl_image_hsv_to_rgb` the sector `h / 43` is in `0..5` and is `5`, the
default branch, exactly when `h >= 215`; `rem = (h - 43 * region) * 6` is in
`0..252`; `p`, `q` and `t` are in `0..v`; and the channels returned are the
six-sector assignment of `(v, p, q, t)` evaluated over the unbounded
integers, so no 8-bit store truncates. -/
theorem zpl_image_hsv_to_rgb_sectors (c : zplHsvColour) (hc : c.is_u8) (hs : c.s ≠ 0) :
    0 ≤ spec_hsv_region (c.h : Int) ∧ spec_hsv_region (c.h : Int) ≤ 5 ∧
    (spec_hsv_region (c.h : Int) = 5 ↔ 215 ≤ c.h) ∧
    0 ≤ spec_hsv_rem (c.h : Int) ∧ spec_hsv_rem (c.h : Int) ≤ 252 ∧
    0 ≤ spec_hsv_p (c.s : Int) (c.v : Int) ∧ spec_hsv_p (c.s : Int) (c.v : Int) ≤ (c.v : Int) ∧
    0 ≤ spec_hsv_q (c.h : Int) (c.s : Int) (c.v : Int) ∧
    spec_hsv_q (c.h : Int) (c.s : Int) (c.v : Int) ≤ (c.v : Int) ∧
    0 ≤ spec_hsv_t (c.h : Int) (c.s : Int) (c.v : Int) ∧
    spec_hsv_t (c.h : Int) (c.s : Int) (c.v : Int) ≤ (c.v : Int) ∧
    (((zpl_image_hsv_to_rgb c).r : Int), ((zpl_image_hsv_to_rgb c).g : Int),
      ((zpl_image_hsv_to_rgb c).b : Int))
      = spec_hsv_sectors (c.h : Int) (c.s : Int) (c.v : Int) := by
  obtain ⟨x, h, s, v⟩ := c
  obtain ⟨hh, hs', hv⟩ := hc
  simp only at hh hs' hv hs ⊢
  have hs255 : s ≤ 255 := by omega
  have hrem := hue_rem_le h
  rw [spec_hsv_p_cast s v hs255, spec_hsv_q_cast h s v hs255, spec_hsv_t_cast h s v hs255,
    spec_hsv_rem_cast, spec_hsv_region_cast]
  have hp := hsv_mix_le v s 256
  have hq := hsv_mix_le v s (hue_rem h)
  have ht := hsv_mix_le v s (255 - hue_rem h)
  refine ⟨by positivity, by omega, by omega, by positivity, by omega, by positivity,
    by exact_mod_cast hp, by positivity, by exact_mod_cast hq, by positivity,
    by exact_mod_cast ht, ?_⟩
  rw [hsv_to_rgb_codes x h s v hh (by omega) hs' hv]
  unfold spec_hsv_sectors
  rw [spec_hsv_p_cast s v hs255, spec_hsv_q_cast h s v hs255, spec_hsv_t_cast h s v hs255,
    spec_hsv_region_cast]
  have c1 := chan_eval_mix v s 256 le_rfl
  have c2 := chan_eval_mix v s (hue_rem h) (by omega)
  have c3 := chan_eval_mix v s (255 - hue_rem h) (by omega)
  rcases hue_code_cases h with ⟨h0, e1, e2, e3⟩ | ⟨h0, e1, e2, e3⟩ | ⟨h0, e1, e2, e3⟩ |
    ⟨h0, e1, e2, e3⟩ | ⟨h0, e1, e2, e3⟩ | ⟨h0, e1, e2, e3⟩
  · rw [e1, e2, e3, h0]
    simp [chan_eval_v, c1, c2, c3]
  · rw [e1, e2, e3, h0]
    simp [chan_eval_v, c1, c2, c3]
  · rw [e1, e2, e3, h0]
    simp [chan_eval_v, c1, c2, c3]
  · rw [e1, e2, e3, h0]
    simp [chan_eval_v, c1, c2, c3]
  · rw [e1, e2, e3, h0]
    simp [chan_eval_v, c1, c2, c3]
  · rw [e1, e2, e3, chan_eval_v, c1, c2]
    have h5 : ((h / 43 : Nat) : Int) ≥ 5 := by exact_mod_cast h0
    rw [if_neg (by omega), if_neg (by omega), if_neg (by omega), if_neg (by omega),
      if_neg (by omega)]

theorem zpl_image_hsv_to_rgb_sectors_witness :
    0 ≤ spec_hsv_region ((100 : Nat) : Int) ∧ spec_hsv_region ((100 : Nat) : Int) ≤ 5 ∧
    (spec_hsv_region ((100 : Nat) : Int) = 5 ↔ 215 ≤ 100) ∧
    0 ≤ spec_hsv_rem ((100 : Nat) : Int) ∧ spec_hsv_rem ((100 : Nat) : Int) ≤ 252 ∧
    0 ≤ spec_hsv_p ((150 : Nat) : Int) ((200 : Nat) : Int) ∧
    spec_hsv_p ((150 : Nat) : Int) ((200 : Nat) : Int) ≤ ((200 : Nat) : Int) ∧
    0 ≤ spec_hsv_q ((100 : Nat) : Int) ((150 : Nat) : Int) ((200 : Nat) : Int) ∧
    spec_hsv_q ((100 : Nat) : Int) ((150 : Nat) : Int) ((200 : Nat) : Int) ≤ ((200 : Nat) : Int) ∧
    0 ≤ spec_hsv_t ((100 : Nat) : Int) ((150 : Nat) : Int) ((200 : Nat) : Int) ∧
    spec_hsv_t ((100 : Nat) : Int) ((150 : Nat) : Int) ((200 : Nat) : Int) ≤ ((200 : Nat) : Int) ∧
    (((zpl_image_hsv_to_rgb ⟨0, 100, 150, 200⟩).r : Int),
      ((zpl_image_hsv_to_rgb ⟨0, 100, 150, 200⟩).g : Int),
      ((zpl_image_hsv_to_rgb ⟨0, 100, 150, 200⟩).b : Int))
      = spec_hsv_sectors ((100 : Nat) : Int) ((150 : Nat) : Int) ((200 : Nat) : Int) :=
  zpl_image_hsv_to_rgb_sectors ⟨0, 100, 150, 200⟩ (by decide) (by decide)

/-! ## The value component -/

theorem rgb_to_hsv_v (c : zplRgbColour) :
    (zpl_image_rgb_to_hsv c).v = max c.r (max c.g c.b) := by
  obtain ⟨hmax, _⟩ := rgb_max_min_facts c
  unfold zpl_image_rgb_to_hsv
  dsimp only
  rw [hmax]
  split_ifs <;> rfl

/-- C19: for every HSV colour `c` with 8-bit fields, the largest channel of
`zpl_image_hsv_to_rgb c` is `c.v`, and therefore the value component of
`zpl_image_rgb_to_hsv (zpl_image_hsv_to_rgb c)` is `c.v`. -/
theorem zpl_image_hsv_value_roundtrip (c : zplHsvColour) (hc : c.is_u8) :
    max (zpl_image_hsv_to_rgb c).r (max (zpl_image_hsv_to_rgb c).g (zpl_image_hsv_to_rgb c).b)
      = c.v ∧
    (zpl_image_rgb_to_hsv (zpl_image_hsv_to_rgb c)).v = c.v := by
  have key : max (zpl_image_hsv_to_rgb c).r
      (max (zpl_image_hsv_to_rgb c).g (zpl_image_hsv_to_rgb c).b) = c.v := by
    obtain ⟨x, h, s, v⟩ := c
    obtain ⟨hh, hs', hv⟩ := hc
    simp only at hh hs' hv ⊢
    by_cases hs : s = 0
    · rw [hsv_to_rgb_grey ⟨x, h, s, v⟩ hs]
      simp
    · rw [hsv_to_rgb_codes x h s v hh (by omega) hs' hv]
      have hrem := hue_rem_le h
      have c1 := chan_eval_mix v s 256 le_rfl
      have c2 := chan_eval_mix v s (hue_rem h) (by omega)
      have c3 := chan_eval_mix v s (255 - hue_rem h) (by omega)
      have hp := hsv_mix_le v s 256
      have hq := hsv_mix_le v s (hue_rem h)
      have ht := hsv_mix_le v s (255 - hue_rem h)
      rcases hue_code_cases h with ⟨h0, e1, e2, e3⟩ | ⟨h0, e1, e2, e3⟩ | ⟨h0, e1, e2, e3⟩ |
        ⟨h0, e1, e2, e3⟩ | ⟨h0, e1, e2, e3⟩ | ⟨h0, e1, e2, e3⟩ <;>
      · rw [e1, e2, e3]
        simp only [chan_eval_v, c1, c2, c3]
        omega
  exact ⟨key, by rw [rgb_to_hsv_v, key]⟩

theorem zpl_image_hsv_value_roundtrip_witness :
    max (zpl_image_hsv_to_rgb ⟨0, 100, 150, 200⟩).r
        (max (zpl_image_hsv_to_rgb ⟨0, 100, 150, 200⟩).g
          (zpl_image_hsv_to_rgb ⟨0, 100, 150, 200⟩).b)
      = 200 ∧
    (zpl_image_rgb_to_hsv (zpl_image_hsv_to_rgb ⟨0, 100, 150, 200⟩)).v = 200 :=
  zpl_image_hsv_value_roundtrip ⟨0, 100, 150, 200⟩ (by decide)

/-! ## The blur pass -/

set_option maxRecDepth 100000 in
theorem blur_factor_value : f64_div 1 13 = 1385722962267845 / 18014398509481984 := by
  decide!

theorem blur_weights_total :
    ((List.range 25).map fun (i : Nat) => blur_filter (i : Int)).sum = 13 := by
  decide!

theorem blur_product (A K r : ℚ) (hA : A * 13 = K + 1) (hK : 512 ≤ K) (hr0 : 0 ≤ r)
    (hr : r < 256) :
    A / K * (13 * r) = r + r / K ∧ r ≤ r + r / K ∧ r + r / K ≤ (2 * r + 1) / 2 := by
  have hKpos : 0 < K := by linarith
  have h1 : A / K * (13 * r) = r + r / K := by
    have : A / K * (13 * r) = (A * 13) * r / K := by ring
    rw [this, hA]
    field_simp
    ring
  have h2 : 0 ≤ r / K := div_nonneg hr0 hKpos.le
  have h3 : r / K ≤ 1 / 2 := by
    rw [div_le_iff₀ hKpos]
    linarith
  exact ⟨h1, by linarith, by linarith⟩

theorem filter_store_blur (r : Nat) (hr : r < 256) :
    filter_store (f64_div 1 13) 0 ((13 * r : Nat) : Int) = .ok r := by
  have hp : 1 ≤ 53 := by norm_num
  have h13 : i32_to_f64 ((13 * r : Nat) : Int) = 13 * (r : ℚ) := by
    unfold i32_to_f64
    rw [Int.cast_natCast, f64_round_nat _ (by omega)]
    push_cast
    ring
  obtain ⟨hx, hx1, hx2⟩ := blur_product 1385722962267845 18014398509481984 (r : ℚ)
    (by norm_num) (by norm_num) (by positivity) (by exact_mod_cast hr)
  have hx2' : (r : ℚ) + (r : ℚ) / 18014398509481984 ≤ ((2 * r + 1 : Nat) : ℚ) / 2 ^ 1 := by
    push_cast
    rw [pow_one]
    exact hx2
  have lower : ∀ z : ℚ, (r : ℚ) ≤ z → (r : ℚ) ≤ f64_round z := by
    intro z hz
    have := fp_round_ge_nat 53 1074 hp z r 0 (by omega) (by simpa using hz)
    simpa using this
  have upper : ∀ z : ℚ, 0 ≤ z → z ≤ ((2 * r + 1 : Nat) : ℚ) / 2 ^ 1 →
      f64_round z ≤ ((2 * r + 1 : Nat) : ℚ) / 2 ^ 1 := by
    intro z hz0 hz
    exact fp_round_le_dyadic 53 1074 hp z hz0 (2 * r + 1) 1 (by norm_num) (by omega) hz
  have hr0 : (0 : ℚ) ≤ (r : ℚ) := by positivity
  unfold filter_store f64_add f64_mul
  rw [blur_factor_value, h13, hx]
  have a1 := lower _ hx1
  have a2 := upper _ (by linarith) hx2'
  generalize f64_round ((r : ℚ) + (r : ℚ) / 18014398509481984) = y1 at a1 a2 ⊢
  have b1 := lower (y1 + 0) (by linarith)
  have b2 := upper (y1 + 0) (by linarith) (by linarith)
  generalize f64_round (y1 + 0) = y2 at b1 b2 ⊢
  have hlt : y2 < ((r : Int) : ℚ) + 1 := by
    have : ((2 * r + 1 : Nat) : ℚ) / 2 ^ 1 < (r : ℚ) + 1 := by
      push_cast
      linarith
    have e : ((r : Int) : ℚ) = (r : ℚ) := Int.cast_natCast r
    rw [e]
    linarith
  rw [f_to_i32_of_bounds y2 (r : Int) (by rw [Int.cast_natCast]; exact b1) hlt (by positivity)
    (by omega)]
  show Except.ok (to_u8 (zpl_min (zpl_max (r : Int) 0) 255)) = _
  rw [to_u8_clamp]
  congr 1
  omega

theorem filter_wrap_five_any (x W : Int) (fx : Nat) (hx0 : 0 ≤ x) (hx : x < W) (hfx : fx < 5) :
    0 ≤ filter_wrap x 5 (fx : Int) W ∧ filter_wrap x 5 (fx : Int) W < W := by
  unfold filter_wrap
  have e : Int.tdiv 5 2 = 2 := by decide
  rw [e]
  by_cases h : 0 ≤ x - 2 + (fx : Int) + W
  · rw [Int.tmod_eq_emod h (by omega)]
    exact ⟨Int.emod_nonneg _ (by omega), Int.emod_lt_of_pos _ (by omega)⟩
  · have hW : W = 1 := by omega
    rw [hW, Int.tmod_one]
    omega

theorem range_sum_mul_right (f : Nat → Int) (c : Int) (n : Nat) :
    ((List.range n).map fun i => f i * c).sum = ((List.range n).map f).sum * c := by
  induction n with
  | zero => simp
  | succ n ih => rw [range_sum_succ, range_sum_succ, ih]; ring

theorem blur_weights_sum :
    ((List.range 5).map fun (fy : Nat) =>
      ((List.range 5).map fun (fx : Nat) => blur_weights ((fy : Int) * 5 + (fx : Int))).sum).sum
      = 13 := by
  decide

theorem int_filter_sum_solid (sel : zplRgbColour → Nat) (mem : Mem) (src W H x y : Int) (c : Nat)
    (h : ∀ fx fy : Nat, fx < 5 → fy < 5 →
      sel (mem (src + (filter_wrap y 5 (fy : Int) H * W + filter_wrap x 5 (fx : Int) W))) = c) :
    int_filter_sum sel mem src W H blur_weights 5 5 x y = ((13 * c : Nat) : Int) := by
  unfold int_filter_sum int_filter_rows
  have e5 : (5 : Int).toNat = 5 := by decide
  rw [e5]
  have hrow : ∀ fy, fy < 5 →
      int_filter_row sel mem src W H blur_weights 5 5 x y fy 5
        = ((List.range 5).map fun (fx : Nat) =>
            blur_weights ((fy : Int) * 5 + (fx : Int))).sum * (c : Int) := by
    intro fy hfy
    unfold int_filter_row
    rw [← range_sum_mul_right]
    apply range_sum_congr
    intro fx hfx
    unfold int_filter_term
    rw [h fx fy hfx hfy]
  rw [range_sum_congr _ _ 5 hrow, range_sum_mul_right, blur_weights_sum]
  push_cast
  ring

theorem zpl_memcopy_is_u8 (mem : Mem) (dest source n : Int) (hmem : ∀ a, (mem a).is_u8) :
    ∀ a, (zpl_memcopy mem dest source n a).is_u8 := by
  intro a
  unfold zpl_memcopy
  split
  · exact hmem _
  · exact hmem _

/-- The filter call of the blur pass, taken by itself with the pointer `dest`
it is given: on a buffer of `W * H` pixels (`W, H >= 1`) whose channels all are
`(r, g, b)`, with a scratch buffer `blur_mem` disjoint from it and memory cells
holding `u8` channels, it completes and stores `(r, g, b)` into every pixel.
Inside `zpl_image_rgb_resize` the pointer is the one read back from the
variable `dest` after the copy loop. -/
theorem blur_pass_result (mem : Mem) (dest blur_mem W H : Int) (r g b : Nat)
    (hW : 1 ≤ W) (hH : 1 ≤ H) (hr : r < 256) (hg : g < 256) (hb : b < 256)
    (hmem : ∀ a, (mem a).is_u8)
    (hdisj : ∀ i j : Int, 0 ≤ i → i < H * W → 0 ≤ j → j < H * W → blur_mem + i ≠ dest + j)
    (hsolid : ∀ i : Int, 0 ≤ i → i < H * W →
      (mem (dest + i)).r = r ∧ (mem (dest + i)).g = g ∧ (mem (dest + i)).b = b) :
    zpl_image_rgb_filter (zpl_memcopy mem blur_mem dest (W * H * 4)) blur_mem W H dest
        blur_filter 5 5 (f64_div 1 13) 0
      = .ok (filter_progress (zpl_memcopy mem blur_mem dest (W * H * 4)) dest
          (fun i => ⟨r, g, b, (zpl_memcopy mem blur_mem dest (W * H * 4) (dest + i)).pad⟩)
          ((H.toNat : Int) * W)) := by
  set mem2 : Mem := zpl_memcopy mem blur_mem dest (W * H * 4) with hmem2def
  have hcells : Int.tdiv (W * H * 4) 4 = H * W := by
    rw [Int.mul_tdiv_cancel _ (by norm_num)]
    ring
  have hcopy : ∀ i : Int, 0 ≤ i → i < H * W → mem2 (blur_mem + i) = mem (dest + i) := by
    intro i h0 h1
    rw [hmem2def]
    unfold zpl_memcopy
    rw [hcells, if_pos (by omega)]
    congr 1
    omega
  have hmem2 : ∀ a, (mem2 a).is_u8 := zpl_memcopy_is_u8 mem blur_mem dest _ hmem
  set val : Int → zplRgbColour := fun i => ⟨r, g, b, (mem2 (dest + i)).pad⟩ with hvaldef
  have hval : ∀ i, (val i).is_u8 := fun i => ⟨hr, hg, hb⟩
  have hW0 : 0 ≤ W := by omega
  apply filter_loops mem2 blur_mem W H dest blur_filter 5 5 (f64_div 1 13) 0 val hW0
  intro x y hx hy
  have hx' : (x : Int) < W := by omega
  have hy' : (y : Int) < H := by omega
  obtain ⟨hn0, hn⟩ := pixel_index_bounds (x : Int) (y : Int) W H (by positivity) hx'
    (by positivity) hy'
  set n : Int := (y : Int) * W + (x : Int) with hndef
  set m : Mem := filter_progress mem2 dest val n with hm
  have hmu : ∀ a, (m a).is_u8 := filter_progress_is_u8 mem2 dest val n hmem2 hval
  have hsums := filter_sums_int m blur_mem W H blur_filter blur_weights 5 5 (x : Int) (y : Int) 1
    blur_filter_weights hmu (by decide)
  have hread : ∀ fx fy : Nat, fx < 5 → fy < 5 →
      m (blur_mem + (filter_wrap (y : Int) 5 (fy : Int) H * W + filter_wrap (x : Int) 5 (fx : Int) W))
        = mem (dest + (filter_wrap (y : Int) 5 (fy : Int) H * W
            + filter_wrap (x : Int) 5 (fx : Int) W)) ∧
      0 ≤ filter_wrap (y : Int) 5 (fy : Int) H * W + filter_wrap (x : Int) 5 (fx : Int) W ∧
      filter_wrap (y : Int) 5 (fy : Int) H * W + filter_wrap (x : Int) 5 (fx : Int) W < H * W := by
    intro fx fy hfx hfy
    obtain ⟨a1, a2⟩ := filter_wrap_five_any (x : Int) W fx (by positivity) hx' hfx
    obtain ⟨b1, b2⟩ := filter_wrap_five_any (y : Int) H fy (by positivity) hy' hfy
    obtain ⟨c1, c2⟩ := pixel_index_bounds _ _ W H a1 a2 b1 b2
    refine ⟨?_, c1, c2⟩
    rw [← hcopy _ c1 c2, hm]
    unfold filter_progress
    rw [if_neg]
    intro hcon
    exact hdisj _ (blur_mem + (filter_wrap (y : Int) 5 (fy : Int) H * W
      + filter_wrap (x : Int) 5 (fx : Int) W) - dest) c1 c2 (by omega) (by omega) (by omega)
  have hsum : ∀ (sel : zplRgbColour → Nat) (c : Nat),
      (∀ i : Int, 0 ≤ i → i < H * W → sel (mem (dest + i)) = c) →
      int_filter_sum sel m blur_mem W H blur_weights 5 5 (x : Int) (y : Int)
        = ((13 * c : Nat) : Int) := by
    intro sel c hc
    apply int_filter_sum_solid
    intro fx fy hfx hfy
    obtain ⟨e1, e2, e3⟩ := hread fx fy hfx hfy
    rw [e1]
    exact hc _ e2 e3
  have hold : m (dest + n) = mem2 (dest + n) := by
    rw [hm]
    unfold filter_progress
    rw [if_neg (by omega)]
  unfold filter_pixel
  rw [hsums]
  rw [hsum (fun c => c.r) r (fun i h0 h1 => (hsolid i h0 h1).1),
    hsum (fun c => c.g) g (fun i h0 h1 => (hsolid i h0 h1).2.1),
    hsum (fun c => c.b) b (fun i h0 h1 => (hsolid i h0 h1).2.2), ← hndef, hold]
  show (do
      let r' ← filter_store (f64_div 1 13) 0 ((13 * r : Nat) : Int)
      let g' ← filter_store (f64_div 1 13) 0 ((13 * g : Nat) : Int)
      let b' ← filter_store (f64_div 1 13) 0 ((13 * b : Nat) : Int)
      pure (m.write (dest + n) ⟨r', g', b', (mem2 (dest + n)).pad⟩) : Except Fault Mem) = _
  rw [filter_store_blur r hr, filter_store_blur g hg, filter_store_blur b hb]
  rfl


/-! ## The blur pass inside `zpl_image_rgb_resize` -/

/-- With `blur_iter > 0`, for extents in `[1, 2^24)` and a loop whose accesses
all stay inside the `cells` cells of the parameter variables, the call is the
copy loop followed by the assertion, the load of the pointer from the
variable `dest`, and the blur pass at that pointer. -/
theorem zpl_image_rgb_resize_blur_eq (mem : Mem)
    (addr_source addr_dest cells source sw sh dest dw dh : Int) (blur_iter blur_mem : Int)
    (hsw : 1 ≤ sw) (hsh : 1 ≤ sh) (hdw : 1 ≤ dw) (hdh : 1 ≤ dh)
    (hsw' : sw < 16777216) (hsh' : sh < 16777216) (hdw' : dw < 16777216) (hdh' : dh < 16777216)
    (hblur : blur_iter > 0)
    (hin : ∀ x y : Nat, x < dw.toNat → y < dh.toNat →
      0 ≤ spec_resize_coord sh dh (y : Int) * sw + spec_resize_coord sw dw (x : Int) ∧
      spec_resize_coord sh dh (y : Int) * sw + spec_resize_coord sw dw (x : Int) < cells ∧
      (y : Int) * dw + (x : Int) < cells) :
    zpl_image_rgb_resize mem addr_source addr_dest cells source sw sh dest dw dh blur_iter
        blur_mem
      = (ZPL_ASSERT_NOT_NULL blur_mem >>= fun _ =>
          load_ptr (spec_resize_copy (store_ptr (store_ptr mem addr_source source) addr_dest dest)
            addr_source sw sh addr_dest dw dh) addr_dest >>= fun dest_now =>
          buffer_access dest_now (dw * dh) source (sw * sh) dest (dw * dh) >>= fun _ =>
          zpl_image_rgb_filter
            (zpl_memcopy (spec_resize_copy
              (store_ptr (store_ptr mem addr_source source) addr_dest dest)
              addr_source sw sh addr_dest dw dh) blur_mem dest_now (dw * dh * 4))
            blur_mem dw dh dest_now blur_filter 5 5 (f64_div 1 13) 0) := by
  unfold zpl_image_rgb_resize
  dsimp only
  rw [resize_steps sw dw hsw hdw hsw' hdw', resize_steps sh dh hsh hdh hsh' hdh']
  simp only [except_ok_bind]
  rw [resize_copy_loop _ addr_source sw sh addr_dest dw dh cells hsw hsh hdw hdh hin]
  simp only [except_ok_bind]
  rw [if_pos hblur]

theorem load_ptr_of (m : Mem) (a : Int) (c0 c1 : zplRgbColour) (p : Int) (h0 : m a = c0)
    (h1 : m (a + 1) = c1)
    (hp : (if (cell_word c0 + 4294967296 * cell_word c1) % 4 = 0
            then Except.ok ((cell_word c0 + 4294967296 * cell_word c1) / 4)
            else Except.error Fault.undefined) = Except.ok p) :
    load_ptr m a = .ok p := by
  unfold load_ptr
  dsimp only
  rw [h0, h1]
  exact hp

theorem except_bind_ok {α β : Type} (e : Except Fault α) (f : α → Except Fault β) (v : β)
    (h : (e >>= f) = .ok v) : ∃ u, e = .ok u ∧ f u = .ok v := by
  cases e with
  | error x => cases h
  | ok u => exact ⟨u, rfl, h⟩

theorem foldlM_preserves {α β : Type} (P : β → Prop) (f : β → α → Except Fault β) (l : List α)
    (h : ∀ b a b', a ∈ l → P b → f b a = .ok b' → P b') (b b' : β) (hb : P b)
    (hr : l.foldlM f b = .ok b') : P b' := by
  induction l generalizing b with
  | nil =>
    have e : b' = b := by
      have h1 : (Except.ok b : Except Fault β) = .ok b' := hr
      cases h1
      rfl
    rw [e]
    exact hb
  | cons x l ih =>
    rw [List.foldlM_cons] at hr
    obtain ⟨u, hu, hrest⟩ := except_bind_ok _ _ _ hr
    exact ih (fun b a b' ha => h b a b' (List.mem_cons_of_mem x ha)) u
      (h b x u (List.mem_cons_self x l) hb hu) hrest

theorem filter_pixel_frame (m m' : Mem) (src W H dst : Int) (filter : Int → ℚ) (fw fh : Int)
    (factor bias : ℚ) (x y : Int)
    (h : filter_pixel m src W H dst filter fw fh factor bias x y = .ok m') (a : Int)
    (ha : a ≠ dst + (y * W + x)) : m' a = m a := by
  unfold filter_pixel at h
  obtain ⟨acc, _, h1⟩ := except_bind_ok _ _ _ h
  obtain ⟨r, _, h2⟩ := except_bind_ok _ _ _ h1
  obtain ⟨g, _, h3⟩ := except_bind_ok _ _ _ h2
  obtain ⟨b, _, h4⟩ := except_bind_ok _ _ _ h3
  have e : m' = m.write (dst + (y * W + x)) ⟨r, g, b, (m (dst + (y * W + x))).pad⟩ := by
    have h5 : (Except.ok (m.write (dst + (y * W + x)) ⟨r, g, b, (m (dst + (y * W + x))).pad⟩)
        : Except Fault Mem) = .ok m' := h4
    cases h5
    rfl
  rw [e]
  unfold Mem.write
  rw [if_neg ha]

/-- A completed `zpl_image_rgb_filter` has written only to the
`source_w * source_h` cells of its destination. -/
theorem zpl_image_rgb_filter_frame (mem m' : Mem) (src W H dst : Int) (filter : Int → ℚ)
    (fw fh : Int) (factor bias : ℚ)
    (h : zpl_image_rgb_filter mem src W H dst filter fw fh factor bias = .ok m') (a : Int)
    (ha : a < dst ∨ dst + H * W ≤ a) : m' a = mem a := by
  unfold zpl_image_rgb_filter at h
  dsimp only at h
  apply foldlM_preserves (fun m : Mem => m a = mem a) _ _ _ mem m' rfl h
  intro m y m1 hy hm hstep
  apply foldlM_preserves (fun m : Mem => m a = mem a) _ _ _ m m1 hm hstep
  intro m2 x m3 hx hm2 hpix
  have hx' : (x : Int) < W := by
    have := List.mem_range.1 hx; omega
  have hy' : (y : Int) < H := by
    have := List.mem_range.1 hy; omega
  obtain ⟨h0, h1⟩ := pixel_index_bounds (x : Int) (y : Int) W H (by positivity) hx'
    (by positivity) hy'
  rw [filter_pixel_frame m2 m3 src W H dst filter fw fh factor bias _ _ hpix a (by omega)]
  exact hm2

theorem resize_two_copy_eq (mem : Mem) :
    spec_resize_copy (store_ptr (store_ptr mem 10 1000) 12 2000) 10 2 1 12 2 1
      = (((store_ptr (store_ptr mem 10 1000) 12 2000).write 12
          (store_ptr (store_ptr mem 10 1000) 12 2000 10)).write 13
          (((store_ptr (store_ptr mem 10 1000) 12 2000).write 12
            (store_ptr (store_ptr mem 10 1000) 12 2000 10)) 11)) := rfl

theorem resize_two_copy_frame (mem : Mem) (a : Int) (ha : a < 10 ∨ 14 ≤ a) :
    spec_resize_copy (store_ptr (store_ptr mem 10 1000) 12 2000) 10 2 1 12 2 1 a = mem a := by
  rw [resize_two_copy_eq]
  unfold Mem.write
  rw [if_neg (by omega), if_neg (by omega), store_ptr_other _ _ _ _ (by omega) (by omega),
    store_ptr_other _ _ _ _ (by omega) (by omega)]

theorem word_cell_is_u8 (w : Int) : (word_cell w).is_u8 := by
  unfold word_cell
  refine ⟨?_, ?_, ?_⟩ <;> dsimp only <;> omega

theorem store_ptr_is_u8 (mem : Mem) (a p : Int) (hmem : ∀ c, (mem c).is_u8) :
    ∀ c, (store_ptr mem a p c).is_u8 := by
  intro c
  unfold store_ptr Mem.write
  split
  · exact word_cell_is_u8 _
  · split
    · exact word_cell_is_u8 _
    · exact hmem c

theorem resize_two_copy_is_u8 (mem : Mem) (hmem : ∀ c, (mem c).is_u8) :
    ∀ c, (spec_resize_copy (store_ptr (store_ptr mem 10 1000) 12 2000) 10 2 1 12 2 1 c).is_u8 := by
  intro c
  have h0 := store_ptr_is_u8 _ 12 2000 (store_ptr_is_u8 mem 10 1000 hmem)
  rw [resize_two_copy_eq]
  unfold Mem.write
  split
  · split
    · exact h0 _
    · exact h0 _
  · split
    · exact h0 _
    · exact h0 _

theorem blur_bug_mem_is_u8 : ∀ a, (blur_bug_mem a).is_u8 := by
  intro a
  unfold blur_bug_mem
  split_ifs <;> decide

/-- The filter call of the blur pass on the source buffer of `blur_bug_mem`,
the pixels `(0, 0, 0)` and `(130, 130, 130)`: the accumulators are `6 * 130` and
`7 * 130`, and the pixels stored are `(60, 60, 60)` and `(70, 70, 70)`. -/
theorem blur_pass_example :
    zpl_image_rgb_filter
        (zpl_memcopy
          (spec_resize_copy (store_ptr (store_ptr blur_bug_mem 10 1000) 12 2000) 10 2 1 12 2 1)
          3000 1000 (2 * 1 * 4))
        3000 2 1 1000 blur_filter 5 5 (f64_div 1 13) 0
      = .ok (filter_progress
          (zpl_memcopy
            (spec_resize_copy (store_ptr (store_ptr blur_bug_mem 10 1000) 12 2000) 10 2 1 12 2 1)
            3000 1000 (2 * 1 * 4))
          1000 (fun i => if i = 0 then ⟨60, 60, 60, 0⟩ else ⟨70, 70, 70, 0⟩)
          (((1 : Int).toNat : Int) * 2)) := by
  set mem2 : Mem := zpl_memcopy
    (spec_resize_copy (store_ptr (store_ptr blur_bug_mem 10 1000) 12 2000) 10 2 1 12 2 1)
    3000 1000 (2 * 1 * 4) with hmem2def
  have hmem2 : ∀ a, (mem2 a).is_u8 :=
    zpl_memcopy_is_u8 _ 3000 1000 _ (resize_two_copy_is_u8 _ blur_bug_mem_is_u8)
  set val : Int → zplRgbColour := fun i => if i = 0 then ⟨60, 60, 60, 0⟩ else ⟨70, 70, 70, 0⟩
    with hvaldef
  have hval : ∀ i, (val i).is_u8 := by
    intro i
    rw [hvaldef]
    dsimp only
    split <;> decide
  apply filter_loops mem2 3000 2 1 1000 blur_filter 5 5 (f64_div 1 13) 0 val (by decide)
  intro x y hx hy
  have hx2 : x < 2 := by simpa using hx
  have hy1 : y < 1 := by simpa using hy
  have hy0 : y = 0 := by omega
  subst hy0
  have hsums : ∀ n : Int, filter_sums (filter_progress mem2 1000 val n) 3000 2 1 blur_filter 5 5
      (x : Int) ((0 : Nat) : Int)
      = .ok (int_filter_sum (fun c => c.r) (filter_progress mem2 1000 val n) 3000 2 1
              blur_weights 5 5 (x : Int) ((0 : Nat) : Int),
             int_filter_sum (fun c => c.g) (filter_progress mem2 1000 val n) 3000 2 1
              blur_weights 5 5 (x : Int) ((0 : Nat) : Int),
             int_filter_sum (fun c => c.b) (filter_progress mem2 1000 val n) 3000 2 1
              blur_weights 5 5 (x : Int) ((0 : Nat) : Int)) :=
    fun n => filter_sums_int _ 3000 2 1 blur_filter blur_weights 5 5 _ _ 1
      blur_filter_weights (filter_progress_is_u8 mem2 1000 val n hmem2 hval) (by decide)
  unfold filter_pixel
  rw [hsums]
  interval_cases x
  · have s : ∀ sel : zplRgbColour → Nat, sel = (fun c => c.r) ∨ sel = (fun c => c.g) ∨
        sel = (fun c => c.b) →
        int_filter_sum sel (filter_progress mem2 1000 val (((0 : Nat) : Int) * 2 + ((0 : Nat) : Int)))
          3000 2 1 blur_weights 5 5 ((0 : Nat) : Int) ((0 : Nat) : Int) = ((13 * 60 : Nat) : Int) := by
      rintro sel (h | h | h) <;> subst h <;> decide
    rw [s _ (Or.inl rfl), s _ (Or.inr (Or.inl rfl)), s _ (Or.inr (Or.inr rfl))]
    show (do
        let r' ← filter_store (f64_div 1 13) 0 ((13 * 60 : Nat) : Int)
        let g' ← filter_store (f64_div 1 13) 0 ((13 * 60 : Nat) : Int)
        let b' ← filter_store (f64_div 1 13) 0 ((13 * 60 : Nat) : Int)
        pure ((filter_progress mem2 1000 val (((0 : Nat) : Int) * 2 + ((0 : Nat) : Int))).write
          (1000 + (((0 : Nat) : Int) * 2 + ((0 : Nat) : Int)))
          ⟨r', g', b', ((filter_progress mem2 1000 val (((0 : Nat) : Int) * 2 + ((0 : Nat) : Int)))
            (1000 + (((0 : Nat) : Int) * 2 + ((0 : Nat) : Int)))).pad⟩) : Except Fault Mem) = _
    rw [filter_store_blur 60 (by decide)]
    rfl
  · have s : ∀ sel : zplRgbColour → Nat, sel = (fun c => c.r) ∨ sel = (fun c => c.g) ∨
        sel = (fun c => c.b) →
        int_filter_sum sel (filter_progress mem2 1000 val (((0 : Nat) : Int) * 2 + ((1 : Nat) : Int)))
          3000 2 1 blur_weights 5 5 ((1 : Nat) : Int) ((0 : Nat) : Int) = ((13 * 70 : Nat) : Int) := by
      rintro sel (h | h | h) <;> subst h <;> decide
    rw [s _ (Or.inl rfl), s _ (Or.inr (Or.inl rfl)), s _ (Or.inr (Or.inr rfl))]
    show (do
        let r' ← filter_store (f64_div 1 13) 0 ((13 * 70 : Nat) : Int)
        let g' ← filter_store (f64_div 1 13) 0 ((13 * 70 : Nat) : Int)
        let b' ← filter_store (f64_div 1 13) 0 ((13 * 70 : Nat) : Int)
        pure ((filter_progress mem2 1000 val (((0 : Nat) : Int) * 2 + ((1 : Nat) : Int))).write
          (1000 + (((0 : Nat) : Int) * 2 + ((1 : Nat) : Int)))
          ⟨r', g', b', ((filter_progress mem2 1000 val (((0 : Nat) : Int) * 2 + ((1 : Nat) : Int)))
            (1000 + (((0 : Nat) : Int) * 2 + ((1 : Nat) : Int)))).pad⟩) : Except Fault Mem) = _
    rw [filter_store_blur 70 (by decide)]
    rfl

/-- A `2 × 1` source resized into a `2 × 1` destination with `blur_iter = 1`: the
copy loop has copied the variable `source` over the variable `dest`, and the
blur pass is the copy of the caller's source buffer (cell `1000`) into the
scratch buffer, followed by the filter call that writes to the source
buffer. -/
theorem zpl_image_rgb_resize_blur_source (mem : Mem) :
    zpl_image_rgb_resize mem 10 12 2 1000 2 1 2000 2 1 1 3000
      = zpl_image_rgb_filter (zpl_memcopy
          (spec_resize_copy (store_ptr (store_ptr mem 10 1000) 12 2000) 10 2 1 12 2 1)
          3000 1000 (2 * 1 * 4)) 3000 2 1 1000 blur_filter 5 5 (f64_div 1 13) 0 := by
  have hassert : ZPL_ASSERT_NOT_NULL 3000 = .ok () := by decide
  rw [zpl_image_rgb_resize_blur_eq mem 10 12 2 1000 2 1 2000 2 1 1 3000 (by decide)
    (by decide) (by decide) (by decide) (by decide) (by decide) (by decide) (by decide)
    (by decide)
    (by
      intro x y hx hy
      have hx2 : x < 2 := by simpa using hx
      have hy1 : y < 1 := by simpa using hy
      interval_cases x <;> interval_cases y <;> decide)]
  have hload : load_ptr (spec_resize_copy (store_ptr (store_ptr mem 10 1000) 12 2000)
      10 2 1 12 2 1) 12 = .ok 1000 :=
    load_ptr_of _ 12 (word_cell (4 * 1000 % 4294967296)) (word_cell (4 * 1000 / 4294967296)) _
      rfl rfl (by decide)
  have hbuf : buffer_access 1000 (2 * 1) 1000 (2 * 1) 2000 (2 * 1) = .ok () := by decide
  rw [hassert, hload]
  simp only [except_ok_bind]
  rw [hbuf]
  exact except_ok_bind _ _

/-- C18, evaluated on calls with `blur_iter = 1`, the parameter variables
`source` at cells `10`, `11` and `dest` at cells `12`, `13`, the source buffer at
cell `1000`, the destination buffer at cell `2000`, a scratch buffer at cell
`3000`, and no access allowed beyond the two cells of a parameter variable.
The first four statements hold for every content of the memory, and so for
every destination image, solid or not.

The 25 weights of the blur kernel do sum to `13`.

A `2 × 2` source resized into a `2 × 2` destination: the copy loop leaves the
parameter variables, and the call has no defined result.

A `1 × 1` source resized into a `2 × 1` destination: the loop has stored the
low word of the variable `source` into both words of the variable `dest`; the
blur pass reads `dest` back as a pointer to no buffer, and the call has no
defined result.

A `2 × 1` source resized into a `2 × 1` destination: the loop has copied the
variable `source` over the variable `dest`; the blur pass copies the
caller's source buffer into the scratch buffer and filters it back into the
source buffer, and a call that completes leaves both cells of the
destination buffer as they were.  With the source pixels `(0, 0, 0)` and
`(130, 130, 130)` and the destination pixels `(7, 8, 9)` of `blur_bug_mem` the call
completes: the source buffer then holds `(60, 60, 60)` and `(70, 70, 70)`, the
destination buffer `(7, 8, 9)` twice. -/
theorem zpl_image_rgb_resize_blur_fails (mem : Mem) :
    ((List.range 25).map fun (i : Nat) => blur_filter (i : Int)).sum = 13 ∧
    zpl_image_rgb_resize mem 10 12 2 1000 2 2 2000 2 2 1 3000 = .error .undefined ∧
    zpl_image_rgb_resize mem 10 12 2 1000 1 1 2000 2 1 1 3000 = .error .undefined ∧
    (∃ m1 : Mem, (∀ a : Int, a < 10 ∨ 14 ≤ a → m1 a = mem a) ∧
      zpl_image_rgb_resize mem 10 12 2 1000 2 1 2000 2 1 1 3000
        = zpl_image_rgb_filter (zpl_memcopy m1 3000 1000 (2 * 1 * 4)) 3000 2 1 1000
            blur_filter 5 5 (f64_div 1 13) 0) ∧
    (∀ m' : Mem, zpl_image_rgb_resize mem 10 12 2 1000 2 1 2000 2 1 1 3000 = .ok m' →
      m' 2000 = mem 2000 ∧ m' 2001 = mem 2001) ∧
    (zpl_image_rgb_resize blur_bug_mem 10 12 2 1000 2 1 2000 2 1 1 3000).map
        (fun m => (m 1000, m 1001, m 2000, m 2001))
      = .ok (⟨60, 60, 60, 0⟩, ⟨70, 70, 70, 0⟩, ⟨7, 8, 9, 0⟩, ⟨7, 8, 9, 0⟩) := by
  have hassert : ZPL_ASSERT_NOT_NULL 3000 = .ok () := by decide
  refine ⟨blur_weights_total, ?_, ?_,
    ⟨_, resize_two_copy_frame mem, zpl_image_rgb_resize_blur_source mem⟩, ?_, ?_⟩
  · exact zpl_image_rgb_resize_overrun mem 10 12 2 1000 2 2 2000 2 2 1 3000 (by decide)
      (by decide) (by decide) (by decide) (by decide) (by decide) (by decide) (by decide)
      (by decide)
  · rw [zpl_image_rgb_resize_blur_eq mem 10 12 2 1000 1 1 2000 2 1 1 3000 (by decide) (by decide)
      (by decide) (by decide) (by decide) (by decide) (by decide) (by decide) (by decide)
      (by
        intro x y hx hy
        have hx2 : x < 2 := by simpa using hx
        have hy1 : y < 1 := by simpa using hy
        interval_cases x <;> interval_cases y <;> decide)]
    have hload : load_ptr (spec_resize_copy (store_ptr (store_ptr mem 10 1000) 12 2000)
        10 1 1 12 2 1) 12 = .ok 4294967297000 :=
      load_ptr_of _ 12 (word_cell (4 * 1000 % 4294967296)) (word_cell (4 * 1000 % 4294967296)) _
        rfl rfl (by decide)
    have hbuf : buffer_access 4294967297000 (2 * 1) 1000 (1 * 1) 2000 (2 * 1)
        = .error .undefined := by decide
    rw [hassert, hload]
    simp only [except_ok_bind]
    rw [hbuf]
    exact except_error_bind _ _
  · intro m' hm'
    rw [zpl_image_rgb_resize_blur_source mem] at hm'
    have hcopy : ∀ a : Int, 14 ≤ a ∧ a < 3000 →
        zpl_memcopy (spec_resize_copy (store_ptr (store_ptr mem 10 1000) 12 2000) 10 2 1 12 2 1)
          3000 1000 (2 * 1 * 4) a = mem a := by
      intro a ha
      unfold zpl_memcopy
      have e : Int.tdiv (2 * 1 * 4) 4 = 2 := by decide
      rw [e, if_neg (by omega)]
      exact resize_two_copy_frame mem a (by omega)
    constructor
    · rw [zpl_image_rgb_filter_frame _ m' 3000 2 1 1000 blur_filter 5 5 (f64_div 1 13) 0 hm' 2000
        (by omega)]
      exact hcopy 2000 (by omega)
    · rw [zpl_image_rgb_filter_frame _ m' 3000 2 1 1000 blur_filter 5 5 (f64_div 1 13) 0 hm' 2001
        (by omega)]
      exact hcopy 2001 (by omega)
  · rw [zpl_image_rgb_resize_blur_source blur_bug_mem, blur_pass_example]
    decide
